import Mathlib

/-!
Verification of the symi score-language implementation.

This file shallowly embeds the Rust sources of the repository
(`src/rs/src/compiler/rational.rs`, `compiler/types.rs`, `compiler/compile.rs`,
`rowan/parser.rs`, `rowan/sink.rs`, `midi/writer.rs`) as Lean definitions and
proves properties of them.  Machine integers (`i32`, `i16`, `u32`, ...) are
modelled as `Int`/`Nat`; the Rust operators `%` and `/` on `i32` are the
truncated `Int.tmod`/`Int.tdiv`.  The checked-overflow aborts (`expect`) of the
source only ever abort, they never wrap, so on non-aborting runs the plain
`Int` semantics below agrees with the Rust semantics.  IEEE floats (`f32`,
`f64`) are modelled by exact rationals `ℚ`; the two transcendental operations
the compiler uses (`2f32.powf`, `f32::log2`) are abstracted as an explicit
`FloatOps` parameter, so every theorem below quantifying over `FloatOps` holds
for any rounding behaviour of those operations.
-/

namespace Symi

/-! ### Rational32 (compiler/rational.rs)

The recursion `fn gcd(a, b) = if b == 0 then a.abs() else gcd(b, a % b)` is
written with an explicit fuel so that it reduces by evaluation; the fuel
`b.natAbs + 1` is proved sufficient once and for all in `rgcd_eq_gcd`. -/

/-- Fueled Euclidean recursion; one fuel unit per recursive call. -/
def rgcdFuel : Nat → Int → Int → Int
  | 0, a, _ => (a.natAbs : Int)
  | fuel + 1, a, b => if b = 0 then (a.natAbs : Int) else rgcdFuel fuel b (a.tmod b)

/-- Embeds `fn gcd(a: i32, b: i32) -> i32` from compiler/rational.rs: the body
is `if b == 0 { a.abs() } else { gcd(b, a % b) }` where i32 `%` truncates. -/
def rgcd (a b : Int) : Int := rgcdFuel (b.natAbs + 1) a b

/-- Embeds `fn lcm(a: i32, b: i32) -> i32`: `((a64 / g64).checked_mul(b64)).abs()`
with overflow aborting; i64 `/` truncates. -/
def rlcm (a b : Int) : Int := (((a.tdiv (rgcd a b)) * b).natAbs : Int)

/-- Embeds `pub struct Rational32(pub i32, pub i32)`: `num` is field `.0`,
`den` is field `.1`. -/
structure Rational32 where
  num : Int
  den : Int
deriving DecidableEq, Repr

namespace Rational32

/-- Embeds `Rational32::zero()`. -/
def zero : Rational32 := ⟨0, 1⟩

/-- Embeds `Rational32::new(num, denom)`.  The source panics when `denom == 0`;
that case is unreachable at every call site modelled below. -/
def new (num den : Int) : Rational32 :=
  if den < 0 then ⟨-num, -den⟩ else ⟨num, den⟩

/-- Embeds `Rational32::from_integer` / `From<i32>`. -/
def fromInteger (s : Int) : Rational32 := ⟨s, 1⟩

/-- Embeds `Rational32::is_zero()`. -/
def isZero (q : Rational32) : Bool := q.num == 0

/-- Embeds `Rational32::to_f32()`; the exact value of the fraction stands in
for the rounded `f32`. -/
def toF32 (q : Rational32) : Option ℚ :=
  if q.den = 0 then none else some ((q.num : ℚ) / (q.den : ℚ))

/-- Embeds `Rational32::reduce()`: divide both fields by the gcd (truncated
i32 division) and normalise the denominator sign. -/
def reduce (q : Rational32) : Rational32 :=
  let g := rgcd q.num q.den
  let num := q.num.tdiv g
  let den := q.den.tdiv g
  if den < 0 then ⟨-num, -den⟩ else ⟨num, den⟩

/-- Embeds `impl Add for Rational32`: reduce both operands, put them over the
lcm of the denominators, add the scaled numerators. -/
def add (a b : Rational32) : Rational32 :=
  let lhs := a.reduce
  let rhs := b.reduce
  let commonDenom := rlcm lhs.den rhs.den
  let lhsFactor := commonDenom.tdiv lhs.den
  let rhsFactor := commonDenom.tdiv rhs.den
  ⟨lhs.num * lhsFactor + rhs.num * rhsFactor, commonDenom⟩

/-- Embeds `impl Neg for Rational32`. -/
def neg (q : Rational32) : Rational32 := ⟨-q.num, q.den⟩

/-- Embeds `impl Mul<Rational32> for Rational32`: reduce both operands and
cross-cancel `(lhs.num, rhs.den)` and `(rhs.num, lhs.den)` before multiplying. -/
def mul (a b : Rational32) : Rational32 :=
  let lhs := a.reduce
  let rhs := b.reduce
  let g1 := rgcd lhs.num rhs.den
  let g2 := rgcd rhs.num lhs.den
  ⟨(lhs.num.tdiv g1) * (rhs.num.tdiv g2), (lhs.den.tdiv g2) * (rhs.den.tdiv g1)⟩

/-- Embeds `impl Div<Rational32> for Rational32`: `(self.0 * rhs.1, self.1 * rhs.0)`,
with no reduction and no sign normalisation.  The source panics when
`rhs.0 == 0`. -/
def div (a b : Rational32) : Rational32 := ⟨a.num * b.den, a.den * b.num⟩

/-- Embeds `impl Mul<T: Into<i32>> for Rational32` (scalar multiplication). -/
def mulInt (a : Rational32) (k : Int) : Rational32 := ⟨a.num * k, a.den⟩

/-- Embeds `Rational32::reduct_to(denom)`; the source panics when `denom == 0`. -/
def reductTo (q : Rational32) (denom : Int) : Rational32 :=
  let reduced := q.reduce
  let targetDenom := rlcm (reduced.den.natAbs : Int) (denom.natAbs : Int)
  let factor := targetDenom.tdiv (reduced.den.natAbs : Int)
  let sign : Int := if reduced.den < 0 then -1 else 1
  ⟨reduced.num * factor * sign, targetDenom⟩

/-- Embeds `impl PartialEq`: equality of the reduced forms, field by field. -/
def req (a b : Rational32) : Bool :=
  a.reduce.num == b.reduce.num && a.reduce.den == b.reduce.den

/-- Embeds the `<` direction of `impl PartialOrd`: compares the cross products
of the reduced forms. -/
def rlt (a b : Rational32) : Bool :=
  a.reduce.num * b.reduce.den < b.reduce.num * a.reduce.den

/-- Embeds the `>` direction of `impl PartialOrd`. -/
def rgt (a b : Rational32) : Bool := rlt b a

/-- The exact rational value of a `Rational32` (division by a zero denominator
yields zero in `ℚ`; every value below has a nonzero denominator). -/
def toRat (q : Rational32) : ℚ := (q.num : ℚ) / (q.den : ℚ)

/-- Normal form: numerator and denominator coprime, denominator positive.
This is the notion the specification calls "normal form". -/
def NF (q : Rational32) : Prop := Int.gcd q.num q.den = 1 ∧ 0 < q.den

instance (q : Rational32) : Decidable q.NF := by
  unfold NF
  infer_instance

end Rational32

/-! ### Abstract float operations

The compiler computes frequencies with `2f32.powf(x)` and `f32::log2`; these
transcendental operations are abstracted so that the theorems hold for any
implementation of them.  All other float arithmetic is exact on the modelled
values and is embedded as exact `ℚ` arithmetic. -/

/-- The two transcendental f32 operations used by the compiler. -/
structure FloatOps where
  pow2 : ℚ → ℚ
  log2 : ℚ → ℚ

/-- A trivial float model used to instantiate witnesses. -/
def floatOpsZero : FloatOps := ⟨fun _ => 0, fun _ => 0⟩

/-- Rounding of `f32::round`/`f64::round`: round half away from zero. -/
def rustRound (x : ℚ) : Int := if 0 ≤ x then ⌊x + 1/2⌋ else -⌊-x + 1/2⌋

/-- Integer clamp, the semantics of Rust `clamp(lo, hi)` for `lo ≤ hi`. -/
def clampI (x lo hi : Int) : Int := min (max x lo) hi

/-! ### SyntaxKind (rowan/lexer.rs) -/

/-- Embeds `enum SyntaxKind` from rowan/lexer.rs; token kinds first, then the
tree node kinds.  The snapshot of lexer.rs spells the alias macro node
`NODE_MACRODEF_RELATIVE`, while parse_fn.rs and compile.rs use
`NODE_MACRODEF_ALIAS`, a `Plus` token for `+`, and a `NODE_PITCH_CHAIN` node;
these are included here under the names the parser and compiler use. -/
inductive SyntaxKind where
  | Whitespace
  | Newline
  | Comment
  | Comma
  | Colon
  | Semicolon
  | At
  | ParenthesisPair
  | Plus
  | PitchSpellOctave
  | PitchSpellSimple
  | PitchFrequency
  | PitchRatio
  | PitchEdo
  | PitchCents
  | PitchRest
  | PitchSustain
  | Identifier
  | DurationCommas
  | DurationFraction
  | Quantize
  | Equals
  | LAngle
  | RAngle
  | LParen
  | RParen
  | Error
  | NODE_ROOT
  | NODE_MACRODEF_ALIAS
  | NODE_MACRODEF_SIMPLE
  | NODE_MACRODEF_COMPLEX
  | NODE_MACRODEF_COMPLEX_BODY
  | NODE_GHOST_LINE
  | NODE_NORMAL_LINE
  | NODE_NOTE_GROUP
  | NODE_NOTE
  | NODE_PITCH_CHAIN
  | NODE_MACRO_INVOKE
  | NODE_BASE_PITCH_DEF
  | NODE_BPM_DEF
  | NODE_TIME_SIGNATURE_DEF
deriving DecidableEq, Repr

namespace SyntaxKind

/-- Embeds `SyntaxKind::is_trivia`: whitespace and comments only, newlines are
significant. -/
def isTrivia : SyntaxKind → Bool
  | Whitespace | Comment => true
  | _ => false

/-- Embeds `SyntaxKind::is_pitch`. -/
def isPitch : SyntaxKind → Bool
  | PitchSpellOctave | PitchSpellSimple | PitchFrequency | PitchRatio
  | PitchEdo | PitchCents => true
  | _ => false

/-- Embeds `SyntaxKind::is_formal_pitch`. -/
def isFormalPitch : SyntaxKind → Bool
  | PitchSustain | PitchRest => true
  | _ => false

/-- The strum-generated per-variant test `is_newline`. -/
def isNewline (k : SyntaxKind) : Bool := k == Newline

def isIdentifier (k : SyntaxKind) : Bool := k == Identifier

def isAt (k : SyntaxKind) : Bool := k == At

def isPlus (k : SyntaxKind) : Bool := k == Plus

def isSemicolon (k : SyntaxKind) : Bool := k == Semicolon

def isPitchSustain (k : SyntaxKind) : Bool := k == PitchSustain

def isPitchRatio (k : SyntaxKind) : Bool := k == PitchRatio

def isPitchFrequency (k : SyntaxKind) : Bool := k == PitchFrequency

def isPitchSpellOctave (k : SyntaxKind) : Bool := k == PitchSpellOctave

def isPitchSpellSimple (k : SyntaxKind) : Bool := k == PitchSpellSimple

def isDurationCommas (k : SyntaxKind) : Bool := k == DurationCommas

def isDurationFraction (k : SyntaxKind) : Bool := k == DurationFraction

def isQuantize (k : SyntaxKind) : Bool := k == Quantize

def isNodePitchChain (k : SyntaxKind) : Bool := k == NODE_PITCH_CHAIN

def isNodeNote (k : SyntaxKind) : Bool := k == NODE_NOTE

def isNodeNoteGroup (k : SyntaxKind) : Bool := k == NODE_NOTE_GROUP

def isNodeMacroInvoke (k : SyntaxKind) : Bool := k == NODE_MACRO_INVOKE

def isNodeNormalLine (k : SyntaxKind) : Bool := k == NODE_NORMAL_LINE

def isNodeGhostLine (k : SyntaxKind) : Bool := k == NODE_GHOST_LINE

def isNodeMacrodefAlias (k : SyntaxKind) : Bool := k == NODE_MACRODEF_ALIAS

def isNodeMacrodefSimple (k : SyntaxKind) : Bool := k == NODE_MACRODEF_SIMPLE

def isNodeMacrodefComplex (k : SyntaxKind) : Bool := k == NODE_MACRODEF_COMPLEX

def isNodeMacrodefComplexBody (k : SyntaxKind) : Bool := k == NODE_MACRODEF_COMPLEX_BODY

def isNodeBasePitchDef (k : SyntaxKind) : Bool := k == NODE_BASE_PITCH_DEF

def isNodeBpmDef (k : SyntaxKind) : Bool := k == NODE_BPM_DEF

def isNodeTimeSignatureDef (k : SyntaxKind) : Bool := k == NODE_TIME_SIGNATURE_DEF

end SyntaxKind

/-! ### Text ranges and the concrete syntax tree -/

/-- Embeds rowan `TextRange` as a pair of byte offsets. -/
structure TextRange where
  start : Nat
  stop : Nat
deriving DecidableEq, Repr

/-- Embeds `TextRange::default()`: the empty range at offset zero. -/
def TextRange.default : TextRange := ⟨0, 0⟩

/-- The syntax tree the compiler walks: interior nodes carry a kind, a source
range and a list of children (nodes or tokens, in source order); tokens carry
their kind, range, and source text.  This models the rowan red tree interface
used by compile.rs (`kind`, `text_range`, `children_with_tokens`, `children`,
`descendants`, `descendants_with_tokens`, `text`). -/
inductive Cst where
  | node (kind : SyntaxKind) (range : TextRange) (children : List Cst)
  | tok (kind : SyntaxKind) (range : TextRange) (text : String)

namespace Cst

def kind : Cst → SyntaxKind
  | .node k _ _ => k
  | .tok k _ _ => k

def range : Cst → TextRange
  | .node _ r _ => r
  | .tok _ r _ => r

/-- The token text; nodes have no direct text (never queried on nodes). -/
def text : Cst → String
  | .node _ _ _ => ""
  | .tok _ _ t => t

def isNodeElem : Cst → Bool
  | .node _ _ _ => true
  | .tok _ _ _ => false

/-- Embeds `children_with_tokens()`: the direct children in source order. -/
def childrenWithTokens : Cst → List Cst
  | .node _ _ cs => cs
  | .tok _ _ _ => []

/-- Embeds `children()`: the direct child nodes only. -/
def children (c : Cst) : List Cst := c.childrenWithTokens.filter isNodeElem

/-- Embeds `find_child_token_by_fn` from compiler/helpers.rs. -/
def findChildTokenByFn (c : Cst) (p : Cst → Bool) : Option Cst :=
  (c.childrenWithTokens.filter (fun x => !x.isNodeElem)).find? p

/-- Embeds `find_child_node_by_fn` from compiler/helpers.rs. -/
def findChildNodeByFn (c : Cst) (p : Cst → Bool) : Option Cst :=
  c.children.find? p

mutual

/-- Embeds `descendants_with_tokens()`: the whole subtree including self, in
preorder. -/
def descendantsWithTokens : Cst → List Cst
  | .tok k r t => [.tok k r t]
  | .node k r cs => .node k r cs :: descendantsWithTokensList cs

def descendantsWithTokensList : List Cst → List Cst
  | [] => []
  | c :: cs => descendantsWithTokens c ++ descendantsWithTokensList cs

end

mutual

/-- Embeds `descendants()`: the subtree nodes including self, in preorder. -/
def descendantNodes : Cst → List Cst
  | .tok _ _ _ => []
  | .node k r cs => .node k r cs :: descendantNodesList cs

def descendantNodesList : List Cst → List Cst
  | [] => []
  | c :: cs => descendantNodes c ++ descendantNodesList cs

end

/-- The tokens of the subtree in source order
(`descendants_with_tokens().filter_map(into_token)`). -/
def descTokens (c : Cst) : List Cst := c.descendantsWithTokens.filter (fun x => !x.isNodeElem)

end Cst

/-! ### String parsing helpers (Rust str::parse and friends)

The numeric texts these functions receive are produced by the lexer regexes
(sign, digits, optional fraction part), and the embeddings below implement
exactly that grammar with exact values. -/

/-- All characters are ASCII digits and the list is nonempty. -/
def digitsToNat : List Char → Option Nat
  | [] => none
  | ds =>
    if ds.all (fun c => c.isDigit) then
      some (ds.foldl (fun acc c => acc * 10 + (c.toNat - 48)) 0)
    else none

/-- Embeds Rust integer `parse::<iN>()`: optional sign, digits, bounds check. -/
def rustParseInt (lo hi : Int) (s : String) : Option Int :=
  let core : List Char → Option Int := fun ds => (digitsToNat ds).map (fun n => (n : Int))
  let v : Option Int :=
    match s.data with
    | '-' :: rest => (core rest).map (fun n => -n)
    | '+' :: rest => core rest
    | ds => core ds
  v.bind (fun n => if lo ≤ n ∧ n ≤ hi then some n else none)

def rustParseI32 (s : String) : Option Int := rustParseInt (-2147483648) 2147483647 s

def rustParseI16 (s : String) : Option Int := rustParseInt (-32768) 32767 s

def rustParseU16 (s : String) : Option Int := rustParseInt 0 65535 s

/-- Embeds `parse::<f32>()` on the decimal texts the lexer produces
(`-?\d+(\.\d+)?`); the exact decimal value stands in for the rounded f32. -/
def rustParseF32 (s : String) : Option ℚ :=
  let core : List Char → Option ℚ := fun ds =>
    match ds.splitOn '.' with
    | [ip] => (digitsToNat ip).map (fun n => (n : ℚ))
    | [ip, fp] =>
      (digitsToNat ip).bind (fun n =>
        (digitsToNat fp).map (fun f => (n : ℚ) + (f : ℚ) / ((10 : ℚ) ^ fp.length)))
    | _ => none
  match s.data with
  | '-' :: rest => (core rest).map (fun q => -q)
  | '+' :: rest => core rest
  | ds => core ds

/-- Embeds `trim_matches(&['[', ']', '{', '}'])`: strip those characters from
both ends. -/
def trimBrackets (s : String) : String :=
  let isBr : Char → Bool := fun c => c == '[' || c == ']' || c == '\x7b' || c == '\x7d'
  String.mk (((s.data.dropWhile isBr).reverse.dropWhile isBr).reverse)

/-- Split a string at every occurrence of the given character (Rust
`str::split(char)` semantics). -/
def splitOnChar (s : String) (c : Char) : List String :=
  (s.data.splitOn c).map String.mk

/-! ### Pitch (compiler/types.rs) -/

/-- Embeds `enum Pitch`. -/
inductive Pitch where
  | SpellOctave (s : Int)
  | SpellSimple (s : Int)
  | Frequency (f : ℚ)
  | Ratio (r : Rational32)
  | Edo (r : Rational32)
  | Cents (c : Int)
  | Rest
  | Sustain
deriving DecidableEq, Repr

/-- Embeds `fn char_to_semitone`. -/
def charToSemitone (c : Char) : Option Int :=
  match c with
  | 'C' => some 0
  | 'D' => some 2
  | 'E' => some 4
  | 'F' => some 5
  | 'G' => some 7
  | 'A' => some 9
  | 'B' => some 11
  | _ => none

/-- Apply the accidental characters of a spell: sharp raises, flat lowers. -/
def applyAccidentals (semitone : Int) : List Char → Option Int
  | [] => some semitone
  | '#' :: rest => applyAccidentals (semitone + 1) rest
  | 'b' :: rest => applyAccidentals (semitone - 1) rest
  | _ => none

namespace Pitch

/-- The shape of the third capture group `-?\d+` of the spell-octave regex. -/
def signedDigitsShape : List Char → Bool
  | [] => false
  | '-' :: ds => !ds.isEmpty && ds.all (fun c => c.isDigit)
  | ds => ds.all (fun c => c.isDigit)

/-- Embeds `Pitch::parse_spell_octave` (regex `^([A-G])([#b]*)(-?\d+)$`). -/
def parseSpellOctave (s : String) : Option Pitch :=
  match s.data with
  | [] => none
  | c :: rest =>
    (charToSemitone c).bind (fun base =>
      let accs := rest.takeWhile (fun ch => ch == '#' || ch == 'b')
      let octaveChars := rest.drop accs.length
      if signedDigitsShape octaveChars then
        (applyAccidentals base accs).bind (fun semitone =>
          (rustParseI16 (String.mk octaveChars)).map (fun octave =>
            Pitch.SpellOctave (semitone + (octave + 1) * 12)))
      else none)

/-- Embeds `Pitch::parse_spell_simple` (regex `^([A-G])([#b]*)$`). -/
def parseSpellSimple (s : String) : Option Pitch :=
  match s.data with
  | [] => none
  | c :: rest =>
    (charToSemitone c).bind (fun base =>
      if rest.all (fun ch => ch == '#' || ch == 'b') then
        (applyAccidentals base rest).map Pitch.SpellSimple
      else none)

/-- Embeds `Pitch::parse_fequency` (source spelling). -/
def parseFequency (s : String) : Option Pitch :=
  (rustParseF32 s).map Pitch.Frequency

/-- Embeds `Pitch::parse_ratio` (split on a slash, parse two i32). -/
def parseRatio (s : String) : Option Pitch :=
  match splitOnChar s '/' with
  | [p0, p1] =>
    (rustParseI32 p0).bind (fun n =>
      (rustParseI32 p1).map (fun d => Pitch.Ratio (Rational32.new n d)))
  | _ => none

/-- Embeds `Pitch::parse_edo` (split on a backslash, parse two i32). -/
def parseEdo (s : String) : Option Pitch :=
  match splitOnChar s '\\' with
  | [p0, p1] =>
    (rustParseI32 p0).bind (fun n =>
      (rustParseI32 p1).map (fun d => Pitch.Edo (Rational32.new n d)))
  | _ => none

/-- Embeds `Pitch::parse_cents` (drop the trailing letter, parse i32). -/
def parseCents (s : String) : Option Pitch :=
  (rustParseI32 (String.mk s.data.dropLast)).map Pitch.Cents

end Pitch

/-! ### Compile-time data model (compiler/types.rs) -/

/-- Embeds `struct TimeStamp`; `seconds: f64` is an exact `ℚ`. -/
structure TimeStamp where
  seconds : ℚ
  bars : Nat
  ticks : Rational32
deriving DecidableEq, Repr

/-- Embeds `TimeStamp::default()`: zero seconds, zero bars, `0/4` ticks. -/
def TimeStamp.default : TimeStamp := ⟨0, 0, Rational32.new 0 4⟩

/-- Embeds `struct Note`. -/
structure Note where
  pitchChain : List Pitch
  freq : ℚ
  duration : Rational32
  durationSeconds : ℚ
  pitchRatio : ℚ
deriving DecidableEq, Repr

/-- Embeds `enum EventBody` (the `BaseFequencyDef` spelling is the source
spelling). -/
inductive EventBody where
  | Note (n : Note)
  | BaseNoteDef (s : Int)
  | BaseFequencyDef (f : ℚ)
  | TimeSignatureDef (r : Rational32)
  | BeatDurationDef (r : Rational32)
  | BPMDef (f : ℚ)
  | QuantizeDef (r : Rational32)
  | NewMeasure (n : Nat)
deriving DecidableEq, Repr

/-- Embeds `struct CompileEvent`. -/
structure CompileEvent where
  body : EventBody
  startTime : TimeStamp
  range : TextRange
  rangeInvoked : Option TextRange
deriving DecidableEq, Repr

/-- String-keyed maps model the `HashMap<String, _>` registries; only
`insert`, `get` and `contains_key` are used by the compiler, so an association
list with first-match lookup and shadowing insert is an exact model. -/
def SMap (α : Type) : Type := List (String × α)

namespace SMap

def empty {α : Type} : SMap α := []

def find? {α : Type} (m : SMap α) (k : String) : Option α :=
  (List.find? (fun p => p.1 == k) m).map (fun p => p.2)

/-- Embeds `HashMap::insert`: the new binding shadows any previous one. -/
def insert {α : Type} (m : SMap α) (k : String) (v : α) : SMap α := (k, v) :: m

/-- Embeds `HashMap::contains_key`. -/
def containsKey {α : Type} (m : SMap α) (k : String) : Bool := (m.find? k).isSome

end SMap

/-- Embeds `struct MacroRegistry`: three independent name-keyed maps. -/
structure MacroRegistry where
  aliasMacros : SMap (List Pitch)
  simpleMacros : SMap (List Note)
  complexMacros : SMap (List CompileEvent)

/-- Embeds `MacroRegistry::default()`. -/
def MacroRegistry.default : MacroRegistry := ⟨SMap.empty, SMap.empty, SMap.empty⟩

/-- Embeds `struct CompileState`. -/
structure CompileState where
  time : TimeStamp
  baseNote : Int
  baseFrequency : ℚ
  timeSignature : Rational32
  beatDuration : Rational32
  bpm : ℚ
  quantize : Rational32
  edoDef : Nat
deriving DecidableEq, Repr

/-- Embeds `CompileState::new()`; `26163/100` is the decimal `261.63` the
source writes for the frequency of C4. -/
def CompileState.new : CompileState :=
  { time := TimeStamp.default
    baseNote := 60
    baseFrequency := (26163 : ℚ) / 100
    timeSignature := Rational32.new 4 4
    beatDuration := Rational32.new 1 4
    bpm := 120
    quantize := Rational32.new 1 4
    edoDef := 0 }

/-- Embeds `enum DiagnosticLevel`. -/
inductive DiagnosticLevel where
  | Warning
  | Error
deriving DecidableEq, Repr

/-- Embeds `struct Diagnostic`. -/
structure Diagnostic where
  level : DiagnosticLevel
  message : String
  span : TextRange
deriving DecidableEq, Repr

/-- Embeds `struct Compiler`. -/
structure Compiler where
  diagnostics : List Diagnostic
  macros : MacroRegistry
  state : CompileState
  events : List CompileEvent

/-- Embeds `Compiler::new()`. -/
def Compiler.new : Compiler :=
  { diagnostics := [], macros := MacroRegistry.default, state := CompileState.new, events := [] }

/-! ### TimeStamp and Note operations (compiler/types.rs) -/

namespace TimeStamp

/-- Embeds `TimeStamp::dur_in_sec`: whole notes divided by whole notes per
minute, times 60.  The `to_f32().unwrap()` panics on a zero denominator; that
case is unreachable. -/
def durInSec (duration : Rational32) (st : CompileState) : ℚ :=
  let fullNotes := duration.toF32.getD 0
  let fullNotePerMinute := st.bpm * (st.beatDuration.toF32.getD 0)
  fullNotes / fullNotePerMinute * 60

/-- Embeds `TimeStamp::add_duration`. -/
def addDuration (ts : TimeStamp) (duration : Rational32) (st : CompileState) : TimeStamp :=
  { ts with
    ticks := ts.ticks.add duration
    seconds := ts.seconds + durInSec duration st }

/-- Embeds `TimeStamp::reduct_to_quantize`. -/
def reductToQuantize (ts : TimeStamp) (quantize : Rational32) : TimeStamp :=
  { ts with ticks := ts.ticks.reductTo quantize.den }

end TimeStamp

/-- Embeds `fn freq2spell`: nearest spell of a frequency against the current
base; the f32-to-i16 `as` cast saturates. -/
def freq2spell (M : FloatOps) (freq : ℚ) (st : CompileState) : Int :=
  let semitoneDiff := 12 * M.log2 (freq / st.baseFrequency)
  clampI (rustRound semitoneDiff) (-32768) 32767 + st.baseNote

namespace Note

/-- Embeds `Note::from_pitch`: realise a pitch against the ambient base note
and base frequency. -/
def fromPitch (M : FloatOps) (pitch : Pitch) (st : CompileState) : Note :=
  let baseNote := st.baseNote
  let baseFrequency := st.baseFrequency
  let freq : ℚ :=
    match pitch with
    | .SpellOctave spell => baseFrequency * M.pow2 (((spell - baseNote : Int) : ℚ) / 12)
    | .SpellSimple spell =>
      let semitoneDiff := (Int.ediv spell 12) * 12 + Int.emod (spell - baseNote) 12
      baseFrequency * M.pow2 ((semitoneDiff : ℚ) / 12)
    | .Frequency f => f
    | .Ratio r => baseFrequency * (r.toF32.getD 0)
    | .Edo r => baseFrequency * M.pow2 (r.toF32.getD 0)
    | .Cents c => baseFrequency * M.pow2 ((c : ℚ) / 1200)
    | .Rest => 0
    | .Sustain => 0
  { pitchChain := [pitch]
    freq := freq
    duration := Rational32.new 0 4
    durationSeconds := 0
    pitchRatio := freq / baseFrequency }

/-- Embeds `Note::note_from_pitch_with_base`: like `from_pitch` but against an
explicit local base; `SpellSimple` uses `spell - (base_note % 12)` with the
truncated i16 `%`. -/
def noteFromPitchWithBase (M : FloatOps) (pitch : Pitch) (baseNote : Int)
    (baseFrequency : ℚ) : Note :=
  let freq : ℚ :=
    match pitch with
    | .SpellOctave spell => baseFrequency * M.pow2 (((spell - baseNote : Int) : ℚ) / 12)
    | .SpellSimple spell =>
      let semitoneDiff := spell - Int.tmod baseNote 12
      baseFrequency * M.pow2 ((semitoneDiff : ℚ) / 12)
    | .Frequency f => f
    | .Ratio r => baseFrequency * (r.toF32.getD 0)
    | .Edo r => baseFrequency * M.pow2 (r.toF32.getD 0)
    | .Cents c => baseFrequency * M.pow2 ((c : ℚ) / 1200)
    | .Rest => 0
    | .Sustain => 0
  { pitchChain := [pitch]
    freq := freq
    duration := Rational32.new 0 4
    durationSeconds := 0
    pitchRatio := freq / baseFrequency }

/-- Embeds `Note::base_note_from_pitch`. -/
def baseNoteFromPitch (M : FloatOps) (pitch : Pitch) (freq : ℚ)
    (currentBase : Int × ℚ) : Int :=
  match pitch with
  | .SpellOctave s => s
  | .SpellSimple s => s
  | _ =>
    freq2spell M freq
      { CompileState.new with baseNote := currentBase.1, baseFrequency := currentBase.2 }

/-- Embeds `Note::set_duration`. -/
def setDuration (n : Note) (duration : Rational32) (st : CompileState) : Note :=
  { n with duration := duration, durationSeconds := TimeStamp.durInSec duration st }

/-- Embeds `Note::with_pitch_chain`. -/
def withPitchChain (n : Note) (chain : List Pitch) : Note := { n with pitchChain := chain }

/-- Embeds `Note::is_rest`. -/
def isRest (n : Note) : Bool :=
  n.pitchChain.length == 1 && (n.pitchChain.headD Pitch.Rest) == Pitch.Rest

/-- Embeds `Note::is_sustain`. -/
def isSustain (n : Note) : Bool :=
  n.pitchChain.length == 1 && (n.pitchChain.headD Pitch.Rest) == Pitch.Sustain

end Note

/-! ### Compiler primitives (compile.rs) -/

namespace Compiler

/-- Embeds `Compiler::error`. -/
def error (c : Compiler) (message : String) (span : TextRange) : Compiler :=
  { c with diagnostics := c.diagnostics ++ [⟨DiagnosticLevel.Error, message, span⟩] }

/-- Embeds `Compiler::warn`. -/
def warn (c : Compiler) (message : String) (span : TextRange) : Compiler :=
  { c with diagnostics := c.diagnostics ++ [⟨DiagnosticLevel.Warning, message, span⟩] }

/-- Embeds `Compiler::push_event`: the event gets the current time as start
time and no invocation range. -/
def pushEvent (c : Compiler) (body : EventBody) (range : TextRange) : Compiler :=
  { c with events := c.events ++ [⟨body, c.state.time, range, none⟩] }

/-- Embeds `Compiler::reset_ticks`: on positive ticks, advance the bar count,
zero the ticks, and emit `NewMeasure` with the default (empty) range. -/
def resetTicks (c : Compiler) : Compiler :=
  if 0 < c.state.time.ticks.num then
    let c := { c with state := { c.state with
      time := { c.state.time with
        bars := c.state.time.bars + 1
        ticks := Rational32.new 0 c.state.quantize.den } } }
    c.pushEvent (EventBody.NewMeasure c.state.time.bars) TextRange.default
  else c

end Compiler

namespace Compiler

/-- Embeds `Compiler::parse_duration_fraction`: trim brackets and braces,
split on a colon, numerator defaults to 1, zero denominators are rejected. -/
def parseDurationFraction (c : Compiler) (t : Cst) : Compiler × Option Rational32 :=
  let text := trimBrackets t.text
  let parts := splitOnChar text ':'
  let numerator : Int := ((parts.get? 1).bind rustParseI32).getD 1
  let rs : Option Rational32 :=
    (rustParseI32 (parts.headD "")).bind (fun denominator =>
      if denominator ≠ 0 then some (Rational32.new numerator denominator) else none)
  match rs with
  | none => (c.error "Invalid duration format" t.range, none)
  | some r => (c, some r)

/-- Embeds `Compiler::parse_duration_commas`: count the commas. -/
def parseDurationCommas (_c : Compiler) (t : Cst) : Option Nat :=
  some (t.text.data.filter (fun ch => ch == ',')).length

/-- Embeds `Compiler::parse_pitch_atom`, including the EDO grammar sugar on
integer frequency tokens and the `edo_def` state updates. -/
def parsePitchAtom (c : Compiler) (t : Cst) (allowFormal : Bool) :
    Compiler × Option Pitch :=
  if !allowFormal && t.kind.isFormalPitch then
    (c.error "Formal pitch not allowed here" t.range, none)
  else
    let text := t.text
    match t.kind with
    | SyntaxKind.PitchSpellOctave => (c, Pitch.parseSpellOctave text)
    | SyntaxKind.PitchSpellSimple => (c, Pitch.parseSpellSimple text)
    | SyntaxKind.PitchFrequency =>
      if c.state.edoDef == 0 || text.data.contains '.' then
        if ((rustParseF32 text).filter (fun f => 1 ≤ f && f < 100000000)).isSome then
          ({ c with state := { c.state with edoDef := 0 } }, Pitch.parseFequency text)
        else
          (c.error "Invalid frequency value" t.range, none)
      else
        (c, Pitch.parseEdo (text ++ "\\" ++ toString c.state.edoDef))
    | SyntaxKind.PitchRatio => (c, Pitch.parseRatio text)
    | SyntaxKind.PitchEdo =>
      let p := Pitch.parseEdo text
      match p with
      | some (Pitch.Edo r) =>
        ({ c with state := { c.state with edoDef := (Int.emod r.den 65536).toNat } }, p)
      | _ => (c, p)
    | SyntaxKind.PitchCents => (c, Pitch.parseCents text)
    | SyntaxKind.PitchRest => (c, some Pitch.Rest)
    | SyntaxKind.PitchSustain => (c, some Pitch.Sustain)
    | _ => (c.error "Invalid pitch token" t.range, none)

/-- Embeds `Compiler::parse_pitch`. -/
def parsePitch (M : FloatOps) (c : Compiler) (t : Cst) (allowFormal : Bool) :
    Compiler × Option Note :=
  match parsePitchAtom c t allowFormal with
  | (c, none) => (c, none)
  | (c, some pitch) => (c, some (Note.fromPitch M pitch c.state))

/-- Embeds `Compiler::parse_pitch_chain_ident_as_chain`: only alias entries
resolve inside a pitch chain, and empty alias chains are rejected. -/
def parsePitchChainIdentAsChain (c : Compiler) (t : Cst) :
    Compiler × Option (List Pitch) :=
  let ident := t.text
  match c.macros.aliasMacros.find? ident with
  | some chain =>
    if chain.isEmpty then
      (c.error "Identifier in pitch chain cannot resolve to an empty alias" t.range, none)
    else (c, some chain)
  | none =>
    if c.macros.simpleMacros.containsKey ident then
      (c.error "Identifier in pitch chain must resolve to an alias" t.range, none)
    else if c.macros.complexMacros.containsKey ident then
      (c.error "Identifier in pitch chain cannot resolve to a complex body" t.range, none)
    else
      (c.error "Undefined identifier in pitch chain" t.range, none)

/-- Embeds `Compiler::parse_pitch_chain_ident_as_chain_for_base_rhs`; unlike
the in-chain variant, an empty alias chain is not rejected here. -/
def parsePitchChainIdentAsChainForBaseRhs (c : Compiler) (t : Cst) :
    Compiler × Option (List Pitch) :=
  let ident := t.text
  match c.macros.aliasMacros.find? ident with
  | some chain => (c, some chain)
  | none =>
    if c.macros.simpleMacros.containsKey ident then
      (c.error "Identifier in base pitch RHS must resolve to an alias" t.range, none)
    else if c.macros.complexMacros.containsKey ident then
      (c.error "Identifier in base pitch RHS cannot resolve to a complex body" t.range, none)
    else
      (c.error "Undefined identifier in base pitch RHS" t.range, none)

/-- The evaluation fold of a multi-atom chain: realise the rightmost atom,
then walk the remaining atoms right to left, recomputing a local base from
each realised frequency. -/
def chainEvalFold (M : FloatOps) (atoms : List Pitch) (init : Note × (Int × ℚ)) :
    Note × (Int × ℚ) :=
  atoms.foldl
    (fun acc pitch =>
      let n := Note.noteFromPitchWithBase M pitch acc.2.1 acc.2.2
      (n, (Note.baseNoteFromPitch M pitch n.freq acc.2, n.freq)))
    init

/-- Embeds `Compiler::eval_pitch_chain_pitches`. -/
def evalPitchChainPitches (M : FloatOps) (c : Compiler) (pitchAtoms : List Pitch)
    (range : TextRange) : Compiler × Option Note :=
  if pitchAtoms.isEmpty then (c, none)
  else if pitchAtoms.length > 1 &&
      pitchAtoms.any (fun p => p == Pitch.Rest || p == Pitch.Sustain) then
    (c.error "rest/sustain cannot be used inside pitch chain" range, none)
  else if pitchAtoms.length == 1 then
    let atom := pitchAtoms.headD Pitch.Rest
    (c, some ((Note.fromPitch M atom c.state).withPitchChain [atom]))
  else
    let right := pitchAtoms.getLastD Pitch.Rest
    let currentNote := Note.fromPitch M right c.state
    let currentBase :=
      (Note.baseNoteFromPitch M right currentNote.freq (c.state.baseNote, c.state.baseFrequency),
        currentNote.freq)
    let folded := chainEvalFold M pitchAtoms.dropLast.reverse (currentNote, currentBase)
    (c, some (folded.1.withPitchChain pitchAtoms))

/-- The token loop of `Compiler::parse_base_pitch_rhs_chain_tokens`: collects
pitch atoms while alternating between pitch position and connector position. -/
def baseRhsChainLoop (c : Compiler) (tokens : List Cst) (pitchAtoms : List Pitch)
    (expectPitch : Bool) : Compiler × Option (List Pitch × Bool) :=
  match tokens with
  | [] => (c, some (pitchAtoms, expectPitch))
  | token :: rest =>
    if expectPitch then
      if token.kind.isPitch || token.kind.isFormalPitch then
        match parsePitchAtom c token false with
        | (c, none) => (c, none)
        | (c, some pitch) => baseRhsChainLoop c rest (pitchAtoms ++ [pitch]) false
      else if token.kind.isIdentifier then
        match parsePitchChainIdentAsChainForBaseRhs c token with
        | (c, none) => (c, none)
        | (c, some chain) =>
          if chain.isEmpty then
            (c.error "Identifier in base pitch RHS cannot resolve to an empty pitch chain"
              token.range, none)
          else baseRhsChainLoop c rest (pitchAtoms ++ chain) false
      else
        (c.error "Expected pitch token" token.range, none)
    else if token.kind.isAt then
      baseRhsChainLoop c rest pitchAtoms true
    else if token.kind.isPlus then
      baseRhsChainLoop c rest (pitchAtoms ++ [Pitch.Ratio (Rational32.new 2 1)]) expectPitch
    else if token.kind.isPitchSustain then
      baseRhsChainLoop c rest (pitchAtoms ++ [Pitch.Ratio (Rational32.new 1 2)]) expectPitch
    else
      (c.error "Expected at-sign in pitch chain" token.range, none)

/-- Embeds `Compiler::parse_base_pitch_rhs_chain_tokens`. -/
def parseBasePitchRhsChainTokens (M : FloatOps) (c : Compiler) (tokens : List Cst)
    (range : TextRange) : Compiler × Option Note :=
  if tokens.isEmpty then (c, none)
  else
    match baseRhsChainLoop c tokens [] true with
    | (c, none) => (c, none)
    | (c, some (pitchAtoms, expectPitch)) =>
      if expectPitch then
        (c.error "Pitch chain cannot end with at-sign" range, none)
      else
        evalPitchChainPitches M c pitchAtoms range

/-- The token loop of `Compiler::parse_pitch_chain_tokens`: like the base-RHS
loop but records per-atom ranges and whether a connector was seen. -/
def pitchChainLoop (c : Compiler) (allowFormalSingle : Bool) (tokens : List Cst)
    (pitchAtoms : List (Pitch × TextRange)) (expectPitch hasChain : Bool) :
    Compiler × Option (List (Pitch × TextRange) × Bool × Bool) :=
  match tokens with
  | [] => (c, some (pitchAtoms, expectPitch, hasChain))
  | token :: rest =>
    if expectPitch then
      if token.kind.isPitch || token.kind.isFormalPitch then
        match parsePitchAtom c token allowFormalSingle with
        | (c, none) => (c, none)
        | (c, some pitch) =>
          pitchChainLoop c allowFormalSingle rest (pitchAtoms ++ [(pitch, token.range)])
            false hasChain
      else if token.kind.isIdentifier then
        match parsePitchChainIdentAsChain c token with
        | (c, none) => (c, none)
        | (c, some chain) =>
          pitchChainLoop c allowFormalSingle rest
            (pitchAtoms ++ chain.map (fun p => (p, token.range))) false hasChain
      else
        (c.error "Expected pitch token" token.range, none)
    else if token.kind.isAt then
      pitchChainLoop c allowFormalSingle rest pitchAtoms true true
    else if token.kind.isPlus then
      pitchChainLoop c allowFormalSingle rest
        (pitchAtoms ++ [(Pitch.Ratio (Rational32.new 2 1), token.range)]) expectPitch true
    else if token.kind.isPitchSustain then
      pitchChainLoop c allowFormalSingle rest
        (pitchAtoms ++ [(Pitch.Ratio (Rational32.new 1 2), token.range)]) expectPitch true
    else
      (c.error "Expected at-sign in pitch chain" token.range, none)

/-- Embeds `Compiler::parse_pitch_chain_tokens`. -/
def parsePitchChainTokens (M : FloatOps) (c : Compiler) (tokens : List Cst)
    (allowFormalSingle : Bool) (range : TextRange) : Compiler × Option Note :=
  if tokens.isEmpty then (c, none)
  else
    match pitchChainLoop c allowFormalSingle tokens [] true false with
    | (c, none) => (c, none)
    | (c, some (pitchAtoms, expectPitch, hasChain)) =>
      if expectPitch then
        (c.error "Pitch chain cannot end with at-sign" range, none)
      else if hasChain &&
          pitchAtoms.any (fun pr => pr.1 == Pitch.Rest || pr.1 == Pitch.Sustain) then
        (c.error "rest/sustain cannot be used inside pitch chain" range, none)
      else if pitchAtoms.length == 1 then
        let atom := (pitchAtoms.headD (Pitch.Rest, TextRange.default)).1
        (c, some ((Note.fromPitch M atom c.state).withPitchChain [atom]))
      else
        let right := (pitchAtoms.getLastD (Pitch.Rest, TextRange.default)).1
        let currentNote := Note.fromPitch M right c.state
        let currentBase :=
          (Note.baseNoteFromPitch M right currentNote.freq
            (c.state.baseNote, c.state.baseFrequency), currentNote.freq)
        let folded := chainEvalFold M ((pitchAtoms.dropLast.map (fun pr => pr.1)).reverse)
          (currentNote, currentBase)
        (c, some (folded.1.withPitchChain (pitchAtoms.map (fun pr => pr.1))))

/-- The token loop of `Compiler::parse_macro_invoke_tail_tokens`: the head
position accepts a bare pitch or identifier, connectors follow. -/
def invokeTailLoop (c : Compiler) (tokens : List Cst) (pitchAtoms : List Pitch)
    (expectPitch : Bool) : Compiler × Option (List Pitch × Bool) :=
  match tokens with
  | [] => (c, some (pitchAtoms, expectPitch))
  | token :: rest =>
    if expectPitch then
      if token.kind.isPitch || token.kind.isFormalPitch then
        match parsePitchAtom c token false with
        | (c, none) => (c, none)
        | (c, some pitch) => invokeTailLoop c rest (pitchAtoms ++ [pitch]) false
      else if token.kind.isIdentifier then
        match parsePitchChainIdentAsChain c token with
        | (c, none) => (c, none)
        | (c, some chain) => invokeTailLoop c rest (pitchAtoms ++ chain) false
      else
        (c.error "Expected pitch token after at-sign" token.range, none)
    else if pitchAtoms.isEmpty && token.kind.isPitch then
      match parsePitchAtom c token false with
      | (c, none) => (c, none)
      | (c, some pitch) => invokeTailLoop c rest (pitchAtoms ++ [pitch]) expectPitch
    else if pitchAtoms.isEmpty && token.kind.isIdentifier then
      match parsePitchChainIdentAsChain c token with
      | (c, none) => (c, none)
      | (c, some chain) => invokeTailLoop c rest (pitchAtoms ++ chain) expectPitch
    else if token.kind.isAt then
      invokeTailLoop c rest pitchAtoms true
    else if token.kind.isPlus then
      invokeTailLoop c rest (pitchAtoms ++ [Pitch.Ratio (Rational32.new 2 1)]) expectPitch
    else if token.kind.isPitchSustain then
      invokeTailLoop c rest (pitchAtoms ++ [Pitch.Ratio (Rational32.new 1 2)]) expectPitch
    else
      (c.error "Expected plus, minus, or at-sign after invocation" token.range, none)

/-- Embeds `Compiler::parse_macro_invoke_tail_tokens`. -/
def parseMacroInvokeTailTokens (c : Compiler) (tokens : List Cst)
    (range : TextRange) : Compiler × Option (List Pitch) :=
  if tokens.isEmpty then (c, none)
  else
    match invokeTailLoop c tokens [] false with
    | (c, none) => (c, none)
    | (c, some (pitchAtoms, expectPitch)) =>
      if expectPitch then
        (c.error "Pitch chain cannot end with at-sign" range, none)
      else if pitchAtoms.isEmpty then (c, none)
      else (c, some pitchAtoms)

end Compiler

/-! ### i32 bit operations for the time-signature check -/

/-- The unsigned 32-bit pattern of an i32 value. -/
def toU32 (x : Int) : Nat := (Int.emod x 4294967296).toNat

/-- Embeds `i32::reverse_bits` on the 32-bit pattern. -/
def revBits32 (x : Int) : Nat :=
  (List.range 32).foldl
    (fun acc k => acc + (if Nat.testBit (toU32 x) k then 2 ^ (31 - k) else 0)) 0

/-- Embeds the test `d.reverse_bits() & (d - 1) != 0` guarding the
"denominator is not a power of 2" warning in `compile_time_signature_def`. -/
def tsWarnCheck (d : Int) : Bool := Nat.land (revBits32 d) (toU32 (d - 1)) != 0

namespace Compiler

/-- The token-kind filter applied to chain tokens throughout compile.rs. -/
def chainTokenFilter (t : Cst) : Bool :=
  t.kind.isPitch || t.kind.isFormalPitch || t.kind.isIdentifier || t.kind.isAt ||
    t.kind.isPlus

/-- Embeds `Compiler::compile_time_signature_def`.  The `expect` on the missing
ratio token panics in the source; that case is modelled as a no-op and is
unreachable on parser-produced trees. -/
def compileTimeSignatureDef (c : Compiler) (n : Cst) : Compiler :=
  match n.findChildTokenByFn (fun t => t.kind.isPitchRatio) with
  | none => c
  | some durationToken =>
    let parts := splitOnChar durationToken.text '/'
    if parts.length == 2 then
      match rustParseI32 (parts.headD ""), (parts.get? 1).bind rustParseI32 with
      | some nVal, some d =>
        if d == 0 then
          c.error "Denominator of time signature cannot be zero" durationToken.range
        else
          let c :=
            if tsWarnCheck d then
              c.warn "Denominator of time signature is not a power of 2, which is discouraged"
                durationToken.range
            else c
          let timeSignature := Rational32.new nVal d
          let c := { c with state := { c.state with timeSignature := timeSignature } }
          c.pushEvent (EventBody.TimeSignatureDef timeSignature) durationToken.range
      | _, _ => c.error "Invalid time signature format" durationToken.range
    else c.error "Invalid time signature format" durationToken.range

/-- Embeds `Compiler::compile_bpm_def`. -/
def compileBpmDef (c : Compiler) (n : Cst) : Compiler :=
  let durationToken := n.findChildTokenByFn (fun t => t.kind.isDurationFraction)
  match n.findChildTokenByFn (fun t => t.kind.isPitchFrequency) with
  | none => c.error "BPM definition must have a number token" n.range
  | some bpmToken =>
    match rustParseF32 bpmToken.text with
    | some bpm =>
      let c :=
        match durationToken with
        | some durTok =>
          match parseDurationFraction c durTok with
          | (c, some dur) =>
            let c := { c with state := { c.state with beatDuration := dur } }
            c.pushEvent (EventBody.BeatDurationDef dur) durTok.range
          | (c, none) => c
        | none => c
      let c := { c with state := { c.state with bpm := bpm } }
      c.pushEvent (EventBody.BPMDef bpm) bpmToken.range
    | none => c.error "Invalid BPM value" bpmToken.range

/-- The pitch-spell lookup step of `compile_base_pitch_def`. -/
def basePitchSpellStep (M : FloatOps) (c : Compiler) (n : Cst) :
    Compiler × Option Note :=
  match n.findChildTokenByFn
      (fun t => t.kind.isPitchSpellOctave || t.kind.isPitchSpellSimple) with
  | some t => parsePitch M c t false
  | none => (c, none)

/-- The reference-chain step of `compile_base_pitch_def`. -/
def basePitchChainStep (M : FloatOps) (c : Compiler) (n : Cst) :
    Compiler × Option Note :=
  match n.findChildNodeByFn (fun ch => ch.kind.isNodePitchChain) with
  | some chainNode =>
    let chainTokens := chainNode.descTokens.filter chainTokenFilter
    parseBasePitchRhsChainTokens M c chainTokens chainNode.range
  | none => (c, none)

/-- Embeds `Compiler::compile_base_pitch_def`. -/
def compileBasePitchDef (M : FloatOps) (c : Compiler) (n : Cst) : Compiler :=
  let step1 := basePitchSpellStep M c n
  let c := step1.1
  let pitchSpell := step1.2
  let step2 := basePitchChainStep M c n
  let c := step2.1
  let pitchRef := step2.2
  match pitchSpell with
  | some spell =>
    let baseNote : Int :=
      match spell.pitchChain.head? with
      | some (Pitch.SpellOctave s) => s
      | some (Pitch.SpellSimple s) => s
      | _ => 0
    let baseFrequency := (pitchRef.map (fun p => p.freq)).getD spell.freq
    let c := { c with state :=
      { c.state with baseNote := baseNote, baseFrequency := baseFrequency } }
    let c := c.pushEvent (EventBody.BaseNoteDef baseNote) n.range
    c.pushEvent (EventBody.BaseFequencyDef baseFrequency) n.range
  | none =>
    match pitchRef with
    | some pitchRef =>
      let bn := freq2spell M pitchRef.freq c.state
      let c := { c with state :=
        { c.state with baseNote := bn, baseFrequency := pitchRef.freq } }
      let c := c.pushEvent (EventBody.BaseNoteDef bn) n.range
      c.pushEvent (EventBody.BaseFequencyDef pitchRef.freq) n.range
    | none =>
      c.error "Base pitch definition must have either a pitch spell or pitch chain reference"
        n.range

/-- Extend a note pitch chain by the anchor chain unless the note is a rest or
sustain (the anchor-graft step of every invocation arm in `parse_note`). -/
def anchorExtend (note : Note) (anchor : Option (List Pitch)) : Note :=
  match anchor with
  | some anchorChain =>
    if !note.isRest && !note.isSustain then
      { note with pitchChain := note.pitchChain ++ anchorChain }
    else note
  | none => note

/-- The duration sub-step of `Compiler::parse_note`: a commas token multiplies
the current quantize, a fraction token is parsed exactly, otherwise zero. -/
def parseNoteDuration (c : Compiler) (n : Cst) : Compiler × Rational32 :=
  match n.findChildTokenByFn
      (fun t => t.kind.isDurationCommas || t.kind.isDurationFraction) with
  | some t =>
    if t.kind.isDurationCommas then
      match parseDurationCommas c t with
      | some cnt => (c, c.state.quantize.mul (Rational32.fromInteger ((cnt : Int) + 1)))
      | none => (c, Rational32.zero)
    else if t.kind.isDurationFraction then
      match parseDurationFraction c t with
      | (c, some d) => (c, d)
      | (c, none) => (c, Rational32.zero)
    else (c, Rational32.zero)
  | none => (c, Rational32.zero)

/-- The argument-token extraction of the invocation arm of
`Compiler::parse_note`: direct children of the invoke node, filtered to chain
tokens, with a leading identifier and a leading connector stripped. -/
def invokeArgTokens (node : Cst) : List Cst :=
  let argTokens0 := (node.childrenWithTokens.filter (fun x => !x.isNodeElem)).filter
    chainTokenFilter
  let argTokens1 :=
    if (argTokens0.head?.map (fun t => t.kind.isIdentifier)).getD false then
      argTokens0.tail
    else argTokens0
  if (argTokens1.head?.map (fun t => t.kind.isAt)).getD false then
    argTokens1.tail
  else argTokens1

/-- One stored note of a simple-macro invocation: graft the anchor chain,
re-evaluate against the current state, then stamp the invocation duration. -/
def invokeSimpleStep (M : FloatOps) (duration : Rational32) (node : Cst)
    (anchor : Option (List Pitch)) (acc : Compiler × List Note)
    (storedNote : Note) : Compiler × List Note :=
  let c := acc.1
  let note := anchorExtend storedNote anchor
  let stepB := evalPitchChainPitches M c note.pitchChain node.range
  let c := stepB.1
  let note :=
    match stepB.2 with
    | some noteLive =>
      { note with freq := noteLive.freq, pitchRatio := noteLive.pitchRatio }
    | none => note
  let note := { note with
    duration := duration
    durationSeconds := TimeStamp.durInSec duration c.state }
  (c, acc.2 ++ [note])

/-- The simple-registry arm of the invocation branch of `parse_note`. -/
def invokeSimple (M : FloatOps) (c : Compiler) (duration : Rational32) (node : Cst)
    (anchor : Option (List Pitch)) (storedNotes : List Note) :
    Compiler × Option (List Note) :=
  let folded := storedNotes.foldl (invokeSimpleStep M duration node anchor) (c, [])
  (folded.1, some folded.2)

/-- The alias-registry arm of the invocation branch of `parse_note`. -/
def invokeAlias (M : FloatOps) (c : Compiler) (duration : Rational32) (node : Cst)
    (anchor : Option (List Pitch)) (aliasChain : List Pitch) :
    Compiler × Option (List Note) :=
  match evalPitchChainPitches M c aliasChain node.range with
  | (c, some note0) =>
    let note := anchorExtend note0 anchor
    let stepB := evalPitchChainPitches M c note.pitchChain node.range
    let c := stepB.1
    let note :=
      match stepB.2 with
      | some noteLive =>
        { note with freq := noteLive.freq, pitchRatio := noteLive.pitchRatio }
      | none => note
    let note := { note with
      duration := duration
      durationSeconds := TimeStamp.durInSec duration c.state }
    (c, some [note])
  | (c, none) => (c, some [])

/-- One stored event of a complex-macro invocation: only `Note` events are
re-evaluated, rebased to the current time and re-emitted. -/
def invokeComplexStep (M : FloatOps) (n : Cst) (anchor : Option (List Pitch))
    (c : Compiler) (e : CompileEvent) : Compiler :=
  match e.body with
  | EventBody.Note note0 =>
    let note := anchorExtend note0 anchor
    let stepB := evalPitchChainPitches M c note.pitchChain n.range
    let c := stepB.1
    let note :=
      match stepB.2 with
      | some noteLive =>
        { note with freq := noteLive.freq, pitchRatio := noteLive.pitchRatio }
      | none => note
    let startTime : TimeStamp :=
      ⟨c.state.time.seconds + e.startTime.seconds,
        c.state.time.bars + e.startTime.bars,
        c.state.time.ticks.add e.startTime.ticks⟩
    let ev : CompileEvent :=
      { e with
        body := EventBody.Note note
        startTime := startTime
        rangeInvoked := some n.range }
    { c with events := c.events ++ [ev] }
  | _ => c

/-- The complex-registry arm of the invocation branch of `parse_note`. -/
def invokeComplex (M : FloatOps) (c : Compiler) (n : Cst)
    (anchor : Option (List Pitch)) (storedEvents : List CompileEvent) :
    Compiler × Option (List Note) :=
  (storedEvents.foldl (invokeComplexStep M n anchor) c, some [])

/-- The invocation arm of `Compiler::parse_note`: resolve the identifier of a
`NODE_MACRO_INVOKE` child; a name is looked up in the simple registry first,
then alias, then complex (complex bodies push their stored note events
directly). -/
def parseNoteInvoke (M : FloatOps) (c : Compiler) (duration : Rational32)
    (n node : Cst) : Compiler × Option (List Note) :=
  match node.findChildTokenByFn (fun t => t.kind.isIdentifier) with
  | none => (c, some [])
  | some identTok =>
    let ident := identTok.text
    let stepA := parseMacroInvokeTailTokens c (invokeArgTokens node) node.range
    let c := stepA.1
    let anchorPitchChain := stepA.2
    match c.macros.simpleMacros.find? ident with
    | some storedNotes => invokeSimple M c duration node anchorPitchChain storedNotes
    | none =>
      match c.macros.aliasMacros.find? ident with
      | some aliasChain => invokeAlias M c duration node anchorPitchChain aliasChain
      | none =>
        match c.macros.complexMacros.find? ident with
        | some storedEvents => invokeComplex M c n anchorPitchChain storedEvents
        | none => (c.error "Undefined invocation" node.range, some [])

/-- Embeds `Compiler::parse_note`: parse the optional duration token, then
either expand a macro invocation or evaluate the pitch chain. -/
def parseNote (M : FloatOps) (c : Compiler) (n : Cst) : Compiler × Option (List Note) :=
  let step0 := parseNoteDuration c n
  let c := step0.1
  let duration := step0.2
  match n.descendantNodes.find? (fun ch => ch.kind.isNodeMacroInvoke) with
  | some node => parseNoteInvoke M c duration n node
  | none =>
    match n.children.find? (fun child => child.kind.isNodePitchChain) with
    | none => (c.error "Note must have a pitch chain node" n.range, none)
    | some chainNode =>
      let chainTokens := chainNode.descTokens.filter chainTokenFilter
      if chainTokens.isEmpty then
        (c.error "Note must have a pitch token or invocation node" chainNode.range, none)
      else
        match parsePitchChainTokens M c chainTokens true chainNode.range with
        | (c, some note) =>
          (c, some [note.setDuration duration c.state])
        | (c, none) => (c, some [])

/-- The right-to-left duration back-fill of `submit_note_sub_group`, applied
to the reversed sub-group. -/
def backfillRev (st : CompileState) : List CompileEvent → Rational32 →
    List CompileEvent × Rational32
  | [], d => ([], d)
  | e :: rest, d =>
    match e.body with
    | EventBody.Note nn =>
      if nn.duration.isZero then
        let eNew := { e with body := EventBody.Note (nn.setDuration d st) }
        let tail := backfillRev st rest d
        (eNew :: tail.1, tail.2)
      else
        let tail := backfillRev st rest nn.duration
        (e :: tail.1, tail.2)
    | _ =>
      let tail := backfillRev st rest d
      (e :: tail.1, tail.2)

/-- Embeds `Compiler::submit_note_sub_group`: back-fill missing durations from
the right, push the events, advance time by the current (sub-)quantize. -/
def submitNoteSubGroup (c : Compiler) (curSubGroup : List CompileEvent) :
    Compiler × List CompileEvent :=
  let filled := ((backfillRev c.state (curSubGroup.reverse) c.state.quantize).1).reverse
  let c := filled.foldl (fun c ev => c.pushEvent ev.body ev.range) c
  let c := { c with state := { c.state with
    time := c.state.time.addDuration c.state.quantize c.state } }
  (c, [])

/-- One item of the `compile_note_group` walk: a `NODE_NOTE` is parsed and
appended to the current sub-group, a semicolon submits the sub-group, a colon
is skipped, anything else is an error. -/
def noteGroupStep (M : FloatOps) (acc : Compiler × List CompileEvent) (nt : Cst) :
    Compiler × List CompileEvent :=
  let c := acc.1
  let cur := acc.2
  if nt.isNodeElem then
    if nt.kind == SyntaxKind.NODE_NOTE then
      match parseNote M c nt with
      | (c, some notes) =>
        (c, cur ++ notes.map (fun note =>
          ({ body := EventBody.Note note
             startTime := c.state.time
             range := nt.range
             rangeInvoked := none } : CompileEvent)))
      | (c, none) => (c, cur)
    else (c.error "Unexpected node in note group" nt.range, cur)
  else
    match nt.kind with
    | SyntaxKind.Semicolon => submitNoteSubGroup c cur
    | SyntaxKind.Colon => (c, cur)
    | _ => (c.error "Unexpected token in note group" nt.range, cur)

/-- The tail of `compile_note_group`: restore quantize, roll time back by one
full quantize, then apply a trailing comma duration if the last descendant
token is a commas token. -/
def noteGroupFinish (c : Compiler) (subGroupCount : Nat) (n : Cst) : Compiler :=
  let c := { c with state := { c.state with
    quantize := c.state.quantize.mul (Rational32.fromInteger (subGroupCount : Int)) } }
  let c := { c with state := { c.state with
    time := c.state.time.addDuration c.state.quantize.neg c.state } }
  match n.descendantsWithTokens.getLast? with
  | some last =>
    if !last.isNodeElem && last.kind.isDurationCommas then
      let count := (parseDurationCommas c last).getD 0
      let advanceDur := c.state.quantize.mul (Rational32.fromInteger (count : Int))
      { c with state := { c.state with
        time := c.state.time.addDuration advanceDur c.state } }
    else c
  | none => c

/-- Embeds `Compiler::compile_note_group`: divide quantize by the number of
semicolon-separated sub-groups, collect and submit them, restore quantize,
roll time back by one full quantize, then apply a trailing comma duration. -/
def compileNoteGroup (M : FloatOps) (c : Compiler) (n : Cst) : Compiler :=
  let tokens := if n.kind.isNodeNoteGroup then n.childrenWithTokens else [n]
  let subGroupCount :=
    (tokens.filter (fun nt => !nt.isNodeElem && nt.kind.isSemicolon)).length + 1
  let c := { c with state := { c.state with
    quantize := c.state.quantize.div (Rational32.fromInteger (subGroupCount : Int)) } }
  let stepA := tokens.foldl (noteGroupStep M) (c, [])
  let stepB := submitNoteSubGroup stepA.1 stepA.2
  noteGroupFinish stepB.1 subGroupCount n

/-- One item of the `compile_normal_line` walk. -/
def normalLineStep (M : FloatOps) (c : Compiler) (child : Cst) : Compiler :=
  if child.isNodeElem then
    match child.kind with
    | SyntaxKind.NODE_BPM_DEF => compileBpmDef c child
    | SyntaxKind.NODE_TIME_SIGNATURE_DEF => compileTimeSignatureDef c child
    | SyntaxKind.NODE_BASE_PITCH_DEF => compileBasePitchDef M c child
    | SyntaxKind.NODE_NOTE_GROUP => compileNoteGroup M c child
    | SyntaxKind.NODE_NOTE => compileNoteGroup M c child
    | _ => c.error "Unexpected node in line" child.range
  else
    match child.kind with
    | SyntaxKind.Quantize =>
      match parseDurationFraction c child with
      | (c, some dur) =>
        let c := { c with state := { c.state with quantize := dur } }
        c.pushEvent (EventBody.QuantizeDef dur) child.range
      | (c, none) => c
    | SyntaxKind.Comma =>
      { c with state := { c.state with
        time := (c.state.time.addDuration c.state.quantize c.state).reductToQuantize
          c.state.quantize } }
    | SyntaxKind.Newline => c
    | SyntaxKind.Whitespace => c
    | SyntaxKind.Comment => c
    | SyntaxKind.Equals => c
    | _ => c.error "Unexpected token in line" child.range

/-- Embeds `Compiler::compile_normal_line`: walk the line items, then warn on
misaligned ticks, and for a ghost line restore the entry time stamp. -/
def compileNormalLine (M : FloatOps) (c : Compiler) (node : Cst) : Compiler :=
  let isGhost := node.kind.isNodeGhostLine
  let startTimeStamp := if isGhost then some c.state.time else none
  let c := node.childrenWithTokens.foldl (normalLineStep M) c
  let c :=
    if c.state.time.ticks.rgt Rational32.zero &&
        !(c.state.time.ticks.req c.state.timeSignature) then
      c.warn "Line ended but current ticks do not align with time signature" node.range
    else c
  match startTimeStamp with
  | some ts => { c with state := { c.state with time := ts } }
  | none => c

/-- One chain of one note of a simple macro definition. -/
def simpleDefChainStep (M : FloatOps) (acc2 : Compiler × List Note) (chain : Cst) :
    Compiler × List Note :=
  let c := acc2.1
  let pitches := acc2.2
  let chainTokens := chain.descTokens.filter chainTokenFilter
  if chainTokens.isEmpty then
    (c.error "Simple definition note must contain a pitch chain" chain.range, pitches)
  else
    match parsePitchChainTokens M c chainTokens false chain.range with
    | (c, some note) => (c, pitches ++ [note])
    | (c, none) => (c, pitches)

/-- One child of a simple macro definition node. -/
def simpleDefNoteStep (M : FloatOps) (acc : Compiler × List Note) (child : Cst) :
    Compiler × List Note :=
  let c := acc.1
  let pitches := acc.2
  if !child.kind.isNodeNote then (c, pitches)
  else
    let chains := child.children.filter (fun nn => nn.kind.isNodePitchChain)
    let hasChain := !chains.isEmpty
    let inner := chains.foldl (simpleDefChainStep M) (c, pitches)
    let c := inner.1
    let pitches := inner.2
    let c :=
      if !hasChain then
        c.error "Simple definition note must contain a pitch chain" child.range
      else c
    (c, pitches)

/-- Embeds `Compiler::compile_macro_def` for the three definition kinds.  The
two `expect` panics (missing identifier, missing complex body) are modelled as
no-ops; both are unreachable on parser-produced trees. -/
def compileMacroDef (M : FloatOps) (c : Compiler) (node : Cst) : Compiler :=
  match node.findChildTokenByFn (fun t => t.kind.isIdentifier) with
  | none => c
  | some identTok =>
    match node.kind with
    | SyntaxKind.NODE_MACRODEF_ALIAS =>
      match node.findChildNodeByFn (fun nn => nn.kind.isNodePitchChain) with
      | none => c.error "Alias definition must contain a pitch chain" node.range
      | some chainNode =>
        let chainTokens := chainNode.descTokens.filter chainTokenFilter
        match parseBasePitchRhsChainTokens M c chainTokens chainNode.range with
        | (c, some note) =>
          { c with macros := { c.macros with
            aliasMacros := c.macros.aliasMacros.insert identTok.text note.pitchChain } }
        | (c, none) => c
    | SyntaxKind.NODE_MACRODEF_SIMPLE =>
      let folded := node.children.foldl (simpleDefNoteStep M) (c, [])
      let c := folded.1
      { c with macros := { c.macros with
        simpleMacros := c.macros.simpleMacros.insert identTok.text folded.2 } }
    | SyntaxKind.NODE_MACRODEF_COMPLEX =>
      match node.findChildNodeByFn (fun nn => nn.kind.isNodeMacrodefComplexBody) with
      | none => c
      | some nodeBody =>
        let savedState := c.state
        let savedEvents := c.events
        let c := { c with
          events := []
          state := { savedState with
            time := ⟨0, 0, Rational32.new 0 savedState.quantize.den⟩ } }
        let c := nodeBody.children.foldl
          (fun c line => (compileNormalLine M c line).resetTicks) c
        let compiledEvents := c.events
        { c with
          macros := { c.macros with
            complexMacros := c.macros.complexMacros.insert identTok.text compiledEvents }
          state := savedState
          events := savedEvents }
    | _ => c.error "Unexpected definition kind" node.range

/-- Embeds `Compiler::finalize_negative_duration_notes`: negate the duration
and shift the start time backwards by the same amount. -/
def finalizeNegativeDurationNotes (c : Compiler) : Compiler :=
  let fixup : CompileEvent → CompileEvent := fun ev =>
    match ev.body with
    | EventBody.Note note =>
      if note.duration.num < 0 then
        let dur := note.duration.neg
        let note := note.setDuration dur c.state
        { ev with
          body := EventBody.Note note
          startTime := ev.startTime.addDuration dur.neg c.state }
      else ev
    | _ => ev
  { c with events := c.events.map fixup }

/-- The sustain-fold bucket key: `(sec / bucket_size).round() as i64` with
`bucket_size = 1e-4`. -/
def toBucket (sec : ℚ) : Int := rustRound (sec / (1 / 10000))

/-- The end-time bucket map of `finalize_sustain_notes`; only `get`,
`get_mut`, `entry().or_default().push` and `swap_remove` are used, modelled
exactly on an association list. -/
abbrev Buckets : Type := List (Int × List Nat)

def bucketGet (m : Buckets) (k : Int) : List Nat :=
  ((List.find? (fun p => p.1 == k) m).map (fun p => p.2)).getD []

def bucketPush (m : Buckets) (k : Int) (idx : Nat) : Buckets :=
  if m.any (fun p => p.1 == k) then
    m.map (fun p => if p.1 == k then (p.1, p.2 ++ [idx]) else p)
  else m ++ [(k, [idx])]

/-- `Vec::swap_remove`: replace position `i` with the last element, then drop
the last element. -/
def swapRemove (l : List Nat) (i : Nat) : List Nat :=
  match l.getLast? with
  | none => l
  | some last => if i + 1 == l.length then l.dropLast else (l.set i last).dropLast

def bucketRemove (m : Buckets) (k : Int) (idx : Nat) : Buckets :=
  m.map (fun p =>
    if p.1 == k then
      match p.2.indexOf? idx with
      | some pos => (p.1, swapRemove p.2 pos)
      | none => p
    else p)

/-- Extend the note event at `idx` by the sustain duration (both rational and
seconds). -/
def extendAt (events : List CompileEvent) (idx : Nat) (sDur : Rational32) (sDurSec : ℚ) :
    List CompileEvent :=
  match events.get? idx with
  | some ev =>
    match ev.body with
    | EventBody.Note note =>
      let extended : Note := { note with
        duration := note.duration.add sDur
        durationSeconds := note.durationSeconds + sDurSec }
      events.set idx ({ ev with body := EventBody.Note extended })
    | _ => events
  | none => events

/-- Process the candidate list of one sustain note. -/
def sustainCandidatesLoop (sStart : ℚ) (sDurSec : ℚ) (sDur : Rational32) :
    List Nat → List CompileEvent → Buckets → Bool →
    List CompileEvent × Buckets × Bool
  | [], events, buckets, matched => (events, buckets, matched)
  | idx :: rest, events, buckets, matched =>
    let oldEnd : Option ℚ :=
      match events.get? idx with
      | some ev =>
        match ev.body with
        | EventBody.Note note =>
          if !note.isSustain then some (ev.startTime.seconds + note.durationSeconds)
          else none
        | _ => none
      | none => none
    match oldEnd with
    | none => sustainCandidatesLoop sStart sDurSec sDur rest events buckets matched
    | some oe =>
      if |oe - sStart| < 1 / 10000 then
        let events := extendAt events idx sDur sDurSec
        let newEnd := oe + sDurSec
        let oldBucket := toBucket oe
        let newBucket := toBucket newEnd
        let buckets :=
          if oldBucket != newBucket then
            bucketPush (bucketRemove buckets oldBucket idx) newBucket idx
          else buckets
        sustainCandidatesLoop sStart sDurSec sDur rest events buckets true
      else sustainCandidatesLoop sStart sDurSec sDur rest events buckets matched

/-- One sustain note of the `finalize_sustain_notes` fold: gather the
candidate note indices from the three adjacent end-time buckets, extend the
matching candidates, and warn if none matched. -/
def sustainInfoStep (acc : List CompileEvent × Buckets × List Diagnostic)
    (info : ℚ × ℚ × Rational32 × TextRange) :
    List CompileEvent × Buckets × List Diagnostic :=
  let events := acc.1
  let buckets := acc.2.1
  let diags := acc.2.2
  let center := toBucket info.1
  let candidates := bucketGet buckets (center - 1) ++ bucketGet buckets center ++
    bucketGet buckets (center + 1)
  let out := sustainCandidatesLoop info.1 info.2.1 info.2.2.1 candidates events buckets
    false
  let diags :=
    if !out.2.2 then
      diags ++ [⟨DiagnosticLevel.Warning, "Sustain note has no matching preceding note",
        info.2.2.2⟩]
    else diags
  (out.1, out.2.1, diags)

/-- Embeds `Compiler::finalize_sustain_notes`: bucket all non-sustain note
ends, extend every note whose end is within tolerance of a sustain start,
rebucket extended notes, warn on unmatched sustains, drop all sustains. -/
def finalizeSustainNotes (c : Compiler) : Compiler :=
  let enumerated := c.events.enum
  let sustainInfos : List (ℚ × ℚ × Rational32 × TextRange) :=
    enumerated.filterMap (fun p =>
      match p.2.body with
      | EventBody.Note note =>
        if note.isSustain then
          some (p.2.startTime.seconds, note.durationSeconds, note.duration, p.2.range)
        else none
      | _ => none)
  let buckets0 : Buckets :=
    enumerated.foldl
      (fun m p =>
        match p.2.body with
        | EventBody.Note note =>
          if note.isSustain then m
          else bucketPush m (toBucket (p.2.startTime.seconds + note.durationSeconds)) p.1
        | _ => m)
      []
  let processed := sustainInfos.foldl sustainInfoStep (c.events, buckets0, c.diagnostics)
  let keep : CompileEvent → Bool := fun e =>
    match e.body with
    | EventBody.Note nn => !nn.isSustain
    | _ => true
  { c with
    diagnostics := processed.2.2
    events := processed.1.filter keep }

/-- One top-level child of `Compiler::compile`, before the ticks reset. -/
def compileTopStep (M : FloatOps) (c : Compiler) (child : Cst) : Compiler :=
  if child.isNodeElem then
    match child.kind with
    | SyntaxKind.NODE_MACRODEF_ALIAS => compileMacroDef M c child
    | SyntaxKind.NODE_MACRODEF_SIMPLE => compileMacroDef M c child
    | SyntaxKind.NODE_MACRODEF_COMPLEX => compileMacroDef M c child
    | SyntaxKind.NODE_NORMAL_LINE => compileNormalLine M c child
    | SyntaxKind.NODE_GHOST_LINE => compileNormalLine M c child
    | SyntaxKind.Newline => c
    | _ => c.error "Unexpected node kind" child.range
  else
    if !child.kind.isTrivia && !child.kind.isNewline then
      c.error "Unexpected token" child.range
    else c

/-- Embeds `Compiler::compile`: walk the top-level children, resetting ticks
after each one, then run the two finalisation passes. -/
def compile (M : FloatOps) (c : Compiler) (tree : Cst) : Compiler :=
  let c := tree.childrenWithTokens.foldl
    (fun c child => (compileTopStep M c child).resetTicks) c
  let c := finalizeNegativeDurationNotes c
  finalizeSustainNotes c

end Compiler

/-! ### MIDI pitch mapping (midi/writer.rs) -/

def PITCH_BEND_CENTER : Int := 8192

def PITCH_BEND_MIN_SIGNED : Int := -8192

def PITCH_BEND_MAX_SIGNED : Int := 8191

/-- Embeds `fn signed_to_bend14`. -/
def signedToBend14 (bendSigned : Int) : Int :=
  clampI bendSigned PITCH_BEND_MIN_SIGNED PITCH_BEND_MAX_SIGNED + PITCH_BEND_CENTER

/-- Embeds `fn freq_to_key_and_bend` from midi/writer.rs: the exact key is
`69 + 12 * log2(freq/440)`, the key is the rounded clamp to `[0, 127]`, and
the 14-bit bend encodes the residual semitone delta against the bend range.
Returns `(midi_key, bend14, bend_cents)`; `None` models the error on a zero
bend range. -/
def freqToKeyAndBend (M : FloatOps) (freq : ℚ) (bendRange : Nat) :
    Option (Int × Int × ℚ) :=
  if bendRange == 0 then none
  else
    let exact := 69 + 12 * M.log2 (freq / 440)
    let key := clampI (rustRound exact) 0 127
    let semitoneDelta := exact - (key : ℚ)
    let bendCents := semitoneDelta * 100
    let ratio := semitoneDelta / (bendRange : ℚ)
    let bendSigned := rustRound (ratio * (PITCH_BEND_CENTER : ℚ))
    some (key, signedToBend14 bendSigned, bendCents)

/-! ### Event-driven parser and sink (rowan/parser.rs, rowan/marker.rs,
rowan/sink.rs)

The parser records an event list while two cursors walk the token stream; the
sink replays the events into a green tree.  Scripts of parser operations are
quantified over, so the lossless-CST theorem holds for every driver (in
particular for parse_fn.rs).  Marker positions are arguments of the operations;
the guards on `complete`/`abandon`/`precede` encode the Rust move semantics of
`Marker`/`CompletedMarker` (a live marker position always holds a tombstone, a
completed one a start node). -/

namespace Rowan

/-- A lexed token: kind plus the source text of its span
(`&token.source[token.range]`). -/
structure PTok where
  kind : SyntaxKind
  text : String
deriving DecidableEq, Repr

/-- Embeds `enum Event` from rowan/types.rs. -/
inductive PEvent where
  | startNode (kind : SyntaxKind) (forwardParent : Option Nat)
  | finishNode
  | token (remap : Option SyntaxKind)
  | tombstone
deriving DecidableEq, Repr

/-- Embeds the `Parser` struct fields that drive token consumption. -/
structure PState where
  tokens : List PTok
  significantIndices : List Nat
  cursor : Nat
  rawCursor : Nat
  events : List PEvent
deriving DecidableEq, Repr

/-- Embeds the construction of `significant_indices`: the indices of the
non-trivia tokens. -/
def significantOf (tokens : List PTok) : List Nat :=
  tokens.enum.filterMap (fun p => if !p.2.kind.isTrivia then some p.1 else none)

/-- Embeds `Parser::new`. -/
def PState.new (tokens : List PTok) : PState :=
  ⟨tokens, significantOf tokens, 0, 0, []⟩

/-- Embeds `Parser::is_eof`. -/
def PState.isEof (p : PState) : Bool := decide (p.significantIndices.length ≤ p.cursor)

/-- Push `k` trivia token events, advancing the raw cursor once per event. -/
def pushTrivia (p : PState) : Nat → PState
  | 0 => p
  | k + 1 =>
    pushTrivia
      { p with events := p.events ++ [PEvent.token none], rawCursor := p.rawCursor + 1 } k

/-- Embeds `Parser::flush_trivia_until`: the while loop runs exactly
`target - raw_cursor` times. -/
def PState.flushTriviaUntil (p : PState) (target : Nat) : PState :=
  pushTrivia p (target - p.rawCursor)

/-- Embeds `Parser::flush_remaining_tokens`. -/
def PState.flushRemainingTokens (p : PState) : PState :=
  p.flushTriviaUntil p.tokens.length

/-- Embeds `Parser::start_node`: push a tombstone, return its position. -/
def PState.startNode (p : PState) : PState × Nat :=
  ({ p with events := p.events ++ [PEvent.tombstone] }, p.events.length)

/-- Embeds `Parser::bump_internal`: flush the trivia before the current
significant token, then emit it. -/
def PState.bumpInternal (p : PState) (remap : Option SyntaxKind) : PState :=
  if p.isEof then p
  else
    match p.significantIndices.get? p.cursor with
    | none => p
    | some rawIndex =>
      let p := { p with cursor := p.cursor + 1 }
      let p := p.flushTriviaUntil rawIndex
      { p with events := p.events ++ [PEvent.token remap], rawCursor := rawIndex + 1 }

/-- Embeds `Marker::complete`: rewrite the tombstone at `pos` to a start node
and append the matching finish node. -/
def PState.complete (p : PState) (pos : Nat) (kind : SyntaxKind) : PState :=
  match p.events.get? pos with
  | some PEvent.tombstone =>
    { p with events := (p.events.set pos (PEvent.startNode kind none)) ++ [PEvent.finishNode] }
  | _ => p

/-- Embeds `Marker::abandon`: restore the tombstone. -/
def PState.abandon (p : PState) (pos : Nat) : PState :=
  match p.events.get? pos with
  | some PEvent.tombstone => { p with events := p.events.set pos PEvent.tombstone }
  | _ => p

/-- Embeds `CompletedMarker::precede`: push a fresh tombstone and link the
completed start node to it through `forward_parent`. -/
def PState.precede (p : PState) (pos : Nat) : PState × Nat :=
  let newPos := p.events.length
  let p2 : PState := { p with events := p.events ++ [PEvent.tombstone] }
  let distance := newPos - pos
  match p2.events.get? pos with
  | some (PEvent.startNode kind _) =>
    ({ p2 with events := p2.events.set pos (PEvent.startNode kind (some distance)) }, newPos)
  | _ => (p2, newPos)

/-- One parser operation of a driver script. -/
inductive POp where
  | startNode
  | bump (remap : Option SyntaxKind)
  | complete (pos : Nat) (kind : SyntaxKind)
  | abandon (pos : Nat)
  | precede (pos : Nat)
deriving DecidableEq, Repr

def applyOp (p : PState) : POp → PState
  | POp.startNode => (p.startNode).1
  | POp.bump remap => p.bumpInternal remap
  | POp.complete pos kind => p.complete pos kind
  | POp.abandon pos => p.abandon pos
  | POp.precede pos => (p.precede pos).1

def runOps (p : PState) (ops : List POp) : PState := ops.foldl applyOp p

/-- Embeds `parse_with_options` followed by `Parser::finish`: open the root,
run the driver, flush, complete the root, and flush again. -/
def parseDriver (tokens : List PTok) (ops : List POp) : PState :=
  let step := (PState.new tokens).startNode
  let p := runOps step.1 ops
  let p := p.flushRemainingTokens
  let p := p.complete step.2 SyntaxKind.NODE_ROOT
  p.flushRemainingTokens

/-! The sink: replay events into a green tree built by a stack builder. -/

/-- A green tree: interior nodes and token leaves. -/
inductive GTree where
  | leaf (kind : SyntaxKind) (text : String)
  | node (kind : SyntaxKind) (children : List GTree)

/-- The `GreenNodeBuilder` state: a stack of open nodes (top first) plus the
finished roots. -/
structure BuilderState where
  stack : List (SyntaxKind × List GTree)
  roots : List GTree

/-- Embeds `GreenNodeBuilder::start_node`. -/
def builderStart (b : BuilderState) (kind : SyntaxKind) : BuilderState :=
  { b with stack := (kind, []) :: b.stack }

/-- Embeds `GreenNodeBuilder::token`: append a leaf to the innermost open
node. -/
def builderToken (b : BuilderState) (kind : SyntaxKind) (text : String) : BuilderState :=
  match b.stack with
  | (k, cs) :: rest => { b with stack := (k, cs ++ [GTree.leaf kind text]) :: rest }
  | [] => { b with roots := b.roots ++ [GTree.leaf kind text] }

/-- Embeds `GreenNodeBuilder::finish_node`: close the innermost open node. -/
def builderFinish (b : BuilderState) : BuilderState :=
  match b.stack with
  | (k, cs) :: (k2, cs2) :: rest =>
    { b with stack := (k2, cs2 ++ [GTree.node k cs]) :: rest }
  | [(k, cs)] => { stack := [], roots := b.roots ++ [GTree.node k cs] }
  | [] => b

/-- Embeds the `forward_parent` chain walk of
`Sink::start_with_forward_parents`: visited start nodes are tombstoned and
their kinds collected. -/
def chainWalk : Nat → List PEvent → Nat → Option Nat → List SyntaxKind →
    List PEvent × List SyntaxKind
  | 0, events, _, _, kinds => (events, kinds)
  | _ + 1, events, _, none, kinds => (events, kinds)
  | fuel + 1, events, idx, some steps, kinds =>
    let idx2 := idx + steps
    match events.get? idx2 with
    | some (PEvent.startNode kind next) =>
      chainWalk fuel (events.set idx2 PEvent.tombstone) idx2 next (kinds ++ [kind])
    | _ => (events, kinds)

/-- Embeds the replay loop of `Sink::finish`; each processed event slot is
replaced by a tombstone (`mem::replace`), and forward-parent chains open the
outer nodes first. -/
def sinkLoop : Nat → List PEvent → Nat → List PTok → Nat → BuilderState → BuilderState
  | 0, _, _, _, _, b => b
  | fuel + 1, events, idx, tokens, tokenCursor, b =>
    match events.get? idx with
    | none => b
    | some ev =>
      let events := events.set idx PEvent.tombstone
      match ev with
      | PEvent.startNode kind fp =>
        let walked := chainWalk events.length events idx fp [kind]
        sinkLoop fuel walked.1 (idx + 1) tokens tokenCursor
          (walked.2.reverse.foldl builderStart b)
      | PEvent.finishNode =>
        sinkLoop fuel events (idx + 1) tokens tokenCursor (builderFinish b)
      | PEvent.token remap =>
        match tokens.get? tokenCursor with
        | some tk =>
          sinkLoop fuel events (idx + 1) tokens (tokenCursor + 1)
            (builderToken b (remap.getD tk.kind) tk.text)
        | none => sinkLoop fuel events (idx + 1) tokens (tokenCursor + 1) b
      | PEvent.tombstone =>
        sinkLoop fuel events (idx + 1) tokens tokenCursor b

/-- Embeds `Sink::finish`. -/
def sinkFinish (tokens : List PTok) (events : List PEvent) : BuilderState :=
  sinkLoop events.length events 0 tokens 0 ⟨[], []⟩

mutual

/-- The leaves of a green tree in source order. -/
def GTree.leaves : GTree → List (SyntaxKind × String)
  | GTree.leaf kind text => [(kind, text)]
  | GTree.node _ cs => GTree.leavesList cs

def GTree.leavesList : List GTree → List (SyntaxKind × String)
  | [] => []
  | t :: ts => GTree.leaves t ++ GTree.leavesList ts

end

/-- All leaves of the builder in source order: finished roots first, then the
open stack from the outermost frame inward. -/
def builderLeaves (b : BuilderState) : List (SyntaxKind × String) :=
  GTree.leavesList b.roots ++
    (b.stack.reverse.map (fun f => GTree.leavesList f.2)).flatten

/-- Whether an event is a token event. -/
def isTokEv : PEvent → Bool
  | PEvent.token _ => true
  | _ => false

/-- The number of token events in an event list. -/
def countTok (events : List PEvent) : Nat := (events.filter isTokEv).length

/-- The parser invariant: the token fields are fixed, every raw token below
`raw_cursor` has been emitted exactly once, and the raw cursor never passes
the next significant token. -/
def PInv (tokens : List PTok) (p : PState) : Prop :=
  p.tokens = tokens ∧
  p.significantIndices = significantOf tokens ∧
  countTok p.events = p.rawCursor ∧
  p.rawCursor ≤ tokens.length ∧
  (∀ j v, p.cursor ≤ j → p.significantIndices.get? j = some v → p.rawCursor ≤ v)

end Rowan

/-- Whether a compile event carries a `Note` body (the only kind of stored
event a complex-macro invocation re-emits). -/
def isNoteEvent (e : CompileEvent) : Bool :=
  match e.body with
  | EventBody.Note _ => true
  | _ => false

/-- The shape of a re-emitted complex-macro event: the stored event with a new
note body, its start time rebased componentwise by the invocation-time stamp
`t`, and `rangeInvoked` tagged with the invocation span. -/
def rebaseTag (t : TimeStamp) (n : Cst) (p : CompileEvent × Note) : CompileEvent :=
  { p.1 with
    body := EventBody.Note p.2
    startTime := ⟨t.seconds + p.1.startTime.seconds, t.bars + p.1.startTime.bars,
      t.ticks.add p.1.startTime.ticks⟩
    rangeInvoked := some n.range }

/-- The comma count of the trailing `DurationCommas` token of a note group
(0 when the last descendant token is not a commas token), as read by the tail
of `compile_note_group`. -/
def trailingCommas (n : Cst) : Nat :=
  match n.descendantsWithTokens.getLast? with
  | some last =>
    if !last.isNodeElem && last.kind.isDurationCommas then
      (last.text.data.filter (fun ch => ch == ',')).length
    else 0
  | none => 0

/-- The C10 event invariant: a `NewMeasure` event carries the default (empty)
source range and no invocation range. -/
def nmOk (ev : CompileEvent) : Prop :=
  ∀ m, ev.body = EventBody.NewMeasure m →
    ev.range = TextRange.default ∧ ev.rangeInvoked = none

/-- All events of a compiler satisfy the `NewMeasure` range invariant. -/
def EvOk (c : Compiler) : Prop := ∀ ev ∈ c.events, nmOk ev

/-- All events of a list carry `Note` bodies (the shape of a note-group
accumulator). -/
def notesOnly (l : List CompileEvent) : Prop := ∀ ev ∈ l, isNoteEvent ev = true

/-! ### Properties of the Rational32 operations -/

/-! ### Support lemmas about truncated remainder -/

/-- The truncated remainder equals the dividend minus divisor times the
truncated quotient. -/
theorem tmod_sub_eq (a b : Int) : a.tmod b = a - b * (a.tdiv b) := by
  have h := Int.tdiv_add_tmod a b
  omega

/-- Negating the dividend negates the truncated remainder. -/
theorem neg_tmod_eq (a b : Int) : (-a).tmod b = -(a.tmod b) := by
  rw [tmod_sub_eq, tmod_sub_eq, Int.neg_tdiv]
  ring

/-- The truncated remainder is strictly smaller than the divisor in absolute
value. -/
theorem natAbs_tmod_lt (a b : Int) (h : b ≠ 0) : (a.tmod b).natAbs < b.natAbs := by
  have key : ∀ (x y : Int), 0 < y → (x.tmod y).natAbs < y.natAbs := by
    intro x y hy
    have h1 : x.tmod y < y := Int.tmod_lt_of_pos x hy
    rcases le_or_lt 0 x with hx | hx
    · have h2 : 0 ≤ x.tmod y := Int.tmod_nonneg y hx
      omega
    · have h2 : (-x).tmod y = -(x.tmod y) := neg_tmod_eq x y
      have h3 : 0 ≤ (-x).tmod y := Int.tmod_nonneg y (by omega)
      have h4 : (-x).tmod y < y := Int.tmod_lt_of_pos (-x) hy
      omega
  rcases lt_or_gt_of_ne h with hb | hb
  · have := key a (-b) (by omega)
    rw [Int.tmod_neg] at this
    omega
  · have := key a b hb
    omega

/-- One step of the Euclidean recursion preserves the gcd. -/
theorem gcd_tmod_step (a b : Int) : Int.gcd b (a.tmod b) = Int.gcd a b := by
  have ha : a = a.tmod b + b * a.tdiv b := by
    have h := Int.tdiv_add_tmod a b
    omega
  apply Nat.dvd_antisymm
  · have d1 : (↑(Int.gcd b (a.tmod b)) : Int) ∣ b := Int.gcd_dvd_left
    have d2 : (↑(Int.gcd b (a.tmod b)) : Int) ∣ a.tmod b := Int.gcd_dvd_right
    have d3 : (↑(Int.gcd b (a.tmod b)) : Int) ∣ a := by
      have hsum := dvd_add d2 (d1.mul_right (a.tdiv b))
      rwa [← ha] at hsum
    exact Int.natCast_dvd_natCast.mp (Int.dvd_gcd d3 d1)
  · have d1 : (↑(Int.gcd a b) : Int) ∣ a := Int.gcd_dvd_left
    have d2 : (↑(Int.gcd a b) : Int) ∣ b := Int.gcd_dvd_right
    have d3 : (↑(Int.gcd a b) : Int) ∣ a.tmod b := by
      rw [tmod_sub_eq]
      exact dvd_sub d1 (d2.mul_right _)
    exact Int.natCast_dvd_natCast.mp (Int.dvd_gcd d2 d3)

/-- The fueled recursion computes the mathematical gcd whenever the fuel
exceeds `b.natAbs`. -/
theorem rgcdFuel_eq_gcd (fuel : Nat) :
    ∀ (b a : Int), b.natAbs < fuel → rgcdFuel fuel a b = Int.gcd a b := by
  induction fuel with
  | zero => intro b a hb; omega
  | succ n ih =>
    intro b a hb
    by_cases h : b = 0
    · subst h
      simp [rgcdFuel, Int.gcd]
    · rw [rgcdFuel, if_neg h]
      have hlt : (a.tmod b).natAbs < n := by
        have h1 := natAbs_tmod_lt a b h
        omega
      rw [ih (a.tmod b) b hlt, gcd_tmod_step]

/-- The source gcd agrees with the mathematical gcd. -/
theorem rgcd_eq_gcd (a b : Int) : rgcd a b = Int.gcd a b := by
  exact rgcdFuel_eq_gcd (b.natAbs + 1) b a (Nat.lt_succ_self _)


namespace Rational32

/-- Reduction produces the normal form and preserves the rational value. -/
theorem reduce_spec (q : Rational32) (h : q.den ≠ 0) :
    q.reduce.NF ∧ q.reduce.toRat = q.toRat := by
  unfold reduce
  rw [rgcd_eq_gcd]
  set gN := Int.gcd q.num q.den with hg
  have hgpos : 0 < gN := Int.gcd_pos_of_ne_zero_right q.num h
  have hgz : (gN : Int) ≠ 0 := by positivity
  have hdn : (gN : Int) ∣ q.num := Int.gcd_dvd_left
  have hdd : (gN : Int) ∣ q.den := Int.gcd_dvd_right
  have hnum : q.num.tdiv gN = q.num / gN := Int.tdiv_eq_ediv_of_dvd hdn
  have hden : q.den.tdiv gN = q.den / gN := Int.tdiv_eq_ediv_of_dvd hdd
  have hco : Int.gcd (q.num / gN) (q.den / gN) = 1 := Int.gcd_div_gcd_div_gcd hgpos
  have hdenne : q.den / (gN : Int) ≠ 0 := by
    intro h0
    have := Int.ediv_mul_cancel hdd
    rw [h0] at this
    simp at this
    exact h this.symm
  have hnumv : ((q.num / gN : Int) : ℚ) * (gN : ℚ) = (q.num : ℚ) := by
    have := Int.ediv_mul_cancel hdn
    exact_mod_cast congrArg (fun z : Int => (z : ℚ)) this
  have hdenv : ((q.den / gN : Int) : ℚ) * (gN : ℚ) = (q.den : ℚ) := by
    have := Int.ediv_mul_cancel hdd
    exact_mod_cast congrArg (fun z : Int => (z : ℚ)) this
  have hval : ((q.num / gN : Int) : ℚ) / ((q.den / gN : Int) : ℚ) =
      (q.num : ℚ) / (q.den : ℚ) := by
    rw [← hnumv, ← hdenv]
    rw [mul_div_mul_right]
    exact_mod_cast hgz
  by_cases hsgn : q.den.tdiv gN < 0
  · rw [if_pos hsgn]
    refine ⟨⟨?_, ?_⟩, ?_⟩
    · rw [Int.neg_gcd, Int.gcd_neg, hnum, hden]
      exact hco
    · show (0 : Int) < -(q.den.tdiv gN)
      rw [hden] at hsgn ⊢
      omega
    · unfold toRat
      simp only [hnum, hden]
      push_cast
      rw [div_neg, neg_div, neg_neg]
      exact hval
  · rw [if_neg hsgn]
    refine ⟨⟨?_, ?_⟩, ?_⟩
    · rw [hnum, hden]
      exact hco
    · show (0 : Int) < q.den.tdiv gN
      rw [hden] at hsgn ⊢
      omega
    · unfold toRat
      simp only [hnum, hden]
      exact hval

/-- A value already in normal form reduces to itself. -/
theorem reduce_eq_self {q : Rational32} (h : q.NF) : q.reduce = q := by
  obtain ⟨hco, hpos⟩ := h
  unfold reduce
  rw [rgcd_eq_gcd, hco]
  push_cast
  rw [Int.tdiv_one, Int.tdiv_one, if_neg (by omega)]

/-- Reduction is idempotent on values with a nonzero denominator. -/
theorem reduce_reduce (q : Rational32) (h : q.den ≠ 0) : q.reduce.reduce = q.reduce :=
  reduce_eq_self (reduce_spec q h).1

theorem reduce_nf (q : Rational32) (h : q.den ≠ 0) : q.reduce.NF :=
  (reduce_spec q h).1

theorem toRat_reduce (q : Rational32) (h : q.den ≠ 0) : q.reduce.toRat = q.toRat :=
  (reduce_spec q h).2

theorem reduce_den_pos (q : Rational32) (h : q.den ≠ 0) : 0 < q.reduce.den :=
  (reduce_spec q h).1.2

/-- `rlcm` of two positive integers is the mathematical lcm. -/
theorem rlcm_eq_lcm (a b : Int) (_ha : 0 < a) (hb : 0 < b) :
    rlcm a b = (Nat.lcm a.natAbs b.natAbs : Int) := by
  unfold rlcm
  rw [rgcd_eq_gcd]
  congr 1
  rw [Int.natAbs_mul, Int.natAbs_tdiv]
  simp only [Int.natAbs_ofNat]
  show a.natAbs / (Int.gcd a b) * b.natAbs = Nat.lcm a.natAbs b.natAbs
  rw [Nat.lcm, show Int.gcd a b = a.natAbs.gcd b.natAbs from rfl]
  set g := a.natAbs.gcd b.natAbs with hgdef
  obtain ⟨k, hk⟩ : g ∣ a.natAbs := hgdef ▸ Nat.gcd_dvd_left a.natAbs b.natAbs
  have hgpos : 0 < g :=
    hgdef ▸ Nat.gcd_pos_of_pos_right _ (Int.natAbs_pos.mpr (by omega))
  rw [hk, Nat.mul_div_cancel_left k hgpos, Nat.mul_assoc,
    Nat.mul_div_cancel_left _ hgpos]

theorem rlcm_pos (a b : Int) (ha : 0 < a) (hb : 0 < b) : 0 < rlcm a b := by
  rw [rlcm_eq_lcm a b ha hb]
  have h1 : a.natAbs ≠ 0 := (Int.natAbs_pos.mpr (by omega : a ≠ 0)).ne'
  have h2 : b.natAbs ≠ 0 := (Int.natAbs_pos.mpr (by omega : b ≠ 0)).ne'
  have := Nat.pos_of_ne_zero (Nat.lcm_ne_zero h1 h2)
  exact_mod_cast this

theorem dvd_rlcm_left (a b : Int) (ha : 0 < a) (hb : 0 < b) : a ∣ rlcm a b := by
  rw [rlcm_eq_lcm a b ha hb]
  have h1 : a.natAbs ∣ Nat.lcm a.natAbs b.natAbs := Nat.dvd_lcm_left _ _
  have h2 : (a.natAbs : Int) ∣ (Nat.lcm a.natAbs b.natAbs : Int) := Int.natCast_dvd_natCast.mpr h1
  rwa [Int.natAbs_of_nonneg (by omega)] at h2

theorem dvd_rlcm_right (a b : Int) (ha : 0 < a) (hb : 0 < b) : b ∣ rlcm a b := by
  rw [rlcm_eq_lcm a b ha hb]
  have h1 : b.natAbs ∣ Nat.lcm a.natAbs b.natAbs := Nat.dvd_lcm_right _ _
  have h2 : (b.natAbs : Int) ∣ (Nat.lcm a.natAbs b.natAbs : Int) := Int.natCast_dvd_natCast.mpr h1
  rwa [Int.natAbs_of_nonneg (by omega)] at h2

/-- The cross-cancelled product of two reduced fractions is in normal form. -/
theorem mul_nf (a b : Rational32) (ha : a.den ≠ 0) (hb : b.den ≠ 0) : (a.mul b).NF := by
  obtain ⟨⟨hxc, hxp⟩, -⟩ := reduce_spec a ha
  obtain ⟨⟨hyc, hyp⟩, -⟩ := reduce_spec b hb
  unfold mul
  simp only [rgcd_eq_gcd]
  set x := a.reduce with hxdef
  set y := b.reduce with hydef
  have hd1pos : 0 < x.den.natAbs := Int.natAbs_pos.mpr (by omega)
  have hd2pos : 0 < y.den.natAbs := Int.natAbs_pos.mpr (by omega)
  have hg1pos : 0 < Int.gcd x.num y.den := Int.gcd_pos_of_ne_zero_right _ (by omega)
  have hg2pos : 0 < Int.gcd y.num x.den := Int.gcd_pos_of_ne_zero_right _ (by omega)
  constructor
  · show Int.gcd _ _ = 1
    rw [Int.gcd_def, Int.natAbs_mul, Int.natAbs_mul, Int.natAbs_tdiv, Int.natAbs_tdiv,
      Int.natAbs_tdiv, Int.natAbs_tdiv]
    simp only [Int.natAbs_ofNat]
    have c1 : Nat.Coprime (x.num.natAbs / Int.gcd x.num y.den)
        (y.den.natAbs / Int.gcd x.num y.den) := Nat.coprime_div_gcd_div_gcd hg1pos
    have c2 : Nat.Coprime (y.num.natAbs / Int.gcd y.num x.den)
        (x.den.natAbs / Int.gcd y.num x.den) := Nat.coprime_div_gcd_div_gcd hg2pos
    have c3 : Nat.Coprime (x.num.natAbs / Int.gcd x.num y.den)
        (x.den.natAbs / Int.gcd y.num x.den) := by
      have step1 : Nat.Coprime (x.num.natAbs / Int.gcd x.num y.den) x.den.natAbs :=
        Nat.Coprime.coprime_dvd_left
          (Nat.div_dvd_of_dvd (Nat.gcd_dvd_left x.num.natAbs y.den.natAbs)) hxc
      exact step1.coprime_dvd_right
        (Nat.div_dvd_of_dvd (Nat.gcd_dvd_right y.num.natAbs x.den.natAbs))
    have c4 : Nat.Coprime (y.num.natAbs / Int.gcd y.num x.den)
        (y.den.natAbs / Int.gcd x.num y.den) := by
      have step1 : Nat.Coprime (y.num.natAbs / Int.gcd y.num x.den) y.den.natAbs :=
        Nat.Coprime.coprime_dvd_left
          (Nat.div_dvd_of_dvd (Nat.gcd_dvd_left y.num.natAbs x.den.natAbs)) hyc
      exact step1.coprime_dvd_right
        (Nat.div_dvd_of_dvd (Nat.gcd_dvd_right x.num.natAbs y.den.natAbs))
    exact Nat.Coprime.mul (c3.mul_right c1) (c2.mul_right c4)
  · show 0 < (x.den.tdiv (Int.gcd y.num x.den : Int)) * (y.den.tdiv (Int.gcd x.num y.den : Int))
    have p1 : 0 < x.den.tdiv (Int.gcd y.num x.den : Int) := by
      have hnn : 0 ≤ x.den.tdiv (Int.gcd y.num x.den : Int) :=
        Int.tdiv_nonneg (le_of_lt hxp) (by exact_mod_cast Nat.zero_le _)
      have hne : x.den.tdiv (Int.gcd y.num x.den : Int) ≠ 0 := by
        apply Int.natAbs_pos.mp
        rw [Int.natAbs_tdiv]
        simp only [Int.natAbs_ofNat]
        exact Nat.div_pos
          (Nat.le_of_dvd hd1pos (Nat.gcd_dvd_right y.num.natAbs x.den.natAbs)) hg2pos
      omega
    have p2 : 0 < y.den.tdiv (Int.gcd x.num y.den : Int) := by
      have hnn : 0 ≤ y.den.tdiv (Int.gcd x.num y.den : Int) :=
        Int.tdiv_nonneg (le_of_lt hyp) (by exact_mod_cast Nat.zero_le _)
      have hne : y.den.tdiv (Int.gcd x.num y.den : Int) ≠ 0 := by
        apply Int.natAbs_pos.mp
        rw [Int.natAbs_tdiv]
        simp only [Int.natAbs_ofNat]
        exact Nat.div_pos
          (Nat.le_of_dvd hd2pos (Nat.gcd_dvd_right x.num.natAbs y.den.natAbs)) hg1pos
      omega
    positivity

/-- The product agrees with exact rational multiplication. -/
theorem toRat_mul (a b : Rational32) (ha : a.den ≠ 0) (hb : b.den ≠ 0) :
    (a.mul b).toRat = a.toRat * b.toRat := by
  obtain ⟨⟨hxc, hxp⟩, hxv⟩ := reduce_spec a ha
  obtain ⟨⟨hyc, hyp⟩, hyv⟩ := reduce_spec b hb
  rw [← hxv, ← hyv]
  unfold mul
  simp only [rgcd_eq_gcd]
  set x := a.reduce with hxdef
  set y := b.reduce with hydef
  have hg1pos : 0 < Int.gcd x.num y.den := Int.gcd_pos_of_ne_zero_right _ (by omega)
  have hg2pos : 0 < Int.gcd y.num x.den := Int.gcd_pos_of_ne_zero_right _ (by omega)
  have e1 : ((Int.gcd x.num y.den : Int)) * (x.num.tdiv (Int.gcd x.num y.den : Int)) = x.num :=
    Int.mul_tdiv_cancel' Int.gcd_dvd_left
  have e2 : ((Int.gcd x.num y.den : Int)) * (y.den.tdiv (Int.gcd x.num y.den : Int)) = y.den :=
    Int.mul_tdiv_cancel' Int.gcd_dvd_right
  have e3 : ((Int.gcd y.num x.den : Int)) * (y.num.tdiv (Int.gcd y.num x.den : Int)) = y.num :=
    Int.mul_tdiv_cancel' Int.gcd_dvd_left
  have e4 : ((Int.gcd y.num x.den : Int)) * (x.den.tdiv (Int.gcd y.num x.den : Int)) = x.den :=
    Int.mul_tdiv_cancel' Int.gcd_dvd_right
  have q1 := congrArg (fun z : Int => (z : ℚ)) e1
  have q2 := congrArg (fun z : Int => (z : ℚ)) e2
  have q3 := congrArg (fun z : Int => (z : ℚ)) e3
  have q4 := congrArg (fun z : Int => (z : ℚ)) e4
  simp only at q1 q2 q3 q4
  push_cast at q1 q2 q3 q4
  unfold toRat
  push_cast
  rw [← q1, ← q2, ← q3, ← q4]
  have hs : ((x.den.tdiv (Int.gcd y.num x.den : Int) : Int) : ℚ) ≠ 0 := by
    apply Int.cast_ne_zero.mpr
    intro h0
    rw [h0, mul_zero] at e4
    omega
  have hq : ((y.den.tdiv (Int.gcd x.num y.den : Int) : Int) : ℚ) ≠ 0 := by
    apply Int.cast_ne_zero.mpr
    intro h0
    rw [h0, mul_zero] at e2
    omega
  have hg1 : ((Int.gcd x.num y.den : Int) : ℚ) ≠ 0 :=
    Int.cast_ne_zero.mpr (by exact_mod_cast hg1pos.ne')
  have hg2 : ((Int.gcd y.num x.den : Int) : ℚ) ≠ 0 :=
    Int.cast_ne_zero.mpr (by exact_mod_cast hg2pos.ne')
  field_simp
  ring

/-- The denominator of a sum is positive (the lcm of the reduced denominators). -/
theorem add_den_pos (a b : Rational32) (ha : a.den ≠ 0) (hb : b.den ≠ 0) :
    0 < (a.add b).den := by
  unfold add
  exact rlcm_pos _ _ (reduce_den_pos a ha) (reduce_den_pos b hb)

/-- The sum agrees with exact rational addition. -/
theorem toRat_add (a b : Rational32) (ha : a.den ≠ 0) (hb : b.den ≠ 0) :
    (a.add b).toRat = a.toRat + b.toRat := by
  obtain ⟨⟨hxc, hxp⟩, hxv⟩ := reduce_spec a ha
  obtain ⟨⟨hyc, hyp⟩, hyv⟩ := reduce_spec b hb
  rw [← hxv, ← hyv]
  unfold add
  set x := a.reduce with hxdef
  set y := b.reduce with hydef
  have hcdpos : 0 < rlcm x.den y.den := rlcm_pos _ _ hxp hyp
  have hdl : x.den ∣ rlcm x.den y.den := dvd_rlcm_left _ _ hxp hyp
  have hdr : y.den ∣ rlcm x.den y.den := dvd_rlcm_right _ _ hxp hyp
  have e1 : x.den * ((rlcm x.den y.den).tdiv x.den) = rlcm x.den y.den :=
    Int.mul_tdiv_cancel' hdl
  have e2 : y.den * ((rlcm x.den y.den).tdiv y.den) = rlcm x.den y.den :=
    Int.mul_tdiv_cancel' hdr
  have q1 := congrArg (fun z : Int => (z : ℚ)) e1
  have q2 := congrArg (fun z : Int => (z : ℚ)) e2
  simp only at q1 q2
  push_cast at q1 q2
  unfold toRat
  push_cast
  have hxq : ((x.den : Int) : ℚ) ≠ 0 := Int.cast_ne_zero.mpr (by omega)
  have hyq : ((y.den : Int) : ℚ) ≠ 0 := Int.cast_ne_zero.mpr (by omega)
  have hcdq : ((rlcm x.den y.den : Int) : ℚ) ≠ 0 := Int.cast_ne_zero.mpr (by omega)
  rw [div_add_div _ _ hxq hyq, div_eq_div_iff hcdq (by exact mul_ne_zero hxq hyq)]
  linear_combination ((x.num : ℚ) * (y.den : ℚ)) * q1 + ((y.num : ℚ) * (x.den : ℚ)) * q2

/-- The quotient agrees with exact rational division. -/
theorem toRat_div (a b : Rational32) (ha : a.den ≠ 0) (hb : b.den ≠ 0)
    (hbn : b.num ≠ 0) : (a.div b).toRat = a.toRat / b.toRat := by
  unfold div toRat
  have h1 : ((a.den : Int) : ℚ) ≠ 0 := Int.cast_ne_zero.mpr ha
  have h2 : ((b.den : Int) : ℚ) ≠ 0 := Int.cast_ne_zero.mpr hb
  have h3 : ((b.num : Int) : ℚ) ≠ 0 := Int.cast_ne_zero.mpr hbn
  push_cast
  rw [div_div_div_eq]

/-- The product only depends on the reduced operands, and reducing the product
is the identity: this yields the specification identity
`(a * b).reduce() = a.reduce() * b.reduce()`. -/
theorem mul_reduce_eq (a b : Rational32) (ha : a.den ≠ 0) (hb : b.den ≠ 0) :
    (a.mul b).reduce = (a.reduce).mul (b.reduce) := by
  have h1 : (a.mul b).reduce = a.mul b := reduce_eq_self (mul_nf a b ha hb)
  have h2 : a.mul b = (a.reduce).mul (b.reduce) := by
    show mul a b = mul a.reduce b.reduce
    unfold mul
    rw [reduce_reduce a ha, reduce_reduce b hb]
  rw [h1, h2]

end Rational32

/-! ### Claim C3: Rational32 binary operations -/

/-- C3 counterexample: the claim says every binary-operation result is in
normal form, but `Rational32(1,2) + Rational32(1,2)` is the unreduced `2/2`
whose gcd of numerator and denominator is 2. -/
theorem C3_counterexample :
    (Rational32.mk 1 2).add (Rational32.mk 1 2) = Rational32.mk 2 2 ∧
    ¬ ((Rational32.mk 1 2).add (Rational32.mk 1 2)).NF := by
  decide

/-- C3 (amended): for operands with nonzero denominators, the product is in
normal form and `(a * b).reduce() = a.reduce() * b.reduce()`; the sum and the
quotient agree with exact rational arithmetic but need not be reduced (the
sum still has a positive denominator). -/
theorem C3_rational_binops (a b : Rational32) (ha : a.den ≠ 0) (hb : b.den ≠ 0) :
    (a.mul b).NF ∧
    (a.mul b).toRat = a.toRat * b.toRat ∧
    (a.mul b).reduce = (a.reduce).mul (b.reduce) ∧
    (a.add b).toRat = a.toRat + b.toRat ∧
    0 < (a.add b).den ∧
    (b.num ≠ 0 → (a.div b).toRat = a.toRat / b.toRat) :=
  ⟨Rational32.mul_nf a b ha hb, Rational32.toRat_mul a b ha hb,
    Rational32.mul_reduce_eq a b ha hb, Rational32.toRat_add a b ha hb,
    Rational32.add_den_pos a b ha hb, fun hbn => Rational32.toRat_div a b ha hb hbn⟩

/-- C3 witness: the amended statement at the concrete inputs 1/3 and 2/5. -/
theorem C3_rational_binops_witness :
    ((Rational32.mk 1 3).mul (Rational32.mk 2 5)).NF ∧
    ((Rational32.mk 1 3).mul (Rational32.mk 2 5)).toRat =
      (Rational32.mk 1 3).toRat * (Rational32.mk 2 5).toRat ∧
    ((Rational32.mk 1 3).mul (Rational32.mk 2 5)).reduce =
      ((Rational32.mk 1 3).reduce).mul ((Rational32.mk 2 5).reduce) ∧
    ((Rational32.mk 1 3).add (Rational32.mk 2 5)).toRat =
      (Rational32.mk 1 3).toRat + (Rational32.mk 2 5).toRat ∧
    0 < ((Rational32.mk 1 3).add (Rational32.mk 2 5)).den ∧
    ((Rational32.mk 2 5).num ≠ 0 →
      ((Rational32.mk 1 3).div (Rational32.mk 2 5)).toRat =
        (Rational32.mk 1 3).toRat / (Rational32.mk 2 5).toRat) :=
  C3_rational_binops ⟨1, 3⟩ ⟨2, 5⟩ (by decide) (by decide)

/-! ### Claim C9: pitch-bend centrality -/

/-- C9: for a note of exactly 440 Hz and any positive bend range, the MIDI
encoder yields key 69 and centred bend 8192 (with zero residual cents).  The
only float fact used is `log2 1 = 0`, which IEEE arithmetic satisfies. -/
theorem C9_pitch_bend_centrality (M : FloatOps) (bendRange : Nat)
    (hlog : M.log2 1 = 0) (hbr : 1 ≤ bendRange) :
    freqToKeyAndBend M 440 bendRange = some (69, 8192, 0) := by
  unfold freqToKeyAndBend
  have hne : ¬((bendRange == 0) = true) := by
    simp only [beq_iff_eq]
    omega
  rw [if_neg hne]
  have hround : rustRound (69 : ℚ) = 69 := by
    unfold rustRound
    rw [if_pos (by norm_num)]
    norm_num
  have hr0 : rustRound (0 : ℚ) = 0 := by
    unfold rustRound
    rw [if_pos le_rfl]
    norm_num
  have hclamp : clampI 69 0 127 = 69 := by decide
  have hbend : signedToBend14 0 = 8192 := by decide
  have h440 : (440 : ℚ) / 440 = 1 := by norm_num
  simp only [h440, hlog]
  norm_num [hround, hclamp, hr0, hbend]

/-- C9 witness: a concrete float model with `log2 1 = 0` and bend range 2. -/
theorem C9_pitch_bend_centrality_witness :
    FloatOps.log2 { pow2 := fun _ => 0, log2 := fun _ => 0 } 1 = 0 ∧
    freqToKeyAndBend { pow2 := fun _ => 0, log2 := fun _ => 0 } 440 2 =
      some (69, 8192, 0) :=
  ⟨rfl, C9_pitch_bend_centrality { pow2 := fun _ => 0, log2 := fun _ => 0 } 2 rfl
    (by omega)⟩

/-! ### Claim C8: the power-of-two time-signature warning -/

/-- A fold of added terms all divisible by `n` stays divisible by `n`. -/
theorem foldl_add_dvd (n : Nat) (f : Nat → Nat) (l : List Nat) (acc : Nat)
    (hacc : n ∣ acc) (hf : ∀ k ∈ l, n ∣ f k) :
    n ∣ l.foldl (fun a k => a + f k) acc := by
  induction l generalizing acc with
  | nil => exact hacc
  | cons k rest ih =>
    exact ih (acc + f k) (dvd_add hacc (hf k (List.mem_cons_self k rest)))
      (fun j hj => hf j (List.mem_cons_of_mem k hj))

/-- When the 32-bit pattern fits in 16 bits, its bit reversal is a multiple of
`2^16`. -/
theorem revBits32_dvd (x : Int) (h : toU32 x < 65536) : 65536 ∣ revBits32 x := by
  unfold revBits32
  apply foldl_add_dvd 65536 _ _ 0 (dvd_zero _)
  intro k hk
  have hk32 : k < 32 := List.mem_range.mp hk
  by_cases hb : Nat.testBit (toU32 x) k
  · rw [if_pos hb]
    have hklt : k < 16 := by
      by_contra hge
      have h16k : (65536 : Nat) ≤ 2 ^ k := by
        calc (65536 : Nat) = 2 ^ 16 := by norm_num
        _ ≤ 2 ^ k := Nat.pow_le_pow_right (by omega) (by omega)
      have := Nat.testBit_lt_two_pow (Nat.lt_of_lt_of_le h h16k)
      rw [this] at hb
      exact Bool.false_ne_true hb
    have : (65536 : Nat) = 2 ^ 16 := by norm_num
    rw [this]
    exact pow_dvd_pow 2 (by omega)
  · rw [if_neg hb]
    exact dvd_zero _

/-- A multiple of `2^16` has no bits in common with a value below `2^16`. -/
theorem land_eq_zero_of_split (A B : Nat) (hA : 65536 ∣ A) (hB : B < 65536) :
    Nat.land A B = 0 := by
  apply Nat.eq_of_testBit_eq
  intro i
  have hland : Nat.land A B = A &&& B := rfl
  rw [hland, Nat.testBit_land, Nat.zero_testBit]
  rcases lt_or_ge i 16 with hi | hi
  · obtain ⟨m, hm⟩ := hA
    have h16 : i + (16 - i) = 16 := by omega
    have hsplit : A = 2 ^ i * (2 ^ (16 - i) * m) := by
      calc A = 65536 * m := hm
      _ = 2 ^ 16 * m := by norm_num
      _ = 2 ^ (i + (16 - i)) * m := by rw [h16]
      _ = 2 ^ i * (2 ^ (16 - i) * m) := by rw [pow_add, Nat.mul_assoc]
    have hdivA : A / 2 ^ i = 2 ^ (16 - i) * m :=
      hsplit ▸ Nat.mul_div_cancel_left _ (Nat.pos_pow_of_pos i (by omega))
    have heven : A / 2 ^ i % 2 = 0 := by
      rw [hdivA]
      have h1 : 16 - i = (16 - i - 1) + 1 := by omega
      rw [h1, pow_succ]
      have h2 : 2 ^ (16 - i - 1) * 2 * m = 2 * (2 ^ (16 - i - 1) * m) := by ring
      rw [h2]
      exact Nat.mul_mod_right 2 _
    have hfalse : Nat.testBit A i = false := by
      rw [Nat.testBit_to_div_mod]
      simp [heven]
    rw [hfalse]
    simp
  · have hBi : Nat.testBit B i = false := by
      apply Nat.testBit_lt_two_pow
      calc B < 65536 := hB
      _ = 2 ^ 16 := by norm_num
      _ ≤ 2 ^ i := Nat.pow_le_pow_right (by omega) hi
    rw [hBi]
    simp

/-- C8 (code bug): for every time-signature denominator the lexer can produce
(`1 ≤ d ≤ 65535`), the warning guard `d.reverse_bits() & (d - 1) != 0` is
false, so the "denominator is not a power of two" warning is never emitted —
contrary to the claim, the spec, and the source comment right above the check.
At the failing input `(4/3)` the signature is applied with no diagnostic at
all, while the zero-denominator error path does behave as claimed. -/
theorem C8_power_of_two_warning_never_fires :
    (∀ d : Int, 0 < d → d < 65536 → tsWarnCheck d = false) ∧
    (Compiler.compileTimeSignatureDef Compiler.new
      (Cst.node SyntaxKind.NODE_TIME_SIGNATURE_DEF ⟨0, 5⟩
        [Cst.tok SyntaxKind.LParen ⟨0, 1⟩ "(",
         Cst.tok SyntaxKind.PitchRatio ⟨1, 4⟩ "4/3",
         Cst.tok SyntaxKind.RParen ⟨4, 5⟩ ")"])).diagnostics = [] ∧
    (Compiler.compileTimeSignatureDef Compiler.new
      (Cst.node SyntaxKind.NODE_TIME_SIGNATURE_DEF ⟨0, 5⟩
        [Cst.tok SyntaxKind.LParen ⟨0, 1⟩ "(",
         Cst.tok SyntaxKind.PitchRatio ⟨1, 4⟩ "4/3",
         Cst.tok SyntaxKind.RParen ⟨4, 5⟩ ")"])).state.timeSignature =
      Rational32.new 4 3 ∧
    (Compiler.compileTimeSignatureDef Compiler.new
      (Cst.node SyntaxKind.NODE_TIME_SIGNATURE_DEF ⟨0, 5⟩
        [Cst.tok SyntaxKind.LParen ⟨0, 1⟩ "(",
         Cst.tok SyntaxKind.PitchRatio ⟨1, 4⟩ "4/0",
         Cst.tok SyntaxKind.RParen ⟨4, 5⟩ ")"])).state = Compiler.new.state ∧
    (Compiler.compileTimeSignatureDef Compiler.new
      (Cst.node SyntaxKind.NODE_TIME_SIGNATURE_DEF ⟨0, 5⟩
        [Cst.tok SyntaxKind.LParen ⟨0, 1⟩ "(",
         Cst.tok SyntaxKind.PitchRatio ⟨1, 4⟩ "4/0",
         Cst.tok SyntaxKind.RParen ⟨4, 5⟩ ")"])).diagnostics.map
        Diagnostic.level = [DiagnosticLevel.Error] := by
  refine ⟨?_, by rfl, by rfl, by rfl, by rfl⟩
  intro d hd0 hdlt
  unfold tsWarnCheck
  have hd1 : toU32 d < 65536 := by
    unfold toU32
    have he : Int.emod d 4294967296 = d := Int.emod_eq_of_lt (by omega) (by omega)
    rw [he]
    omega
  have hd2 : toU32 (d - 1) < 65536 := by
    unfold toU32
    have he : Int.emod (d - 1) 4294967296 = d - 1 := Int.emod_eq_of_lt (by omega) (by omega)
    rw [he]
    omega
  have := land_eq_zero_of_split (revBits32 d) (toU32 (d - 1)) (revBits32_dvd d hd1) hd2
  simp [this]

/-- C8 witness: the guard is false at the non-power-of-two denominator 3. -/
theorem C8_power_of_two_warning_never_fires_witness : tsWarnCheck 3 = false :=
  C8_power_of_two_warning_never_fires.1 3 (by decide) (by decide)

/-! ### Claim C7: ghost lines restore the time stamp -/

/-- C7: compiling a ghost line records the entry time stamp and restores it at
exit, so the time position (seconds, bars, ticks) is unchanged no matter what
the line contains. -/
theorem C7_ghost_line_restores_time (M : FloatOps) (c : Compiler) (node : Cst)
    (h : node.kind = SyntaxKind.NODE_GHOST_LINE) :
    (Compiler.compileNormalLine M c node).state.time = c.state.time := by
  have hg : node.kind.isNodeGhostLine = true := by
    simp [SyntaxKind.isNodeGhostLine, h]
  unfold Compiler.compileNormalLine
  simp only [hg, if_true, if_pos]

/-- C7 witness: a concrete ghost line containing a comma leaves the default
time stamp unchanged. -/
theorem C7_ghost_line_restores_time_witness :
    (Compiler.compileNormalLine floatOpsZero Compiler.new
      (Cst.node SyntaxKind.NODE_GHOST_LINE ⟨0, 2⟩
        [Cst.tok SyntaxKind.Equals ⟨0, 1⟩ "=",
         Cst.tok SyntaxKind.Comma ⟨1, 2⟩ ",",
         Cst.tok SyntaxKind.Newline ⟨2, 3⟩ "\n"])).state.time =
      Compiler.new.state.time :=
  C7_ghost_line_restores_time floatOpsZero Compiler.new
    (Cst.node SyntaxKind.NODE_GHOST_LINE ⟨0, 2⟩
      [Cst.tok SyntaxKind.Equals ⟨0, 1⟩ "=",
       Cst.tok SyntaxKind.Comma ⟨1, 2⟩ ",",
       Cst.tok SyntaxKind.Newline ⟨2, 3⟩ "\n"]) rfl

/-! ### Preservation lemmas for the compiler passes

`presPE c cNew` states that a step preserved the registries and every state
field except `edo_def` (the parse layer mutates only `edo_def`, diagnostics
and events). -/

def presPE (c cNew : Compiler) : Prop :=
  cNew.macros = c.macros ∧
  cNew.state.time = c.state.time ∧
  cNew.state.quantize = c.state.quantize ∧
  cNew.state.bpm = c.state.bpm ∧
  cNew.state.beatDuration = c.state.beatDuration ∧
  cNew.state.timeSignature = c.state.timeSignature ∧
  cNew.state.baseNote = c.state.baseNote ∧
  cNew.state.baseFrequency = c.state.baseFrequency

theorem presPE_refl (c : Compiler) : presPE c c :=
  ⟨rfl, rfl, rfl, rfl, rfl, rfl, rfl, rfl⟩

theorem presPE_trans {a b c : Compiler} (h1 : presPE a b) (h2 : presPE b c) :
    presPE a c := by
  obtain ⟨m1, t1, q1, b1, d1, s1, n1, f1⟩ := h1
  obtain ⟨m2, t2, q2, b2, d2, s2, n2, f2⟩ := h2
  exact ⟨m2.trans m1, t2.trans t1, q2.trans q1, b2.trans b1, d2.trans d1, s2.trans s1,
    n2.trans n1, f2.trans f1⟩

theorem presPE_error (c : Compiler) (m : String) (r : TextRange) :
    presPE c (c.error m r) :=
  ⟨rfl, rfl, rfl, rfl, rfl, rfl, rfl, rfl⟩

theorem presPE_warn (c : Compiler) (m : String) (r : TextRange) :
    presPE c (c.warn m r) :=
  ⟨rfl, rfl, rfl, rfl, rfl, rfl, rfl, rfl⟩

theorem presPE_pushEvent (c : Compiler) (b : EventBody) (r : TextRange) :
    presPE c (c.pushEvent b r) :=
  ⟨rfl, rfl, rfl, rfl, rfl, rfl, rfl, rfl⟩

theorem presPE_parseDurationFraction (c : Compiler) (t : Cst) :
    presPE c (Compiler.parseDurationFraction c t).1 := by
  unfold Compiler.parseDurationFraction
  dsimp only
  split
  · exact presPE_error c _ _
  · exact presPE_refl c

theorem presPE_parsePitchAtom (c : Compiler) (t : Cst) (af : Bool) :
    presPE c (Compiler.parsePitchAtom c t af).1 := by
  unfold Compiler.parsePitchAtom
  dsimp only
  repeat' split
  all_goals first
    | exact presPE_refl c
    | exact presPE_error c _ _
    | exact ⟨rfl, rfl, rfl, rfl, rfl, rfl, rfl, rfl⟩

theorem presPE_parsePitch (M : FloatOps) (c : Compiler) (t : Cst) (af : Bool) :
    presPE c (Compiler.parsePitch M c t af).1 := by
  unfold Compiler.parsePitch
  have h := presPE_parsePitchAtom c t af
  split
  all_goals rename_i heq; rw [heq] at h; exact h

theorem presPE_parsePitchChainIdentAsChain (c : Compiler) (t : Cst) :
    presPE c (Compiler.parsePitchChainIdentAsChain c t).1 := by
  unfold Compiler.parsePitchChainIdentAsChain
  dsimp only
  repeat' split
  all_goals first
    | exact presPE_refl c
    | exact presPE_error c _ _

theorem presPE_parsePitchChainIdentAsChainForBaseRhs (c : Compiler) (t : Cst) :
    presPE c (Compiler.parsePitchChainIdentAsChainForBaseRhs c t).1 := by
  unfold Compiler.parsePitchChainIdentAsChainForBaseRhs
  dsimp only
  repeat' split
  all_goals first
    | exact presPE_refl c
    | exact presPE_error c _ _

theorem presPE_evalPitchChainPitches (M : FloatOps) (c : Compiler) (atoms : List Pitch)
    (r : TextRange) : presPE c (Compiler.evalPitchChainPitches M c atoms r).1 := by
  unfold Compiler.evalPitchChainPitches
  dsimp only
  repeat' split
  all_goals first
    | exact presPE_refl c
    | exact presPE_error c _ _

theorem presPE_baseRhsChainLoop (tokens : List Cst) :
    ∀ (c : Compiler) (pas : List Pitch) (ep : Bool),
    presPE c (Compiler.baseRhsChainLoop c tokens pas ep).1 := by
  induction tokens with
  | nil => intro c pas ep; exact presPE_refl c
  | cons token rest ih =>
    intro c pas ep
    unfold Compiler.baseRhsChainLoop
    split
    · split
      · have h := presPE_parsePitchAtom c token false
        split
        · rename_i heq; rw [heq] at h; exact h
        · rename_i c2 pitch heq; rw [heq] at h
          exact presPE_trans h (ih c2 _ _)
      · split
        · have h := presPE_parsePitchChainIdentAsChainForBaseRhs c token
          split
          · rename_i heq; rw [heq] at h; exact h
          · rename_i c2 chain heq; rw [heq] at h
            split
            · exact presPE_trans h (presPE_error c2 _ _)
            · exact presPE_trans h (ih c2 _ _)
        · exact presPE_error c _ _
    · split
      · exact ih c _ _
      · split
        · exact ih c _ _
        · split
          · exact ih c _ _
          · exact presPE_error c _ _

theorem presPE_parseBasePitchRhsChainTokens (M : FloatOps) (c : Compiler)
    (tokens : List Cst) (range : TextRange) :
    presPE c (Compiler.parseBasePitchRhsChainTokens M c tokens range).1 := by
  unfold Compiler.parseBasePitchRhsChainTokens
  split
  · exact presPE_refl c
  · have h := presPE_baseRhsChainLoop tokens c [] true
    split
    · rename_i heq; rw [heq] at h; exact h
    · rename_i c2 pas ep heq; rw [heq] at h
      split
      · exact presPE_trans h (presPE_error c2 _ _)
      · exact presPE_trans h (presPE_evalPitchChainPitches M c2 pas range)

theorem presPE_pitchChainLoop (tokens : List Cst) :
    ∀ (c : Compiler) (afs : Bool) (pas : List (Pitch × TextRange)) (ep hc : Bool),
    presPE c (Compiler.pitchChainLoop c afs tokens pas ep hc).1 := by
  induction tokens with
  | nil => intro c afs pas ep hc; exact presPE_refl c
  | cons token rest ih =>
    intro c afs pas ep hc
    unfold Compiler.pitchChainLoop
    split
    · split
      · have h := presPE_parsePitchAtom c token afs
        split
        · rename_i heq; rw [heq] at h; exact h
        · rename_i c2 pitch heq; rw [heq] at h
          exact presPE_trans h (ih c2 _ _ _ _)
      · split
        · have h := presPE_parsePitchChainIdentAsChain c token
          split
          · rename_i heq; rw [heq] at h; exact h
          · rename_i c2 chain heq; rw [heq] at h
            exact presPE_trans h (ih c2 _ _ _ _)
        · exact presPE_error c _ _
    · split
      · exact ih c _ _ _ _
      · split
        · exact ih c _ _ _ _
        · split
          · exact ih c _ _ _ _
          · exact presPE_error c _ _

theorem presPE_parsePitchChainTokens (M : FloatOps) (c : Compiler)
    (tokens : List Cst) (afs : Bool) (range : TextRange) :
    presPE c (Compiler.parsePitchChainTokens M c tokens afs range).1 := by
  unfold Compiler.parsePitchChainTokens
  split
  · exact presPE_refl c
  · have h := presPE_pitchChainLoop tokens c afs [] true false
    split
    · rename_i heq; rw [heq] at h; exact h
    · rename_i c2 pas ep hc heq; rw [heq] at h
      split
      · exact presPE_trans h (presPE_error c2 _ _)
      · split
        · exact presPE_trans h (presPE_error c2 _ _)
        · split
          · exact h
          · exact h

theorem presPE_invokeTailLoop (tokens : List Cst) :
    ∀ (c : Compiler) (pas : List Pitch) (ep : Bool),
    presPE c (Compiler.invokeTailLoop c tokens pas ep).1 := by
  induction tokens with
  | nil => intro c pas ep; exact presPE_refl c
  | cons token rest ih =>
    intro c pas ep
    unfold Compiler.invokeTailLoop
    split
    · split
      · have h := presPE_parsePitchAtom c token false
        split
        · rename_i heq; rw [heq] at h; exact h
        · rename_i c2 pitch heq; rw [heq] at h
          exact presPE_trans h (ih c2 _ _)
      · split
        · have h := presPE_parsePitchChainIdentAsChain c token
          split
          · rename_i heq; rw [heq] at h; exact h
          · rename_i c2 chain heq; rw [heq] at h
            exact presPE_trans h (ih c2 _ _)
        · exact presPE_error c _ _
    · split
      · have h := presPE_parsePitchAtom c token false
        split
        · rename_i heq; rw [heq] at h; exact h
        · rename_i c2 pitch heq; rw [heq] at h
          exact presPE_trans h (ih c2 _ _)
      · split
        · have h := presPE_parsePitchChainIdentAsChain c token
          split
          · rename_i heq; rw [heq] at h; exact h
          · rename_i c2 chain heq; rw [heq] at h
            exact presPE_trans h (ih c2 _ _)
        · split
          · exact ih c _ _
          · split
            · exact ih c _ _
            · split
              · exact ih c _ _
              · exact presPE_error c _ _

theorem presPE_parseMacroInvokeTailTokens (c : Compiler) (tokens : List Cst)
    (range : TextRange) :
    presPE c (Compiler.parseMacroInvokeTailTokens c tokens range).1 := by
  unfold Compiler.parseMacroInvokeTailTokens
  split
  · exact presPE_refl c
  · have h := presPE_invokeTailLoop tokens c [] false
    split
    · rename_i heq; rw [heq] at h; exact h
    · rename_i c2 pas ep heq; rw [heq] at h
      split
      · exact presPE_trans h (presPE_error c2 _ _)
      · split
        · exact h
        · exact h

theorem presPE_foldl {α : Type} (f : Compiler → α → Compiler)
    (h : ∀ cc a, presPE cc (f cc a)) (l : List α) :
    ∀ cc, presPE cc (l.foldl f cc) := by
  induction l with
  | nil => intro cc; exact presPE_refl cc
  | cons a l ih => intro cc; exact presPE_trans (h cc a) (ih (f cc a))

theorem presPE_foldl_fst {α β : Type} (f : Compiler × β → α → Compiler × β)
    (h : ∀ p a, presPE p.1 (f p a).1) (l : List α) :
    ∀ p : Compiler × β, presPE p.1 (l.foldl f p).1 := by
  induction l with
  | nil => intro p; exact presPE_refl p.1
  | cons a l ih => intro p; exact presPE_trans (h p a) (ih (f p a))

theorem presPE_invokeSimpleStep (M : FloatOps) (d : Rational32) (node : Cst)
    (anchor : Option (List Pitch)) (acc : Compiler × List Note) (sn : Note) :
    presPE acc.1 (Compiler.invokeSimpleStep M d node anchor acc sn).1 := by
  unfold Compiler.invokeSimpleStep
  exact presPE_evalPitchChainPitches M acc.1 _ _

theorem presPE_invokeSimple (M : FloatOps) (c : Compiler) (d : Rational32)
    (node : Cst) (anchor : Option (List Pitch)) (sns : List Note) :
    presPE c (Compiler.invokeSimple M c d node anchor sns).1 := by
  unfold Compiler.invokeSimple
  exact presPE_foldl_fst _ (fun p a => presPE_invokeSimpleStep M d node anchor p a) sns (c, [])

theorem presPE_invokeAlias (M : FloatOps) (c : Compiler) (d : Rational32)
    (node : Cst) (anchor : Option (List Pitch)) (chain : List Pitch) :
    presPE c (Compiler.invokeAlias M c d node anchor chain).1 := by
  unfold Compiler.invokeAlias
  have h := presPE_evalPitchChainPitches M c chain node.range
  split
  · rename_i c2 note0 heq; rw [heq] at h
    exact presPE_trans h (presPE_evalPitchChainPitches M c2 _ _)
  · rename_i c2 heq; rw [heq] at h; exact h

theorem presPE_invokeComplexStep (M : FloatOps) (n : Cst)
    (anchor : Option (List Pitch)) (c : Compiler) (e : CompileEvent) :
    presPE c (Compiler.invokeComplexStep M n anchor c e) := by
  unfold Compiler.invokeComplexStep
  split
  · exact presPE_trans (presPE_evalPitchChainPitches M c _ _)
      ⟨rfl, rfl, rfl, rfl, rfl, rfl, rfl, rfl⟩
  · exact presPE_refl c

theorem presPE_invokeComplex (M : FloatOps) (c : Compiler) (n : Cst)
    (anchor : Option (List Pitch)) (evs : List CompileEvent) :
    presPE c (Compiler.invokeComplex M c n anchor evs).1 := by
  unfold Compiler.invokeComplex
  exact presPE_foldl _ (fun cc e => presPE_invokeComplexStep M n anchor cc e) evs c

theorem presPE_parseNoteDuration (c : Compiler) (n : Cst) :
    presPE c (Compiler.parseNoteDuration c n).1 := by
  unfold Compiler.parseNoteDuration
  split
  · rename_i t heq0
    split
    · split
      · exact presPE_refl c
      · exact presPE_refl c
    · split
      · have h := presPE_parseDurationFraction c t
        split
        · rename_i c2 dd heq; rw [heq] at h; exact h
        · rename_i c2 heq; rw [heq] at h; exact h
      · exact presPE_refl c
  · exact presPE_refl c

theorem presPE_parseNoteInvoke (M : FloatOps) (c : Compiler) (d : Rational32)
    (n node : Cst) : presPE c (Compiler.parseNoteInvoke M c d n node).1 := by
  unfold Compiler.parseNoteInvoke
  split
  · exact presPE_refl c
  · rename_i identTok heq0
    dsimp only
    have hA := presPE_parseMacroInvokeTailTokens c (Compiler.invokeArgTokens node) node.range
    generalize hq : Compiler.parseMacroInvokeTailTokens c (Compiler.invokeArgTokens node)
      node.range = pA
    rw [hq] at hA
    split
    · exact presPE_trans hA (presPE_invokeSimple M pA.1 d node pA.2 _)
    · split
      · exact presPE_trans hA (presPE_invokeAlias M pA.1 d node pA.2 _)
      · split
        · exact presPE_trans hA (presPE_invokeComplex M pA.1 n pA.2 _)
        · exact presPE_trans hA (presPE_error pA.1 _ _)

theorem presPE_parseNote (M : FloatOps) (c : Compiler) (n : Cst) :
    presPE c (Compiler.parseNote M c n).1 := by
  unfold Compiler.parseNote
  dsimp only
  have h0 := presPE_parseNoteDuration c n
  generalize hq : Compiler.parseNoteDuration c n = s0
  rw [hq] at h0
  split
  · exact presPE_trans h0 (presPE_parseNoteInvoke M s0.1 s0.2 n _)
  · split
    · exact presPE_trans h0 (presPE_error s0.1 _ _)
    · rename_i chainNode heq1
      split
      · exact presPE_trans h0 (presPE_error s0.1 _ _)
      · have h := presPE_parsePitchChainTokens M s0.1
          (chainNode.descTokens.filter Compiler.chainTokenFilter) true chainNode.range
        split
        · rename_i c2 note heq; rw [heq] at h; exact presPE_trans h0 h
        · rename_i c2 heq; rw [heq] at h; exact presPE_trans h0 h

/-! ### Macro-registry preservation: no compiler pass other than
`compile_macro_def` touches any of the three registries. -/

def presM (c cNew : Compiler) : Prop := cNew.macros = c.macros

theorem presM_of_presPE {a b : Compiler} (h : presPE a b) : presM a b := h.1

theorem presM_refl (c : Compiler) : presM c c := rfl

theorem presM_trans {a b c : Compiler} (h1 : presM a b) (h2 : presM b c) :
    presM a c := h2.trans h1

theorem presM_foldl {α : Type} (f : Compiler → α → Compiler)
    (h : ∀ cc a, presM cc (f cc a)) (l : List α) :
    ∀ cc, presM cc (l.foldl f cc) := by
  induction l with
  | nil => intro cc; exact presM_refl cc
  | cons a l ih => intro cc; exact presM_trans (h cc a) (ih (f cc a))

theorem presM_foldl_fst {α β : Type} (f : Compiler × β → α → Compiler × β)
    (h : ∀ p a, presM p.1 (f p a).1) (l : List α) :
    ∀ p : Compiler × β, presM p.1 (l.foldl f p).1 := by
  induction l with
  | nil => intro p; exact presM_refl p.1
  | cons a l ih => intro p; exact presM_trans (h p a) (ih (f p a))

theorem presM_submitNoteSubGroup (c : Compiler) (l : List CompileEvent) :
    presM c (Compiler.submitNoteSubGroup c l).1 := by
  unfold Compiler.submitNoteSubGroup
  dsimp only
  exact presM_foldl (fun cc (ev : CompileEvent) => cc.pushEvent ev.body ev.range)
    (fun cc ev => presM_of_presPE (presPE_pushEvent cc ev.body ev.range)) _ c

theorem presM_noteGroupStep (M : FloatOps) (acc : Compiler × List CompileEvent)
    (nt : Cst) : presM acc.1 (Compiler.noteGroupStep M acc nt).1 := by
  unfold Compiler.noteGroupStep
  dsimp only
  split
  · split
    · have h := presPE_parseNote M acc.1 nt
      split
      · rename_i c2 notes heq; rw [heq] at h; exact presM_of_presPE h
      · rename_i c2 heq; rw [heq] at h; exact presM_of_presPE h
    · exact presM_refl acc.1
  · split
    · exact presM_submitNoteSubGroup acc.1 acc.2
    · exact presM_refl acc.1
    · exact presM_refl acc.1

theorem presM_noteGroupFinish (c : Compiler) (k : Nat) (n : Cst) :
    presM c (Compiler.noteGroupFinish c k n) := by
  unfold Compiler.noteGroupFinish
  dsimp only
  repeat' split
  all_goals exact rfl

theorem presM_compileNoteGroup (M : FloatOps) (c : Compiler) (n : Cst) :
    presM c (Compiler.compileNoteGroup M c n) := by
  unfold Compiler.compileNoteGroup
  dsimp only
  refine presM_trans (presM_trans (presM_trans (show presM c _ from rfl)
    (presM_foldl_fst (Compiler.noteGroupStep M)
      (fun p a => presM_noteGroupStep M p a) _ _))
    (presM_submitNoteSubGroup _ _)) (presM_noteGroupFinish _ _ _)

theorem presM_compileTimeSignatureDef (c : Compiler) (n : Cst) :
    presM c (Compiler.compileTimeSignatureDef c n) := by
  unfold Compiler.compileTimeSignatureDef
  dsimp only
  repeat' split
  all_goals exact rfl

theorem presM_compileBpmDef (c : Compiler) (n : Cst) :
    presM c (Compiler.compileBpmDef c n) := by
  unfold Compiler.compileBpmDef
  dsimp only
  split
  · exact presM_refl c
  · rename_i bpmTok heq0
    split
    · split
      · rename_i durTok heq1
        have h := presPE_parseDurationFraction c durTok
        split
        · rename_i c2 dur heq; rw [heq] at h
          exact presM_trans (presM_of_presPE h) rfl
        · rename_i c2 heq; rw [heq] at h
          exact presM_trans (presM_of_presPE h) rfl
      · exact rfl
    · exact presM_refl c

theorem presM_basePitchSpellStep (M : FloatOps) (c : Compiler) (n : Cst) :
    presM c (Compiler.basePitchSpellStep M c n).1 := by
  unfold Compiler.basePitchSpellStep
  split
  · exact presM_of_presPE (presPE_parsePitch M c _ false)
  · exact presM_refl c

theorem presM_basePitchChainStep (M : FloatOps) (c : Compiler) (n : Cst) :
    presM c (Compiler.basePitchChainStep M c n).1 := by
  unfold Compiler.basePitchChainStep
  split
  · exact presM_of_presPE (presPE_parseBasePitchRhsChainTokens M c _ _)
  · exact presM_refl c

theorem presM_compileBasePitchDef (M : FloatOps) (c : Compiler) (n : Cst) :
    presM c (Compiler.compileBasePitchDef M c n) := by
  unfold Compiler.compileBasePitchDef
  dsimp only
  have h1 := presM_basePitchSpellStep M c n
  generalize hq1 : Compiler.basePitchSpellStep M c n = s1 at h1
  have h2 := presM_basePitchChainStep M s1.1 n
  generalize hq2 : Compiler.basePitchChainStep M s1.1 n = s2 at h2
  have h12 : presM c s2.1 := presM_trans h1 h2
  split
  · exact h12
  · split
    · exact h12
    · exact presM_trans h12 (presM_of_presPE (presPE_error s2.1 _ _))

theorem presM_normalLineStep (M : FloatOps) (c : Compiler) (child : Cst) :
    presM c (Compiler.normalLineStep M c child) := by
  unfold Compiler.normalLineStep
  split
  · split
    · exact presM_compileBpmDef c child
    · exact presM_compileTimeSignatureDef c child
    · exact presM_compileBasePitchDef M c child
    · exact presM_compileNoteGroup M c child
    · exact presM_compileNoteGroup M c child
    · exact presM_refl c
  · split
    · have h := presPE_parseDurationFraction c child
      split
      · rename_i c2 dur heq; rw [heq] at h
        exact presM_trans (presM_of_presPE h) rfl
      · rename_i c2 heq; rw [heq] at h
        exact presM_trans (presM_of_presPE h) rfl
    all_goals exact rfl

theorem presM_compileNormalLine (M : FloatOps) (c : Compiler) (node : Cst) :
    presM c (Compiler.compileNormalLine M c node) := by
  unfold Compiler.compileNormalLine
  dsimp only
  have h := presM_foldl (Compiler.normalLineStep M)
    (fun cc a => presM_normalLineStep M cc a) node.childrenWithTokens c
  generalize hq : node.childrenWithTokens.foldl (Compiler.normalLineStep M) c = c1 at h
  have h2 : presM c (if c1.state.time.ticks.rgt Rational32.zero &&
      !(c1.state.time.ticks.req c1.state.timeSignature) then
        c1.warn "Line ended but current ticks do not align with time signature" node.range
      else c1) := by
    split
    · exact presM_trans h (presM_of_presPE (presPE_warn c1 _ _))
    · exact h
  generalize (if c1.state.time.ticks.rgt Rational32.zero &&
      !(c1.state.time.ticks.req c1.state.timeSignature) then
        c1.warn "Line ended but current ticks do not align with time signature" node.range
      else c1) = c2 at h2
  split
  · exact h2
  · exact h2

theorem presM_resetTicks (c : Compiler) : presM c (Compiler.resetTicks c) := by
  unfold Compiler.resetTicks
  split
  · exact rfl
  · exact rfl

theorem presM_simpleDefChainStep (M : FloatOps) (acc2 : Compiler × List Note)
    (chain : Cst) : presM acc2.1 (Compiler.simpleDefChainStep M acc2 chain).1 := by
  unfold Compiler.simpleDefChainStep
  dsimp only
  split
  · exact rfl
  · have h := presPE_parsePitchChainTokens M acc2.1
      (chain.descTokens.filter Compiler.chainTokenFilter) false chain.range
    split
    · rename_i c2 note heq; rw [heq] at h; exact presM_of_presPE h
    · rename_i c2 heq; rw [heq] at h; exact presM_of_presPE h

theorem presM_simpleDefNoteStep (M : FloatOps) (acc : Compiler × List Note)
    (child : Cst) : presM acc.1 (Compiler.simpleDefNoteStep M acc child).1 := by
  unfold Compiler.simpleDefNoteStep
  dsimp only
  split
  · exact presM_refl acc.1
  · have h := presM_foldl_fst (Compiler.simpleDefChainStep M)
      (fun p a => presM_simpleDefChainStep M p a)
      (child.children.filter (fun nn => nn.kind.isNodePitchChain)) (acc.1, acc.2)
    split
    · exact presM_trans h rfl
    · exact h

/-! ### C6: the three macro registries are not kept disjoint -/

/-- The simple definition `m = 3/2` as a CST node. -/
def C6simpleNode : Cst :=
  Cst.node SyntaxKind.NODE_MACRODEF_SIMPLE ⟨0, 7⟩
    [Cst.tok SyntaxKind.Identifier ⟨0, 1⟩ "m",
     Cst.tok SyntaxKind.Equals ⟨2, 3⟩ "=",
     Cst.node SyntaxKind.NODE_NOTE ⟨4, 7⟩
       [Cst.node SyntaxKind.NODE_PITCH_CHAIN ⟨4, 7⟩
         [Cst.tok SyntaxKind.PitchRatio ⟨4, 7⟩ "3/2"]]]

/-- The alias definition `m = 3/2` as a CST node. -/
def C6aliasNode : Cst :=
  Cst.node SyntaxKind.NODE_MACRODEF_ALIAS ⟨8, 15⟩
    [Cst.tok SyntaxKind.Identifier ⟨8, 9⟩ "m",
     Cst.tok SyntaxKind.Equals ⟨10, 11⟩ "=",
     Cst.node SyntaxKind.NODE_PITCH_CHAIN ⟨12, 15⟩
       [Cst.tok SyntaxKind.PitchRatio ⟨12, 15⟩ "3/2"]]

/-- A root that defines `m` as a simple macro and then as an alias. -/
def C6root : Cst := Cst.node SyntaxKind.NODE_ROOT ⟨0, 15⟩ [C6simpleNode, C6aliasNode]

/-- **C6** (counterexample): after compiling a source that defines `m` as a
simple macro and then redefines `m` as an alias, the name `m` is present in
both the alias registry and the simple registry at once — the registries are
not pairwise disjoint, because defining a name under one kind never removes it
from the other kinds. -/
theorem C6_counterexample :
    ((Compiler.compile floatOpsZero Compiler.new C6root).macros.aliasMacros.containsKey
        "m" = true) ∧
    ((Compiler.compile floatOpsZero Compiler.new C6root).macros.simpleMacros.containsKey
        "m" = true) :=
  ⟨rfl, rfl⟩

/-- **C6** (amended): `compile_macro_def` only ever inserts into the registry
of the definition node's own kind and leaves the other two registries exactly
unchanged; in particular it never removes a same-named definition of a
different kind, so the registries can overlap (lookup precedence, not
disjointness, resolves the overlap). -/
theorem C6_macro_registries_frame (M : FloatOps) (c : Compiler) (node : Cst) :
    (node.kind = SyntaxKind.NODE_MACRODEF_ALIAS →
      (Compiler.compileMacroDef M c node).macros.simpleMacros = c.macros.simpleMacros ∧
      (Compiler.compileMacroDef M c node).macros.complexMacros = c.macros.complexMacros) ∧
    (node.kind = SyntaxKind.NODE_MACRODEF_SIMPLE →
      (Compiler.compileMacroDef M c node).macros.aliasMacros = c.macros.aliasMacros ∧
      (Compiler.compileMacroDef M c node).macros.complexMacros = c.macros.complexMacros) ∧
    (node.kind = SyntaxKind.NODE_MACRODEF_COMPLEX →
      (Compiler.compileMacroDef M c node).macros.aliasMacros = c.macros.aliasMacros ∧
      (Compiler.compileMacroDef M c node).macros.simpleMacros = c.macros.simpleMacros) := by
  unfold Compiler.compileMacroDef
  split
  · exact ⟨fun _ => ⟨rfl, rfl⟩, fun _ => ⟨rfl, rfl⟩, fun _ => ⟨rfl, rfl⟩⟩
  · rename_i identTok heqid
    split
    · rename_i heqk
      refine ⟨fun _ => ?_, fun hk => ?_, fun hk => ?_⟩
      · split
        · exact ⟨rfl, rfl⟩
        · rename_i chainNode heqc
          dsimp only
          have h := presPE_parseBasePitchRhsChainTokens M c
            (chainNode.descTokens.filter Compiler.chainTokenFilter) chainNode.range
          split
          · rename_i c2 note heq; rw [heq] at h
            have h2 : c2.macros = c.macros := h.1
            constructor
            · show c2.macros.simpleMacros = c.macros.simpleMacros
              rw [h2]
            · show c2.macros.complexMacros = c.macros.complexMacros
              rw [h2]
          · rename_i c2 heq; rw [heq] at h
            have h2 : c2.macros = c.macros := h.1
            constructor
            · show c2.macros.simpleMacros = c.macros.simpleMacros
              rw [h2]
            · show c2.macros.complexMacros = c.macros.complexMacros
              rw [h2]
      · rw [heqk] at hk; exact absurd hk (by decide)
      · rw [heqk] at hk; exact absurd hk (by decide)
    · rename_i heqk
      refine ⟨fun hk => ?_, fun _ => ?_, fun hk => ?_⟩
      · rw [heqk] at hk; exact absurd hk (by decide)
      · dsimp only
        have h := presM_foldl_fst (Compiler.simpleDefNoteStep M)
          (fun p a => presM_simpleDefNoteStep M p a) node.children (c, [])
        have h2 : (node.children.foldl (Compiler.simpleDefNoteStep M) (c, [])).1.macros
            = c.macros := h
        constructor
        · show (node.children.foldl (Compiler.simpleDefNoteStep M)
            (c, [])).1.macros.aliasMacros = c.macros.aliasMacros
          rw [h2]
        · show (node.children.foldl (Compiler.simpleDefNoteStep M)
            (c, [])).1.macros.complexMacros = c.macros.complexMacros
          rw [h2]
      · rw [heqk] at hk; exact absurd hk (by decide)
    · rename_i heqk
      refine ⟨fun hk => ?_, fun hk => ?_, fun _ => ?_⟩
      · rw [heqk] at hk; exact absurd hk (by decide)
      · rw [heqk] at hk; exact absurd hk (by decide)
      · split
        · exact ⟨rfl, rfl⟩
        · rename_i nodeBody heqb
          dsimp only
          have h := presM_foldl
            (fun cc line => (Compiler.compileNormalLine M cc line).resetTicks)
            (fun cc line => presM_trans (presM_compileNormalLine M cc line)
              (presM_resetTicks _))
            nodeBody.children
            { c with
              events := []
              state := { c.state with
                time := ⟨0, 0, Rational32.new 0 c.state.quantize.den⟩ } }
          have h2 : (nodeBody.children.foldl
              (fun cc line => (Compiler.compileNormalLine M cc line).resetTicks)
              { c with
                events := []
                state := { c.state with
                  time := ⟨0, 0, Rational32.new 0 c.state.quantize.den⟩ } }).macros
              = c.macros := h
          constructor
          · show (nodeBody.children.foldl
              (fun cc line => (Compiler.compileNormalLine M cc line).resetTicks)
              { c with
                events := []
                state := { c.state with
                  time := ⟨0, 0, Rational32.new 0 c.state.quantize.den⟩ } }).macros.aliasMacros
              = c.macros.aliasMacros
            rw [h2]
          · show (nodeBody.children.foldl
              (fun cc line => (Compiler.compileNormalLine M cc line).resetTicks)
              { c with
                events := []
                state := { c.state with
                  time := ⟨0, 0, Rational32.new 0 c.state.quantize.den⟩ } }).macros.simpleMacros
              = c.macros.simpleMacros
            rw [h2]
    · exact ⟨fun _ => ⟨rfl, rfl⟩, fun _ => ⟨rfl, rfl⟩, fun _ => ⟨rfl, rfl⟩⟩

/-- Witness for `C6_macro_registries_frame` at the concrete alias node. -/
theorem C6_macro_registries_frame_witness :
    C6aliasNode.kind = SyntaxKind.NODE_MACRODEF_ALIAS ∧
    ((Compiler.compileMacroDef floatOpsZero Compiler.new C6aliasNode).macros.simpleMacros =
        Compiler.new.macros.simpleMacros ∧
      (Compiler.compileMacroDef floatOpsZero Compiler.new C6aliasNode).macros.complexMacros =
        Compiler.new.macros.complexMacros) :=
  ⟨rfl, (C6_macro_registries_frame floatOpsZero Compiler.new C6aliasNode).1 rfl⟩

/-! ### C1: invocation resolution order between the three registries -/

/-- The simple definition `m = 3/2 : 5/4` (two notes) as a CST node. -/
def C1simpleNode : Cst :=
  Cst.node SyntaxKind.NODE_MACRODEF_SIMPLE ⟨0, 13⟩
    [Cst.tok SyntaxKind.Identifier ⟨0, 1⟩ "m",
     Cst.tok SyntaxKind.Equals ⟨2, 3⟩ "=",
     Cst.node SyntaxKind.NODE_NOTE ⟨4, 7⟩
       [Cst.node SyntaxKind.NODE_PITCH_CHAIN ⟨4, 7⟩
         [Cst.tok SyntaxKind.PitchRatio ⟨4, 7⟩ "3/2"]],
     Cst.tok SyntaxKind.Colon ⟨8, 9⟩ ":",
     Cst.node SyntaxKind.NODE_NOTE ⟨10, 13⟩
       [Cst.node SyntaxKind.NODE_PITCH_CHAIN ⟨10, 13⟩
         [Cst.tok SyntaxKind.PitchRatio ⟨10, 13⟩ "5/4"]]]

/-- The alias definition `m = 3/2` (one pitch) as a CST node. -/
def C1aliasNode : Cst :=
  Cst.node SyntaxKind.NODE_MACRODEF_ALIAS ⟨14, 21⟩
    [Cst.tok SyntaxKind.Identifier ⟨14, 15⟩ "m",
     Cst.tok SyntaxKind.Equals ⟨16, 17⟩ "=",
     Cst.node SyntaxKind.NODE_PITCH_CHAIN ⟨18, 21⟩
       [Cst.tok SyntaxKind.PitchRatio ⟨18, 21⟩ "3/2"]]

/-- The compiler state after defining `m` both as a simple macro (two notes)
and as an alias (one pitch). -/
def C1defs : Compiler :=
  Compiler.compileMacroDef floatOpsZero
    (Compiler.compileMacroDef floatOpsZero Compiler.new C1simpleNode) C1aliasNode

/-- The identifier token of the invocation `(m)`. -/
def C1identTok : Cst := Cst.tok SyntaxKind.Identifier ⟨23, 24⟩ "m"

/-- The `NODE_MACRO_INVOKE` node of the invocation `(m)`. -/
def C1invokeInner : Cst := Cst.node SyntaxKind.NODE_MACRO_INVOKE ⟨22, 25⟩ [C1identTok]

/-- The note node holding the invocation `(m)`. -/
def C1invokeNote : Cst :=
  Cst.node SyntaxKind.NODE_NOTE ⟨22, 25⟩
    [Cst.node SyntaxKind.NODE_PITCH_CHAIN ⟨22, 25⟩ [C1invokeInner]]

/-- The stored simple-macro expansion of `m` in `C1defs`. -/
def C1storedNotes : List Note := (C1defs.macros.simpleMacros.find? "m").getD []

/-- **C1** (counterexample): with `m` defined both as an alias (a one-pitch
chain, which an invocation would expand to one note) and as a simple macro of
two notes, invoking `m` yields the two simple-macro notes: the simple
registry, not the alias registry, takes precedence. -/
theorem C1_counterexample :
    C1defs.macros.aliasMacros.containsKey "m" = true ∧
    (C1defs.macros.aliasMacros.find? "m").map List.length = some 1 ∧
    (Compiler.parseNote floatOpsZero C1defs C1invokeNote).2.map List.length = some 2 :=
  ⟨rfl, rfl, rfl⟩

/-- **C1** (amended): invocation resolution follows the precedence
simple > alias > complex — after the anchor tokens are parsed, a name found in
the simple registry is expanded as a simple macro regardless of the other
registries; a name absent from the simple registry but present in the alias
registry is expanded as an alias; only a name absent from both is looked up in
the complex registry. -/
theorem C1_resolution_precedence (M : FloatOps) (c cA : Compiler) (d : Rational32)
    (n node identTok : Cst) (anchor : Option (List Pitch))
    (hid : node.findChildTokenByFn (fun t => t.kind.isIdentifier) = some identTok)
    (hA : Compiler.parseMacroInvokeTailTokens c (Compiler.invokeArgTokens node)
      node.range = (cA, anchor)) :
    (∀ sns, cA.macros.simpleMacros.find? identTok.text = some sns →
      Compiler.parseNoteInvoke M c d n node =
        Compiler.invokeSimple M cA d node anchor sns) ∧
    (cA.macros.simpleMacros.find? identTok.text = none →
      ∀ chain, cA.macros.aliasMacros.find? identTok.text = some chain →
      Compiler.parseNoteInvoke M c d n node =
        Compiler.invokeAlias M cA d node anchor chain) ∧
    (cA.macros.simpleMacros.find? identTok.text = none →
      cA.macros.aliasMacros.find? identTok.text = none →
      ∀ evs, cA.macros.complexMacros.find? identTok.text = some evs →
      Compiler.parseNoteInvoke M c d n node =
        Compiler.invokeComplex M cA n anchor evs) := by
  unfold Compiler.parseNoteInvoke
  rw [hid]
  dsimp only
  rw [hA]
  dsimp only
  refine ⟨fun sns hf => ?_, fun hn chain hf => ?_, fun hn1 hn2 evs hf => ?_⟩
  · rw [hf]
  · rw [hn, hf]
  · rw [hn1, hn2, hf]

/-- Witness for `C1_resolution_precedence` at the concrete invocation of the
doubly-defined name `m`. -/
theorem C1_resolution_precedence_witness :
    C1invokeInner.findChildTokenByFn (fun t => t.kind.isIdentifier) = some C1identTok ∧
    Compiler.parseNoteInvoke floatOpsZero C1defs Rational32.zero C1invokeNote
        C1invokeInner =
      Compiler.invokeSimple floatOpsZero C1defs Rational32.zero C1invokeInner none
        C1storedNotes :=
  ⟨rfl,
    (C1_resolution_precedence floatOpsZero C1defs C1defs Rational32.zero C1invokeNote
      C1invokeInner C1identTok none rfl rfl).1 C1storedNotes rfl⟩

/-! ### C4: complex-macro invocation re-emits only the stored Note events -/

theorem evalPCP_frame (M : FloatOps) (c : Compiler) (atoms : List Pitch)
    (r : TextRange) :
    (Compiler.evalPitchChainPitches M c atoms r).1.state = c.state ∧
    (Compiler.evalPitchChainPitches M c atoms r).1.events = c.events := by
  unfold Compiler.evalPitchChainPitches
  dsimp only
  repeat' split
  all_goals exact ⟨rfl, rfl⟩

theorem invokeComplexStep_spec (M : FloatOps) (n : Cst)
    (anchor : Option (List Pitch)) (c : Compiler) (e : CompileEvent) :
    (Compiler.invokeComplexStep M n anchor c e).state = c.state ∧
    ∃ evsNew : List CompileEvent,
      (Compiler.invokeComplexStep M n anchor c e).events = c.events ++ evsNew ∧
      ((isNoteEvent e = true → ∃ note : Note, evsNew = [rebaseTag c.state.time n (e, note)]) ∧
        (isNoteEvent e = false → evsNew = [])) := by
  unfold Compiler.invokeComplexStep
  split
  · rename_i note0 heqb
    obtain ⟨hs, he⟩ := evalPCP_frame M c (Compiler.anchorExtend note0 anchor).pitchChain
      n.range
    dsimp only
    refine ⟨hs, [rebaseTag c.state.time n (e,
      (match (Compiler.evalPitchChainPitches M c
          (Compiler.anchorExtend note0 anchor).pitchChain n.range).2 with
        | some noteLive =>
          { Compiler.anchorExtend note0 anchor with
            freq := noteLive.freq, pitchRatio := noteLive.pitchRatio }
        | none => Compiler.anchorExtend note0 anchor))], ?_, ?_, ?_⟩
    · rw [he, show (Compiler.evalPitchChainPitches M c
          (Compiler.anchorExtend note0 anchor).pitchChain n.range).1.state = c.state from hs]
      rfl
    · intro _
      exact ⟨_, rfl⟩
    · intro hfalse
      exfalso
      rw [show isNoteEvent e = true from by unfold isNoteEvent; rw [heqb]] at hfalse
      exact absurd hfalse (by decide)
  · rename_i hne
    refine ⟨rfl, [], (c.events.append_nil).symm, ?_, fun _ => rfl⟩
    intro htrue
    exfalso
    unfold isNoteEvent at htrue
    revert htrue
    split
    · rename_i nn heqb; exact absurd heqb (hne nn)
    · intro htrue; exact absurd htrue (by decide)

theorem invokeComplexFold_spec (M : FloatOps) (n : Cst)
    (anchor : Option (List Pitch)) (evs : List CompileEvent) :
    ∀ c : Compiler,
    (evs.foldl (Compiler.invokeComplexStep M n anchor) c).state = c.state ∧
    ∃ notes : List Note,
      notes.length = (evs.filter isNoteEvent).length ∧
      (evs.foldl (Compiler.invokeComplexStep M n anchor) c).events =
        c.events ++ ((evs.filter isNoteEvent).zip notes).map (rebaseTag c.state.time n) := by
  induction evs with
  | nil => exact fun c => ⟨rfl, [], rfl, (c.events.append_nil).symm⟩
  | cons e evs ih =>
    intro c
    obtain ⟨hs1, evsNew, he1, hnote, hother⟩ :=
      invokeComplexStep_spec M n anchor c e
    obtain ⟨hs2, notes2, hlen2, he2⟩ := ih (Compiler.invokeComplexStep M n anchor c e)
    rw [List.foldl_cons]
    refine ⟨hs2.trans hs1, ?_⟩
    by_cases hb : isNoteEvent e = true
    · obtain ⟨note, hnew⟩ := hnote hb
      refine ⟨note :: notes2, ?_, ?_⟩
      · simp [List.filter_cons, hb, hlen2]
      · rw [he2, he1, hnew, hs1]
        simp [List.filter_cons, hb, List.zip_cons_cons, List.append_assoc]
    · have hb2 : isNoteEvent e = false := by
        cases hx : isNoteEvent e
        · rfl
        · exact absurd hx hb
      rw [hother hb2] at he1
      refine ⟨notes2, ?_, ?_⟩
      · rw [hlen2]
        simp [List.filter_cons, hb2]
      · rw [he2, he1, hs1]
        simp [List.filter_cons, hb2]

/-- **C4** (amended): invoking a complex macro re-emits only the stored
events with a `Note` body — one output event per stored note event, equal to
the stored event with a (re-evaluated) note body, its start time rebased by
adding the invocation-time stamp componentwise (seconds, bars, ticks), and
`rangeInvoked` set to the invocation span; stored events of any other kind
(BPM, time-signature, quantize, base-pitch definitions, measure marks) are
dropped, and the invocation itself contributes no notes to the enclosing
group. -/
theorem C4_complex_invoke_note_rebase (M : FloatOps) (c : Compiler) (n : Cst)
    (anchor : Option (List Pitch)) (evs : List CompileEvent) :
    (Compiler.invokeComplex M c n anchor evs).2 = some [] ∧
    ∃ notes : List Note,
      notes.length = (evs.filter isNoteEvent).length ∧
      (Compiler.invokeComplex M c n anchor evs).1.events =
        c.events ++ ((evs.filter isNoteEvent).zip notes).map (rebaseTag c.state.time n) := by
  exact ⟨rfl, (invokeComplexFold_spec M n anchor evs c).2⟩

/-- A complex definition `k = [ (120) ]` whose body is a single BPM line. -/
def C4complexNode : Cst :=
  Cst.node SyntaxKind.NODE_MACRODEF_COMPLEX ⟨0, 20⟩
    [Cst.tok SyntaxKind.Identifier ⟨0, 1⟩ "k",
     Cst.tok SyntaxKind.Equals ⟨2, 3⟩ "=",
     Cst.node SyntaxKind.NODE_MACRODEF_COMPLEX_BODY ⟨4, 20⟩
       [Cst.node SyntaxKind.NODE_NORMAL_LINE ⟨4, 11⟩
         [Cst.node SyntaxKind.NODE_BPM_DEF ⟨4, 11⟩
           [Cst.tok SyntaxKind.LParen ⟨4, 5⟩ "(",
            Cst.tok SyntaxKind.PitchFrequency ⟨5, 8⟩ "120",
            Cst.tok SyntaxKind.RParen ⟨8, 9⟩ ")"]]]]

/-- The compiler state after compiling the complex definition of `k`. -/
def C4defs : Compiler := Compiler.compileMacroDef floatOpsZero Compiler.new C4complexNode

/-- The note node holding the invocation `(k)`. -/
def C4invokeNote : Cst :=
  Cst.node SyntaxKind.NODE_NOTE ⟨21, 24⟩
    [Cst.node SyntaxKind.NODE_PITCH_CHAIN ⟨21, 24⟩
      [Cst.node SyntaxKind.NODE_MACRO_INVOKE ⟨21, 24⟩
        [Cst.tok SyntaxKind.Identifier ⟨22, 23⟩ "k"]]]

/-- **C4** (counterexample): a complex macro whose stored body holds exactly
one event — a `BPMDef`, not a `Note` — re-emits nothing when invoked: the
claim that *every* stored event is re-emitted rebased is false, since only
`Note`-bodied stored events are re-emitted. -/
theorem C4_counterexample :
    (C4defs.macros.complexMacros.find? "k").map List.length = some 1 ∧
    (C4defs.macros.complexMacros.find? "k").map (List.map isNoteEvent) = some [false] ∧
    (Compiler.parseNote floatOpsZero C4defs C4invokeNote).1.events.length = 0 ∧
    (Compiler.parseNote floatOpsZero C4defs C4invokeNote).1.diagnostics.length = 0 ∧
    (Compiler.parseNote floatOpsZero C4defs C4invokeNote).2 = some [] :=
  ⟨rfl, rfl, rfl, rfl, rfl⟩

/-! ### C5: net time advance of a note group -/

theorem Rational32.toRat_neg (q : Rational32) : q.neg.toRat = -q.toRat := by
  unfold Rational32.neg Rational32.toRat
  push_cast
  ring

theorem Rational32.toRat_fromInteger (z : Int) :
    (Rational32.fromInteger z).toRat = (z : ℚ) := by
  unfold Rational32.fromInteger Rational32.toRat
  norm_num

theorem submit_shape (cF c0 : Compiler) (hT : cF.state.time = c0.state.time)
    (hQ : cF.state.quantize = c0.state.quantize)
    (hq : c0.state.quantize.den ≠ 0) (ht : c0.state.time.ticks.den ≠ 0) :
    ({ cF with state := { cF.state with
        time := cF.state.time.addDuration cF.state.quantize cF.state } } :
      Compiler).state.time.ticks.toRat
      = c0.state.time.ticks.toRat + c0.state.quantize.toRat ∧
    ({ cF with state := { cF.state with
        time := cF.state.time.addDuration cF.state.quantize cF.state } } :
      Compiler).state.time.ticks.den ≠ 0 := by
  constructor
  · show (cF.state.time.ticks.add cF.state.quantize).toRat = _
    rw [hT, hQ]
    exact Rational32.toRat_add _ _ ht hq
  · show (cF.state.time.ticks.add cF.state.quantize).den ≠ 0
    rw [hT, hQ]
    exact (Rational32.add_den_pos _ _ ht hq).ne.symm

theorem submitNoteSubGroup_spec (c : Compiler) (l : List CompileEvent)
    (hq : c.state.quantize.den ≠ 0) (ht : c.state.time.ticks.den ≠ 0) :
    (Compiler.submitNoteSubGroup c l).1.state.quantize = c.state.quantize ∧
    ((Compiler.submitNoteSubGroup c l).1.state.time.ticks).toRat =
      c.state.time.ticks.toRat + c.state.quantize.toRat ∧
    (Compiler.submitNoteSubGroup c l).1.state.time.ticks.den ≠ 0 := by
  unfold Compiler.submitNoteSubGroup
  dsimp only
  have hPE := presPE_foldl (fun cc (ev : CompileEvent) => cc.pushEvent ev.body ev.range)
    (fun cc ev => presPE_pushEvent cc ev.body ev.range)
    (((Compiler.backfillRev c.state l.reverse c.state.quantize).1).reverse) c
  obtain ⟨hsh1, hsh2⟩ := submit_shape _ c hPE.2.1 hPE.2.2.1 hq ht
  exact ⟨hPE.2.2.1, hsh1, hsh2⟩

theorem noteGroupStep_spec (M : FloatOps) (p : Compiler × List CompileEvent) (nt : Cst)
    (hq : p.1.state.quantize.den ≠ 0) (ht : p.1.state.time.ticks.den ≠ 0) :
    (Compiler.noteGroupStep M p nt).1.state.quantize = p.1.state.quantize ∧
    (Compiler.noteGroupStep M p nt).1.state.time.ticks.toRat =
      p.1.state.time.ticks.toRat +
        (if (!nt.isNodeElem && nt.kind.isSemicolon) = true then
          p.1.state.quantize.toRat else 0) ∧
    (Compiler.noteGroupStep M p nt).1.state.time.ticks.den ≠ 0 := by
  unfold Compiler.noteGroupStep
  dsimp only
  split
  · rename_i hnode
    have hcond : (!nt.isNodeElem && nt.kind.isSemicolon) = false := by
      rw [hnode]; rfl
    split
    · have h := presPE_parseNote M p.1 nt
      split
      · rename_i c2 notes heq; rw [heq] at h
        refine ⟨h.2.2.1, ?_, ?_⟩
        · rw [show c2.state.time = p.1.state.time from h.2.1, hcond]
          simp
        · rw [show c2.state.time = p.1.state.time from h.2.1]
          exact ht
      · rename_i c2 heq; rw [heq] at h
        refine ⟨h.2.2.1, ?_, ?_⟩
        · rw [show c2.state.time = p.1.state.time from h.2.1, hcond]
          simp
        · rw [show c2.state.time = p.1.state.time from h.2.1]
          exact ht
    · rw [hcond]
      refine ⟨rfl, ?_, ht⟩
      show p.1.state.time.ticks.toRat = _
      simp
  · rename_i hnode
    have hnode2 : nt.isNodeElem = false := by
      cases hx : nt.isNodeElem
      · rfl
      · exact absurd hx hnode
    split
    · rename_i heqk
      have hcond : (!nt.isNodeElem && nt.kind.isSemicolon) = true := by
        rw [hnode2, heqk]; rfl
      rw [hcond]
      obtain ⟨h1, h2, h3⟩ := submitNoteSubGroup_spec p.1 p.2 hq ht
      exact ⟨h1, by rw [h2]; simp, h3⟩
    · rename_i heqk
      have hcond : (!nt.isNodeElem && nt.kind.isSemicolon) = false := by
        rw [hnode2, heqk]; rfl
      rw [hcond]
      refine ⟨rfl, ?_, ht⟩
      show p.1.state.time.ticks.toRat = _
      simp
    · rename_i hne1 hne2
      have hks : nt.kind.isSemicolon = false := by
        unfold SyntaxKind.isSemicolon
        cases hx : nt.kind == SyntaxKind.Semicolon
        · rfl
        · exact absurd (eq_of_beq hx) (by intro heq; exact hne1 heq)
      have hcond : (!nt.isNodeElem && nt.kind.isSemicolon) = false := by
        rw [hnode2, hks]; rfl
      rw [hcond]
      refine ⟨rfl, ?_, ht⟩
      show p.1.state.time.ticks.toRat = _
      simp

theorem noteGroupFold_spec (M : FloatOps) (tokens : List Cst) :
    ∀ p : Compiler × List CompileEvent,
    p.1.state.quantize.den ≠ 0 → p.1.state.time.ticks.den ≠ 0 →
    (tokens.foldl (Compiler.noteGroupStep M) p).1.state.quantize =
      p.1.state.quantize ∧
    (tokens.foldl (Compiler.noteGroupStep M) p).1.state.time.ticks.toRat =
      p.1.state.time.ticks.toRat +
      ((tokens.filter (fun nt => !nt.isNodeElem && nt.kind.isSemicolon)).length : ℚ) *
        p.1.state.quantize.toRat ∧
    (tokens.foldl (Compiler.noteGroupStep M) p).1.state.time.ticks.den ≠ 0 := by
  induction tokens with
  | nil =>
    intro p hq ht
    exact ⟨rfl, by simp, ht⟩
  | cons nt rest ih =>
    intro p hq ht
    rw [List.foldl_cons]
    obtain ⟨hq1, ht1, hd1⟩ := noteGroupStep_spec M p nt hq ht
    obtain ⟨hq2, ht2, hd2⟩ := ih (Compiler.noteGroupStep M p nt)
      (by rw [hq1]; exact hq) hd1
    refine ⟨hq2.trans hq1, ?_, hd2⟩
    rw [ht2, ht1, hq1]
    by_cases hpred : (!nt.isNodeElem && nt.kind.isSemicolon) = true
    · simp only [List.filter_cons, hpred, if_pos, List.length_cons]
      push_cast
      ring
    · have hf : (!nt.isNodeElem && nt.kind.isSemicolon) = false := by
        cases hx : (!nt.isNodeElem && nt.kind.isSemicolon)
        · rfl
        · exact absurd hx hpred
      simp only [List.filter_cons, hf, Bool.false_eq_true, if_false]
      push_cast
      ring

theorem noteGroupFinish_spec (c : Compiler) (K : Nat) (n : Cst)
    (hq : c.state.quantize.den ≠ 0) (ht : c.state.time.ticks.den ≠ 0) :
    (Compiler.noteGroupFinish c K n).state.quantize =
      c.state.quantize.mul (Rational32.fromInteger (K : Int)) ∧
    (Compiler.noteGroupFinish c K n).state.time.ticks.toRat =
      c.state.time.ticks.toRat -
        (c.state.quantize.mul (Rational32.fromInteger (K : Int))).toRat +
        (trailingCommas n : ℚ) *
          (c.state.quantize.mul (Rational32.fromInteger (K : Int))).toRat ∧
    (Compiler.noteGroupFinish c K n).state.time.ticks.den ≠ 0 := by
  have hq1 : (c.state.quantize.mul (Rational32.fromInteger (K : Int))).den ≠ 0 :=
    (Rational32.mul_nf _ _ hq one_ne_zero).2.ne.symm
  have hden2 : (c.state.time.ticks.add
      (c.state.quantize.mul (Rational32.fromInteger (K : Int))).neg).den ≠ 0 :=
    (Rational32.add_den_pos c.state.time.ticks
      ((c.state.quantize.mul (Rational32.fromInteger (K : Int))).neg) ht hq1).ne.symm
  have hval2 : (c.state.time.ticks.add
      (c.state.quantize.mul (Rational32.fromInteger (K : Int))).neg).toRat =
      c.state.time.ticks.toRat -
        (c.state.quantize.mul (Rational32.fromInteger (K : Int))).toRat := by
    rw [Rational32.toRat_add c.state.time.ticks
      ((c.state.quantize.mul (Rational32.fromInteger (K : Int))).neg) ht hq1,
      Rational32.toRat_neg]
    ring
  unfold Compiler.noteGroupFinish
  dsimp only
  split
  · rename_i last heq
    split
    · rename_i hcommas
      have htc : trailingCommas n =
          (last.text.data.filter (fun ch => ch == ',')).length := by
        unfold trailingCommas
        rw [heq]
        simp [hcommas]
      have hadv : ((c.state.quantize.mul (Rational32.fromInteger (K : Int))).mul
          (Rational32.fromInteger
            (((last.text.data.filter (fun ch => ch == ',')).length : Nat) : Int))).den ≠ 0 :=
        (Rational32.mul_nf _ _ hq1 one_ne_zero).2.ne.symm
      refine ⟨rfl, ?_, ?_⟩
      · show ((c.state.time.ticks.add
            (c.state.quantize.mul (Rational32.fromInteger (K : Int))).neg).add
            ((c.state.quantize.mul (Rational32.fromInteger (K : Int))).mul
              (Rational32.fromInteger
                (((last.text.data.filter (fun ch => ch == ',')).length : Nat) : Int)))).toRat
            = _
        rw [Rational32.toRat_add _ _ hden2 hadv, hval2,
          Rational32.toRat_mul _ _ hq1 one_ne_zero, Rational32.toRat_fromInteger, htc]
        push_cast
        ring
      · show ((c.state.time.ticks.add
            (c.state.quantize.mul (Rational32.fromInteger (K : Int))).neg).add
            ((c.state.quantize.mul (Rational32.fromInteger (K : Int))).mul
              (Rational32.fromInteger
                (((last.text.data.filter (fun ch => ch == ',')).length : Nat) : Int)))).den ≠ 0
        exact (Rational32.add_den_pos _ _ hden2 hadv).ne.symm
    · rename_i hcommas
      have htc : trailingCommas n = 0 := by
        unfold trailingCommas
        rw [heq]
        simp only [ite_eq_right_iff]
        intro hx
        exact absurd hx hcommas
      refine ⟨rfl, ?_, hden2⟩
      show (c.state.time.ticks.add
        (c.state.quantize.mul (Rational32.fromInteger (K : Int))).neg).toRat = _
      rw [hval2, htc]
      push_cast
      ring
  · rename_i heq
    have htc : trailingCommas n = 0 := by
      unfold trailingCommas
      rw [heq]
    refine ⟨rfl, ?_, hden2⟩
    show (c.state.time.ticks.add
      (c.state.quantize.mul (Rational32.fromInteger (K : Int))).neg).toRat = _
    rw [hval2, htc]
    push_cast
    ring

/-- **C5** (amended): compiling a note group leaves the quantize value
unchanged and advances the tick position by exactly
`(trailing commas count) x (entry quantize)` — net zero when there is no
trailing `DurationCommas` token.  Internally the code divides quantize by the
sub-group count k, advances one sub-quantize per submit (k in total, i.e. one
pre-division quantize unit), but then, after restoring quantize, rolls time
back by one full quantize unit, and the trailing commas advance uses the
restored (full) quantize, not the sub-quantize. -/
theorem C5_note_group_net_advance (M : FloatOps) (c : Compiler) (n : Cst)
    (hq : c.state.quantize.den ≠ 0) (ht : c.state.time.ticks.den ≠ 0) :
    (Compiler.compileNoteGroup M c n).state.quantize.toRat = c.state.quantize.toRat ∧
    (Compiler.compileNoteGroup M c n).state.time.ticks.toRat =
      c.state.time.ticks.toRat + (trailingCommas n : ℚ) * c.state.quantize.toRat := by
  unfold Compiler.compileNoteGroup
  dsimp only
  generalize (if n.kind.isNodeNoteGroup = true then n.childrenWithTokens else [n]) = tokens
  generalize hcnt :
    (tokens.filter (fun nt => !nt.isNodeElem && nt.kind.isSemicolon)).length = cnt
  have hKint : ((cnt + 1 : Nat) : Int) ≠ 0 := Int.natCast_ne_zero.mpr (Nat.succ_ne_zero cnt)
  have hKQ : ((cnt + 1 : Nat) : ℚ) ≠ 0 := Nat.cast_ne_zero.mpr (Nat.succ_ne_zero cnt)
  have hq1den : (c.state.quantize.div
      (Rational32.fromInteger ((cnt + 1 : Nat) : Int))).den ≠ 0 := mul_ne_zero hq hKint
  have hq1val : (c.state.quantize.div
      (Rational32.fromInteger ((cnt + 1 : Nat) : Int))).toRat =
      c.state.quantize.toRat / ((cnt + 1 : Nat) : ℚ) := by
    rw [Rational32.toRat_div _ _ hq one_ne_zero hKint, Rational32.toRat_fromInteger]
    push_cast
    ring
  set p0 : Compiler × List CompileEvent :=
    ({ c with state := { c.state with quantize := (c.state.quantize.div (Rational32.fromInteger ((cnt + 1 : Nat) : Int))) } }, []) with hp0
  set pF := List.foldl (Compiler.noteGroupStep M) p0 tokens with hpF
  set pS := Compiler.submitNoteSubGroup pF.1 pF.2 with hpS
  have hp01 : p0.1.state.quantize = c.state.quantize.div
      (Rational32.fromInteger ((cnt + 1 : Nat) : Int)) := by rw [hp0]
  have hp02 : p0.1.state.time.ticks = c.state.time.ticks := by rw [hp0]
  obtain ⟨hfq, hft, hfd⟩ := noteGroupFold_spec M tokens p0
    (by rw [hp01]; exact hq1den) (by rw [hp02]; exact ht)
  rw [← hpF] at hfq hft hfd
  obtain ⟨hsq, hst, hsd⟩ := submitNoteSubGroup_spec pF.1 pF.2
    (by rw [hfq, hp01]; exact hq1den) hfd
  rw [← hpS] at hsq hst hsd
  obtain ⟨hg1, hg2, hg3⟩ := noteGroupFinish_spec pS.1 (cnt + 1) n
    (by rw [hsq, hfq, hp01]; exact hq1den) hsd
  constructor
  · rw [hg1, hsq, hfq, hp01,
      Rational32.toRat_mul _ _ hq1den one_ne_zero, Rational32.toRat_fromInteger, hq1val]
    push_cast
    field_simp
  · rw [hg2, hst, hft, hsq, hfq, hp01, hp02, hcnt,
      Rational32.toRat_mul _ _ hq1den one_ne_zero, Rational32.toRat_fromInteger, hq1val]
    push_cast
    field_simp
    ring

/-- The note group `⟨3/2 ; 3/2[,]⟩`: two sub-groups (k = 2) and a trailing
one-comma duration token. -/
def C5group : Cst :=
  Cst.node SyntaxKind.NODE_NOTE_GROUP ⟨0, 9⟩
    [Cst.node SyntaxKind.NODE_NOTE ⟨0, 3⟩
      [Cst.node SyntaxKind.NODE_PITCH_CHAIN ⟨0, 3⟩
        [Cst.tok SyntaxKind.PitchRatio ⟨0, 3⟩ "3/2"]],
     Cst.tok SyntaxKind.Semicolon ⟨3, 4⟩ ";",
     Cst.node SyntaxKind.NODE_NOTE ⟨5, 9⟩
       [Cst.node SyntaxKind.NODE_PITCH_CHAIN ⟨5, 6⟩
         [Cst.tok SyntaxKind.PitchRatio ⟨5, 6⟩ "3/2"],
        Cst.tok SyntaxKind.DurationCommas ⟨6, 9⟩ "[,]"]]

/-- **C5** (counterexample): for the group `⟨3/2 ; 3/2[,]⟩` compiled from the
initial state (quantize 1/4, ticks 0), the claim predicts ticks
0 + 1·(1/4) + 1·(1/8) = 3/8 (one pre-division quantize unit net, plus
count x sub-quantize for the trailing comma), but the code ends at ticks 1/4:
the submits net to zero after the rollback, and the trailing comma advances by
the restored full quantize. -/
theorem C5_counterexample :
    (Compiler.compileNoteGroup floatOpsZero Compiler.new C5group).state.time.ticks =
      (⟨1, 4⟩ : Rational32) ∧
    ((Compiler.compileNoteGroup floatOpsZero Compiler.new C5group).state.time.ticks).req
      (⟨3, 8⟩ : Rational32) = false :=
  ⟨rfl, rfl⟩

/-- Witness for `C5_note_group_net_advance` at the concrete group and the
initial compiler state. -/
theorem C5_note_group_net_advance_witness :
    Compiler.new.state.quantize.den ≠ 0 ∧
    Compiler.new.state.time.ticks.den ≠ 0 ∧
    ((Compiler.compileNoteGroup floatOpsZero Compiler.new C5group).state.quantize.toRat =
        Compiler.new.state.quantize.toRat ∧
      (Compiler.compileNoteGroup floatOpsZero Compiler.new C5group).state.time.ticks.toRat =
        Compiler.new.state.time.ticks.toRat +
          (trailingCommas C5group : ℚ) * Compiler.new.state.quantize.toRat) :=
  ⟨by decide, by decide,
    C5_note_group_net_advance floatOpsZero Compiler.new C5group (by decide) (by decide)⟩

/-! ### C10: NewMeasure events carry no source range -/

def presE (c cNew : Compiler) : Prop := cNew.events = c.events

theorem presE_refl (c : Compiler) : presE c c := rfl

theorem presE_trans {a b c : Compiler} (h1 : presE a b) (h2 : presE b c) :
    presE a c := h2.trans h1

theorem presE_error (c : Compiler) (m : String) (r : TextRange) :
    presE c (c.error m r) := rfl

theorem presE_parseDurationFraction (c : Compiler) (t : Cst) :
    presE c (Compiler.parseDurationFraction c t).1 := by
  unfold Compiler.parseDurationFraction
  dsimp only
  split
  · exact rfl
  · exact rfl

theorem presE_parsePitchAtom (c : Compiler) (t : Cst) (af : Bool) :
    presE c (Compiler.parsePitchAtom c t af).1 := by
  unfold Compiler.parsePitchAtom
  dsimp only
  repeat' split
  all_goals exact rfl

theorem presE_parsePitchChainIdentAsChain (c : Compiler) (t : Cst) :
    presE c (Compiler.parsePitchChainIdentAsChain c t).1 := by
  unfold Compiler.parsePitchChainIdentAsChain
  dsimp only
  repeat' split
  all_goals exact rfl

theorem presE_parsePitchChainIdentAsChainForBaseRhs (c : Compiler) (t : Cst) :
    presE c (Compiler.parsePitchChainIdentAsChainForBaseRhs c t).1 := by
  unfold Compiler.parsePitchChainIdentAsChainForBaseRhs
  dsimp only
  repeat' split
  all_goals exact rfl

theorem presE_evalPitchChainPitches (M : FloatOps) (c : Compiler) (atoms : List Pitch)
    (r : TextRange) : presE c (Compiler.evalPitchChainPitches M c atoms r).1 :=
  (evalPCP_frame M c atoms r).2

theorem presE_baseRhsChainLoop (tokens : List Cst) :
    ∀ (c : Compiler) (pas : List Pitch) (ep : Bool),
    presE c (Compiler.baseRhsChainLoop c tokens pas ep).1 := by
  induction tokens with
  | nil => intro c pas ep; exact rfl
  | cons token rest ih =>
    intro c pas ep
    unfold Compiler.baseRhsChainLoop
    split
    · split
      · have h := presE_parsePitchAtom c token false
        split
        · rename_i heq; rw [heq] at h; exact h
        · rename_i c2 pitch heq; rw [heq] at h
          exact presE_trans h (ih c2 _ _)
      · split
        · have h := presE_parsePitchChainIdentAsChainForBaseRhs c token
          split
          · rename_i heq; rw [heq] at h; exact h
          · rename_i c2 chain heq; rw [heq] at h
            split
            · exact presE_trans h (presE_error c2 _ _)
            · exact presE_trans h (ih c2 _ _)
        · exact rfl
    · split
      · exact ih c _ _
      · split
        · exact ih c _ _
        · split
          · exact ih c _ _
          · exact rfl

theorem presE_parseBasePitchRhsChainTokens (M : FloatOps) (c : Compiler)
    (tokens : List Cst) (range : TextRange) :
    presE c (Compiler.parseBasePitchRhsChainTokens M c tokens range).1 := by
  unfold Compiler.parseBasePitchRhsChainTokens
  split
  · exact rfl
  · have h := presE_baseRhsChainLoop tokens c [] true
    split
    · rename_i heq; rw [heq] at h; exact h
    · rename_i c2 pas ep heq; rw [heq] at h
      split
      · exact presE_trans h (presE_error c2 _ _)
      · exact presE_trans h (presE_evalPitchChainPitches M c2 pas range)

theorem presE_pitchChainLoop (tokens : List Cst) :
    ∀ (c : Compiler) (afs : Bool) (pas : List (Pitch × TextRange)) (ep hc : Bool),
    presE c (Compiler.pitchChainLoop c afs tokens pas ep hc).1 := by
  induction tokens with
  | nil => intro c afs pas ep hc; exact rfl
  | cons token rest ih =>
    intro c afs pas ep hc
    unfold Compiler.pitchChainLoop
    split
    · split
      · have h := presE_parsePitchAtom c token afs
        split
        · rename_i heq; rw [heq] at h; exact h
        · rename_i c2 pitch heq; rw [heq] at h
          exact presE_trans h (ih c2 _ _ _ _)
      · split
        · have h := presE_parsePitchChainIdentAsChain c token
          split
          · rename_i heq; rw [heq] at h; exact h
          · rename_i c2 chain heq; rw [heq] at h
            exact presE_trans h (ih c2 _ _ _ _)
        · exact rfl
    · split
      · exact ih c _ _ _ _
      · split
        · exact ih c _ _ _ _
        · split
          · exact ih c _ _ _ _
          · exact rfl

theorem presE_parsePitchChainTokens (M : FloatOps) (c : Compiler)
    (tokens : List Cst) (afs : Bool) (range : TextRange) :
    presE c (Compiler.parsePitchChainTokens M c tokens afs range).1 := by
  unfold Compiler.parsePitchChainTokens
  split
  · exact rfl
  · have h := presE_pitchChainLoop tokens c afs [] true false
    split
    · rename_i heq; rw [heq] at h; exact h
    · rename_i c2 pas ep hc heq; rw [heq] at h
      split
      · exact presE_trans h (presE_error c2 _ _)
      · split
        · exact presE_trans h (presE_error c2 _ _)
        · split
          · exact h
          · exact h

theorem presE_invokeTailLoop (tokens : List Cst) :
    ∀ (c : Compiler) (pas : List Pitch) (ep : Bool),
    presE c (Compiler.invokeTailLoop c tokens pas ep).1 := by
  induction tokens with
  | nil => intro c pas ep; exact rfl
  | cons token rest ih =>
    intro c pas ep
    unfold Compiler.invokeTailLoop
    split
    · split
      · have h := presE_parsePitchAtom c token false
        split
        · rename_i heq; rw [heq] at h; exact h
        · rename_i c2 pitch heq; rw [heq] at h
          exact presE_trans h (ih c2 _ _)
      · split
        · have h := presE_parsePitchChainIdentAsChain c token
          split
          · rename_i heq; rw [heq] at h; exact h
          · rename_i c2 chain heq; rw [heq] at h
            exact presE_trans h (ih c2 _ _)
        · exact rfl
    · split
      · have h := presE_parsePitchAtom c token false
        split
        · rename_i heq; rw [heq] at h; exact h
        · rename_i c2 pitch heq; rw [heq] at h
          exact presE_trans h (ih c2 _ _)
      · split
        · have h := presE_parsePitchChainIdentAsChain c token
          split
          · rename_i heq; rw [heq] at h; exact h
          · rename_i c2 chain heq; rw [heq] at h
            exact presE_trans h (ih c2 _ _)
        · split
          · exact ih c _ _
          · split
            · exact ih c _ _
            · split
              · exact ih c _ _
              · exact rfl

theorem presE_parseMacroInvokeTailTokens (c : Compiler) (tokens : List Cst)
    (range : TextRange) :
    presE c (Compiler.parseMacroInvokeTailTokens c tokens range).1 := by
  unfold Compiler.parseMacroInvokeTailTokens
  split
  · exact rfl
  · have h := presE_invokeTailLoop tokens c [] false
    split
    · rename_i heq; rw [heq] at h; exact h
    · rename_i c2 pas ep heq; rw [heq] at h
      split
      · exact presE_trans h (presE_error c2 _ _)
      · split
        · exact h
        · exact h

theorem EvOk_of_presE {c cNew : Compiler} (h : presE c cNew) (hc : EvOk c) :
    EvOk cNew := by
  intro ev hev
  exact hc ev (h ▸ hev)

theorem EvOk_pushEvent (c : Compiler) (b : EventBody) (r : TextRange) (hc : EvOk c)
    (hb : ∀ m, b = EventBody.NewMeasure m → r = TextRange.default) :
    EvOk (c.pushEvent b r) := by
  intro ev hev
  rcases List.mem_append.mp hev with hold | hnew
  · exact hc ev hold
  · rcases List.mem_singleton.mp hnew with rfl
    exact fun m hm => ⟨hb m hm, rfl⟩

theorem nmOk_of_isNote {ev : CompileEvent} (h : isNoteEvent ev = true) : nmOk ev := by
  intro m hm
  unfold isNoteEvent at h
  rw [hm] at h
  simp at h

theorem EvOk_parseNoteDuration (c : Compiler) (n : Cst) (hc : EvOk c) :
    EvOk (Compiler.parseNoteDuration c n).1 := by
  unfold Compiler.parseNoteDuration
  split
  · rename_i t heq0
    split
    · split
      · exact hc
      · exact hc
    · split
      · have h := presE_parseDurationFraction c t
        split
        · rename_i c2 dd heq; rw [heq] at h; exact EvOk_of_presE h hc
        · rename_i c2 heq; rw [heq] at h; exact EvOk_of_presE h hc
      · exact hc
  · exact hc

theorem EvOk_invokeSimple (M : FloatOps) (c : Compiler) (d : Rational32)
    (node : Cst) (anchor : Option (List Pitch)) (sns : List Note) (hc : EvOk c) :
    EvOk (Compiler.invokeSimple M c d node anchor sns).1 := by
  unfold Compiler.invokeSimple
  dsimp only
  have hfold : ∀ (l : List Note) (p : Compiler × List Note), EvOk p.1 →
      EvOk (l.foldl (Compiler.invokeSimpleStep M d node anchor) p).1 := by
    intro l
    induction l with
    | nil => intro p hp; exact hp
    | cons a l ih =>
      intro p hp
      rw [List.foldl_cons]
      refine ih _ ?_
      show EvOk (Compiler.invokeSimpleStep M d node anchor p a).1
      unfold Compiler.invokeSimpleStep
      exact EvOk_of_presE
        (presE_evalPitchChainPitches M p.1 (Compiler.anchorExtend a anchor).pitchChain
          node.range) hp
  exact hfold sns (c, []) hc

theorem EvOk_invokeAlias (M : FloatOps) (c : Compiler) (d : Rational32)
    (node : Cst) (anchor : Option (List Pitch)) (chain : List Pitch) (hc : EvOk c) :
    EvOk (Compiler.invokeAlias M c d node anchor chain).1 := by
  unfold Compiler.invokeAlias
  have h := presE_evalPitchChainPitches M c chain node.range
  split
  · rename_i c2 note0 heq; rw [heq] at h
    exact EvOk_of_presE (presE_trans h
      (presE_evalPitchChainPitches M c2 _ _)) hc
  · rename_i c2 heq; rw [heq] at h
    exact EvOk_of_presE h hc

theorem EvOk_invokeComplex (M : FloatOps) (c : Compiler) (n : Cst)
    (anchor : Option (List Pitch)) (evs : List CompileEvent) (hc : EvOk c) :
    EvOk (Compiler.invokeComplex M c n anchor evs).1 := by
  obtain ⟨notes, _, hev⟩ := (invokeComplexFold_spec M n anchor evs c).2
  intro ev hmem
  have hmem2 : ev ∈ c.events ++
      ((evs.filter isNoteEvent).zip notes).map (rebaseTag c.state.time n) := by
    rw [← hev]
    exact hmem
  rcases List.mem_append.mp hmem2 with hold | hnew
  · exact hc ev hold
  · obtain ⟨p, _, hp⟩ := List.mem_map.mp hnew
    intro m hm
    rw [← hp] at hm
    exact absurd hm (by simp [rebaseTag])

theorem EvOk_parseNoteInvoke (M : FloatOps) (c : Compiler) (d : Rational32)
    (n node : Cst) (hc : EvOk c) :
    EvOk (Compiler.parseNoteInvoke M c d n node).1 := by
  unfold Compiler.parseNoteInvoke
  split
  · exact hc
  · rename_i identTok heq0
    dsimp only
    have hA := presE_parseMacroInvokeTailTokens c (Compiler.invokeArgTokens node) node.range
    generalize hq : Compiler.parseMacroInvokeTailTokens c (Compiler.invokeArgTokens node)
      node.range = pA
    rw [hq] at hA
    have hA2 : EvOk pA.1 := EvOk_of_presE hA hc
    split
    · exact EvOk_invokeSimple M pA.1 d node pA.2 _ hA2
    · split
      · exact EvOk_invokeAlias M pA.1 d node pA.2 _ hA2
      · split
        · exact EvOk_invokeComplex M pA.1 n pA.2 _ hA2
        · exact hA2

theorem EvOk_parseNote (M : FloatOps) (c : Compiler) (n : Cst) (hc : EvOk c) :
    EvOk (Compiler.parseNote M c n).1 := by
  unfold Compiler.parseNote
  dsimp only
  have h0 := EvOk_parseNoteDuration c n hc
  generalize hq : Compiler.parseNoteDuration c n = s0 at h0
  split
  · exact EvOk_parseNoteInvoke M s0.1 s0.2 n _ h0
  · split
    · exact h0
    · rename_i chainNode heq1
      split
      · exact h0
      · have h := presE_parsePitchChainTokens M s0.1
          (chainNode.descTokens.filter Compiler.chainTokenFilter) true chainNode.range
        split
        · rename_i c2 note heq; rw [heq] at h; exact EvOk_of_presE h h0
        · rename_i c2 heq; rw [heq] at h; exact EvOk_of_presE h h0

theorem presE_parsePitch (M : FloatOps) (c : Compiler) (t : Cst) (af : Bool) :
    presE c (Compiler.parsePitch M c t af).1 := by
  unfold Compiler.parsePitch
  have h := presE_parsePitchAtom c t af
  split
  all_goals rename_i heq; rw [heq] at h; exact h

theorem presE_basePitchSpellStep (M : FloatOps) (c : Compiler) (n : Cst) :
    presE c (Compiler.basePitchSpellStep M c n).1 := by
  unfold Compiler.basePitchSpellStep
  split
  · exact presE_parsePitch M c _ false
  · exact rfl

theorem presE_basePitchChainStep (M : FloatOps) (c : Compiler) (n : Cst) :
    presE c (Compiler.basePitchChainStep M c n).1 := by
  unfold Compiler.basePitchChainStep
  split
  · exact presE_parseBasePitchRhsChainTokens M c _ _
  · exact rfl

theorem backfillRev_notesOnly (st : CompileState) :
    ∀ (l : List CompileEvent) (d : Rational32), notesOnly l →
    notesOnly (Compiler.backfillRev st l d).1 := by
  intro l
  induction l with
  | nil => intro d h; exact h
  | cons e rest ih =>
    intro d h
    have htail : notesOnly rest := fun x hx => h x (List.mem_cons_of_mem e hx)
    unfold Compiler.backfillRev
    split
    · rename_i nn heqb
      split
      · intro ev hev
        rcases List.mem_cons.mp hev with rfl | hmem
        · rfl
        · exact ih d htail ev hmem
      · intro ev hev
        rcases List.mem_cons.mp hev with heq | hmem
        · rw [heq]; exact h e (List.mem_cons_self e rest)
        · exact ih nn.duration htail ev hmem
    · intro ev hev
      rcases List.mem_cons.mp hev with heq | hmem
      · rw [heq]; exact h e (List.mem_cons_self e rest)
      · exact ih d htail ev hmem

theorem EvOk_submitNoteSubGroup (c : Compiler) (l : List CompileEvent)
    (hc : EvOk c) (hl : notesOnly l) :
    EvOk (Compiler.submitNoteSubGroup c l).1 := by
  unfold Compiler.submitNoteSubGroup
  dsimp only
  have hfilled : notesOnly
      (((Compiler.backfillRev c.state l.reverse c.state.quantize).1).reverse) := by
    intro ev hev
    exact backfillRev_notesOnly c.state l.reverse c.state.quantize
      (fun x hx => hl x (List.mem_reverse.mp hx)) ev (List.mem_reverse.mp hev)
  have hfold : ∀ (L : List CompileEvent) (cc : Compiler), EvOk cc → notesOnly L →
      EvOk (L.foldl (fun c ev => c.pushEvent ev.body ev.range) cc) := by
    intro L
    induction L with
    | nil => intro cc h _; exact h
    | cons a L ih =>
      intro cc h hL
      rw [List.foldl_cons]
      refine ih _ (EvOk_pushEvent cc a.body a.range h ?_)
        (fun x hx => hL x (List.mem_cons_of_mem a hx))
      exact fun m hm => ((nmOk_of_isNote (hL a (List.mem_cons_self a L))) m hm).1
  exact hfold _ c hc hfilled

theorem noteGroupStep_EvOk (M : FloatOps) (p : Compiler × List CompileEvent) (nt : Cst)
    (hc : EvOk p.1) (hl : notesOnly p.2) :
    EvOk (Compiler.noteGroupStep M p nt).1 ∧
    notesOnly (Compiler.noteGroupStep M p nt).2 := by
  unfold Compiler.noteGroupStep
  dsimp only
  split
  · split
    · split
      · rename_i c2 notes heq
        constructor
        · have hE := EvOk_parseNote M p.1 nt hc
          rw [heq] at hE
          exact hE
        · intro ev hev
          rcases List.mem_append.mp hev with hcur | hnew
          · exact hl ev hcur
          · obtain ⟨note, _, hnote⟩ := List.mem_map.mp hnew
            rw [← hnote]
            rfl
      · rename_i c2 heq
        refine ⟨?_, hl⟩
        have hE := EvOk_parseNote M p.1 nt hc
        rw [heq] at hE
        exact hE
    · exact ⟨hc, hl⟩
  · split
    · exact ⟨EvOk_submitNoteSubGroup p.1 p.2 hc hl,
        fun ev hev => absurd hev (List.not_mem_nil ev)⟩
    · exact ⟨hc, hl⟩
    · exact ⟨hc, hl⟩

theorem EvOk_noteGroupFinish (c : Compiler) (K : Nat) (n : Cst) (hc : EvOk c) :
    EvOk (Compiler.noteGroupFinish c K n) := by
  unfold Compiler.noteGroupFinish
  dsimp only
  split
  · split
    · exact hc
    · exact hc
  · exact hc

theorem EvOk_compileNoteGroup (M : FloatOps) (c : Compiler) (n : Cst) (hc : EvOk c) :
    EvOk (Compiler.compileNoteGroup M c n) := by
  unfold Compiler.compileNoteGroup
  dsimp only
  have hfold : ∀ (toks : List Cst) (p : Compiler × List CompileEvent),
      EvOk p.1 → notesOnly p.2 →
      EvOk (toks.foldl (Compiler.noteGroupStep M) p).1 ∧
      notesOnly (toks.foldl (Compiler.noteGroupStep M) p).2 := by
    intro toks
    induction toks with
    | nil => intro p h1 h2; exact ⟨h1, h2⟩
    | cons a toks ih =>
      intro p h1 h2
      rw [List.foldl_cons]
      obtain ⟨h1a, h2a⟩ := noteGroupStep_EvOk M p a h1 h2
      exact ih _ h1a h2a
  have hnil : notesOnly ([] : List CompileEvent) :=
    fun ev hev => absurd hev (List.not_mem_nil ev)
  exact EvOk_noteGroupFinish _ _ n
    (EvOk_submitNoteSubGroup _ _ (hfold _ _ hc hnil).1 (hfold _ _ hc hnil).2)

theorem EvOk_compileTimeSignatureDef (c : Compiler) (n : Cst) (hc : EvOk c) :
    EvOk (Compiler.compileTimeSignatureDef c n) := by
  unfold Compiler.compileTimeSignatureDef
  dsimp only
  split
  · exact hc
  · split
    · split
      · split
        · exact hc
        · split
          · exact EvOk_pushEvent _ _ _ hc (fun m hm => by simp at hm)
          · exact EvOk_pushEvent _ _ _ hc (fun m hm => by simp at hm)
      · exact hc
    · exact hc

theorem EvOk_compileBpmDef (c : Compiler) (n : Cst) (hc : EvOk c) :
    EvOk (Compiler.compileBpmDef c n) := by
  unfold Compiler.compileBpmDef
  dsimp only
  split
  · exact hc
  · split
    · refine EvOk_pushEvent _ _ _ ?_ (fun m hm => by simp at hm)
      split
      · rename_i durTok heq1
        have h := presE_parseDurationFraction c durTok
        split
        · rename_i c2 dur heq; rw [heq] at h
          exact EvOk_pushEvent _ _ _ (EvOk_of_presE h hc) (fun m hm => by simp at hm)
        · rename_i c2 heq; rw [heq] at h
          exact EvOk_of_presE h hc
      · exact hc
    · exact hc

theorem EvOk_compileBasePitchDef (M : FloatOps) (c : Compiler) (n : Cst) (hc : EvOk c) :
    EvOk (Compiler.compileBasePitchDef M c n) := by
  unfold Compiler.compileBasePitchDef
  dsimp only
  have h1 := presE_basePitchSpellStep M c n
  generalize hq1 : Compiler.basePitchSpellStep M c n = s1 at h1
  have h2 := presE_basePitchChainStep M s1.1 n
  generalize hq2 : Compiler.basePitchChainStep M s1.1 n = s2 at h2
  have h12 : EvOk s2.1 := EvOk_of_presE h2 (EvOk_of_presE h1 hc)
  split
  · exact EvOk_pushEvent _ _ _ (EvOk_pushEvent _ _ _ h12 (fun m hm => by simp at hm))
      (fun m hm => by simp at hm)
  · split
    · exact EvOk_pushEvent _ _ _ (EvOk_pushEvent _ _ _ h12 (fun m hm => by simp at hm))
        (fun m hm => by simp at hm)
    · exact h12

theorem presE_simpleDefChainStep (M : FloatOps) (acc2 : Compiler × List Note)
    (chain : Cst) : presE acc2.1 (Compiler.simpleDefChainStep M acc2 chain).1 := by
  unfold Compiler.simpleDefChainStep
  dsimp only
  split
  · exact rfl
  · have h := presE_parsePitchChainTokens M acc2.1
      (chain.descTokens.filter Compiler.chainTokenFilter) false chain.range
    split
    · rename_i c2 note heq; rw [heq] at h; exact h
    · rename_i c2 heq; rw [heq] at h; exact h

theorem presE_simpleDefNoteStep (M : FloatOps) (acc : Compiler × List Note)
    (child : Cst) : presE acc.1 (Compiler.simpleDefNoteStep M acc child).1 := by
  unfold Compiler.simpleDefNoteStep
  dsimp only
  split
  · exact rfl
  · have hfold : ∀ (l : List Cst) (p : Compiler × List Note),
        presE p.1 (l.foldl (Compiler.simpleDefChainStep M) p).1 := by
      intro l
      induction l with
      | nil => intro p; exact rfl
      | cons a l ih =>
        intro p
        rw [List.foldl_cons]
        exact presE_trans (presE_simpleDefChainStep M p a) (ih _)
    have h := hfold (child.children.filter (fun nn => nn.kind.isNodePitchChain))
      (acc.1, acc.2)
    split
    · exact presE_trans h rfl
    · exact h

theorem extendAt_EvL (l : List CompileEvent) (idx : Nat) (sDur : Rational32)
    (sDurSec : ℚ) (h : ∀ ev ∈ l, nmOk ev) :
    ∀ ev ∈ Compiler.extendAt l idx sDur sDurSec, nmOk ev := by
  unfold Compiler.extendAt
  split
  · rename_i ev0 heq
    split
    · rename_i note heqb
      intro ev hev
      rcases List.mem_or_eq_of_mem_set hev with hmem | heq2
      · exact h ev hmem
      · rw [heq2]
        intro m hm
        simp at hm
    · exact h
  · exact h

theorem sustainLoop_EvL (sStart sDurSec : ℚ) (sDur : Rational32) :
    ∀ (cands : List Nat) (events : List CompileEvent) (buckets : Compiler.Buckets)
      (matched : Bool),
    (∀ ev ∈ events, nmOk ev) →
    ∀ ev ∈ (Compiler.sustainCandidatesLoop sStart sDurSec sDur cands events buckets
      matched).1, nmOk ev := by
  intro cands
  induction cands with
  | nil => intro events buckets matched h; exact h
  | cons idx rest ih =>
    intro events buckets matched h
    unfold Compiler.sustainCandidatesLoop
    dsimp only
    split
    · exact ih events _ _ h
    · split
      · exact ih _ _ _ (extendAt_EvL events idx sDur sDurSec h)
      · exact ih events _ _ h

theorem sustainFold_EvL :
    ∀ (infos : List (ℚ × ℚ × Rational32 × TextRange))
      (acc : List CompileEvent × Compiler.Buckets × List Diagnostic),
    (∀ ev ∈ acc.1, nmOk ev) →
    ∀ ev ∈ (infos.foldl Compiler.sustainInfoStep acc).1, nmOk ev := by
  intro infos
  induction infos with
  | nil => intro acc h; exact h
  | cons info rest ih =>
    intro acc h
    rw [List.foldl_cons]
    refine ih _ ?_
    show ∀ ev ∈ (Compiler.sustainInfoStep acc info).1, nmOk ev
    unfold Compiler.sustainInfoStep
    dsimp only
    exact sustainLoop_EvL info.1 info.2.1 info.2.2.1 _ acc.1 acc.2.1 false h

theorem EvOk_finalizeSustainNotes (c : Compiler) (hc : EvOk c) :
    EvOk (Compiler.finalizeSustainNotes c) := by
  unfold Compiler.finalizeSustainNotes
  dsimp only
  intro ev hev
  have hmem := (List.mem_filter.mp hev).1
  refine sustainFold_EvL _ _ ?_ ev hmem
  exact fun x hx => hc x hx

theorem EvOk_finalizeNegativeDurationNotes (c : Compiler) (hc : EvOk c) :
    EvOk (Compiler.finalizeNegativeDurationNotes c) := by
  unfold Compiler.finalizeNegativeDurationNotes
  dsimp only
  intro ev hev
  obtain ⟨ev0, hmem, heq⟩ := List.mem_map.mp hev
  subst heq
  split
  · rename_i note heqb
    split
    · intro m hm; simp at hm
    · exact hc ev0 hmem
  · exact hc ev0 hmem

theorem EvOk_normalLineStep (M : FloatOps) (c : Compiler) (child : Cst) (hc : EvOk c) :
    EvOk (Compiler.normalLineStep M c child) := by
  unfold Compiler.normalLineStep
  split
  · split
    · exact EvOk_compileBpmDef c child hc
    · exact EvOk_compileTimeSignatureDef c child hc
    · exact EvOk_compileBasePitchDef M c child hc
    · exact EvOk_compileNoteGroup M c child hc
    · exact EvOk_compileNoteGroup M c child hc
    · exact hc
  · split
    · have h := presE_parseDurationFraction c child
      split
      · rename_i c2 dur heq; rw [heq] at h
        exact EvOk_pushEvent _ _ _ (EvOk_of_presE h hc) (fun m hm => by simp at hm)
      · rename_i c2 heq; rw [heq] at h
        exact EvOk_of_presE h hc
    all_goals exact hc

theorem EvOk_compileNormalLine (M : FloatOps) (c : Compiler) (node : Cst)
    (hc : EvOk c) : EvOk (Compiler.compileNormalLine M c node) := by
  unfold Compiler.compileNormalLine
  dsimp only
  have hfold : ∀ (l : List Cst) (cc : Compiler), EvOk cc →
      EvOk (l.foldl (Compiler.normalLineStep M) cc) := by
    intro l
    induction l with
    | nil => intro cc h; exact h
    | cons a l ih =>
      intro cc h
      rw [List.foldl_cons]
      exact ih _ (EvOk_normalLineStep M cc a h)
  have h := hfold node.childrenWithTokens c hc
  generalize hq : node.childrenWithTokens.foldl (Compiler.normalLineStep M) c = c1 at h
  have h2 : EvOk (if c1.state.time.ticks.rgt Rational32.zero &&
      !(c1.state.time.ticks.req c1.state.timeSignature) then
        c1.warn "Line ended but current ticks do not align with time signature" node.range
      else c1) := by
    split
    · exact h
    · exact h
  generalize (if c1.state.time.ticks.rgt Rational32.zero &&
      !(c1.state.time.ticks.req c1.state.timeSignature) then
        c1.warn "Line ended but current ticks do not align with time signature" node.range
      else c1) = c2 at h2
  split
  · exact h2
  · exact h2

theorem EvOk_resetTicks (c : Compiler) (hc : EvOk c) : EvOk (Compiler.resetTicks c) := by
  unfold Compiler.resetTicks
  split
  · exact EvOk_pushEvent _ _ _ hc (fun m hm => rfl)
  · exact hc

theorem EvOk_compileMacroDef (M : FloatOps) (c : Compiler) (node : Cst) (hc : EvOk c) :
    EvOk (Compiler.compileMacroDef M c node) := by
  unfold Compiler.compileMacroDef
  split
  · exact hc
  · split
    · split
      · exact hc
      · rename_i chainNode heqc
        dsimp only
        have h := presE_parseBasePitchRhsChainTokens M c
          (chainNode.descTokens.filter Compiler.chainTokenFilter) chainNode.range
        split
        · rename_i c2 note heq; rw [heq] at h; exact EvOk_of_presE h hc
        · rename_i c2 heq; rw [heq] at h; exact EvOk_of_presE h hc
    · dsimp only
      have hfold : ∀ (l : List Cst) (p : Compiler × List Note), EvOk p.1 →
          EvOk (l.foldl (Compiler.simpleDefNoteStep M) p).1 := by
        intro l
        induction l with
        | nil => intro p h; exact h
        | cons a l ih =>
          intro p h
          rw [List.foldl_cons]
          exact ih _ (EvOk_of_presE (presE_simpleDefNoteStep M p a) h)
      exact hfold node.children (c, []) hc
    · split
      · exact hc
      · exact hc
    · exact hc

theorem EvOk_compileTopStep (M : FloatOps) (c : Compiler) (child : Cst) (hc : EvOk c) :
    EvOk (Compiler.compileTopStep M c child) := by
  unfold Compiler.compileTopStep
  split
  · split
    · exact EvOk_compileMacroDef M c child hc
    · exact EvOk_compileMacroDef M c child hc
    · exact EvOk_compileMacroDef M c child hc
    · exact EvOk_compileNormalLine M c child hc
    · exact EvOk_compileNormalLine M c child hc
    · exact hc
    · exact hc
  · split
    · exact hc
    · exact hc

/-- **C10**: every `NewMeasure` event produced by a full compilation from the
initial compiler state carries the default (zero-width, offset-0) source range
and no invocation range — `NewMeasure` is pushed only by `reset_ticks` with
`TextRange::default()`, and `push_event` always sets `range_invoked` to
`None`; no other pass ever produces a `NewMeasure` body. -/
theorem C10_new_measure_default_range (M : FloatOps) (tree : Cst) :
    ∀ ev ∈ (Compiler.compile M Compiler.new tree).events, ∀ m,
      ev.body = EventBody.NewMeasure m →
      ev.range = TextRange.default ∧ ev.rangeInvoked = none := by
  unfold Compiler.compile
  dsimp only
  have hfold : ∀ (l : List Cst) (cc : Compiler), EvOk cc →
      EvOk (l.foldl (fun c child => (Compiler.compileTopStep M c child).resetTicks) cc) := by
    intro l
    induction l with
    | nil => intro cc h; exact h
    | cons a l ih =>
      intro cc h
      rw [List.foldl_cons]
      exact ih _ (EvOk_resetTicks _ (EvOk_compileTopStep M cc a h))
  have h0 : EvOk Compiler.new := fun ev hev => absurd hev (List.not_mem_nil ev)
  exact EvOk_finalizeSustainNotes _
    (EvOk_finalizeNegativeDurationNotes _
      (hfold tree.childrenWithTokens Compiler.new h0))

theorem headD_mem {α : Type} (l : List α) (d : α) (h : l ≠ []) : l.headD d ∈ l := by
  cases l with
  | nil => exact absurd rfl h
  | cons a t => exact List.mem_cons_self a t

/-- A root with one normal line holding a single comma: compiling it advances
ticks and the reset emits one `NewMeasure` event. -/
def C10tree : Cst :=
  Cst.node SyntaxKind.NODE_ROOT ⟨0, 2⟩
    [Cst.node SyntaxKind.NODE_NORMAL_LINE ⟨0, 2⟩
      [Cst.tok SyntaxKind.Comma ⟨0, 1⟩ ","]]

/-- The single event of the compiled `C10tree`. -/
def C10ev : CompileEvent :=
  (Compiler.compile floatOpsZero Compiler.new C10tree).events.headD
    ⟨EventBody.NewMeasure 0, TimeStamp.default, TextRange.default, none⟩

/-- Witness for `C10_new_measure_default_range` at a compilation that emits a
`NewMeasure` event. -/
theorem C10_new_measure_default_range_witness :
    C10ev ∈ (Compiler.compile floatOpsZero Compiler.new C10tree).events ∧
    C10ev.body = EventBody.NewMeasure 1 ∧
    (C10ev.range = TextRange.default ∧ C10ev.rangeInvoked = none) := by
  have hne : (Compiler.compile floatOpsZero Compiler.new C10tree).events ≠ [] := by
    intro hnil
    have hlen : (Compiler.compile floatOpsZero Compiler.new C10tree).events.length = 1 :=
      rfl
    rw [hnil] at hlen
    simp at hlen
  have hmem : C10ev ∈ (Compiler.compile floatOpsZero Compiler.new C10tree).events :=
    headD_mem _ _ hne
  exact ⟨hmem, rfl,
    C10_new_measure_default_range floatOpsZero C10tree C10ev hmem 1 rfl⟩

/-! ### C2: the event-driven parser and sink are lossless -/

namespace Rowan

theorem countTok_append (l1 l2 : List PEvent) :
    countTok (l1 ++ l2) = countTok l1 + countTok l2 := by
  unfold countTok
  rw [List.filter_append, List.length_append]

theorem countTok_cons (e : PEvent) (l : List PEvent) :
    countTok (e :: l) = (if isTokEv e = true then 1 else 0) + countTok l := by
  unfold countTok
  rw [List.filter_cons]
  cases h : isTokEv e <;> simp [h, Nat.add_comm]

theorem countTok_set_nonTok (l : List PEvent) :
    ∀ (i : Nat) (e : PEvent),
    (∀ x, l.get? i = some x → isTokEv x = false) → isTokEv e = false →
    countTok (l.set i e) = countTok l := by
  induction l with
  | nil => intro i e _ _; rfl
  | cons a l ih =>
    intro i e hold hnew
    cases i with
    | zero =>
      rw [List.set_cons_zero, countTok_cons, countTok_cons, hold a rfl, hnew]
    | succ i =>
      rw [List.set_cons_succ, countTok_cons, countTok_cons,
        ih i e (fun x hx => hold x hx) hnew]

theorem drop_set_ge {α : Type} (e : α) :
    ∀ (l : List α) (i j : Nat), j ≤ i →
    (l.set i e).drop j = (l.drop j).set (i - j) e := by
  intro l
  induction l with
  | nil => intro i j _; simp
  | cons a l ih =>
    intro i j h
    cases j with
    | zero => simp
    | succ j =>
      cases i with
      | zero => omega
      | succ i =>
        rw [List.set_cons_succ, List.drop_succ_cons, List.drop_succ_cons,
          ih i j (by omega)]
        congr 1
        omega

theorem countTok_drop_set_nonTok (l : List PEvent) (i j : Nat) (e : PEvent)
    (hold : ∀ x, l.get? i = some x → isTokEv x = false) (hnew : isTokEv e = false) :
    countTok ((l.set i e).drop j) = countTok (l.drop j) := by
  rcases Nat.lt_or_ge i j with h | h
  · rw [List.drop_set_of_lt e l h]
  · rw [drop_set_ge e l i j h]
    refine countTok_set_nonTok (l.drop j) (i - j) e ?_ hnew
    intro x hx
    rw [List.get?_drop] at hx
    have hij : j + (i - j) = i := by omega
    rw [hij] at hx
    exact hold x hx

theorem chainWalk_pres (fuel : Nat) :
    ∀ (events : List PEvent) (idx : Nat) (fp : Option Nat) (kinds : List SyntaxKind),
    (chainWalk fuel events idx fp kinds).1.length = events.length ∧
    ∀ j, countTok ((chainWalk fuel events idx fp kinds).1.drop j) =
      countTok (events.drop j) := by
  induction fuel with
  | zero => intro events idx fp kinds; exact ⟨rfl, fun _ => rfl⟩
  | succ fuel ih =>
    intro events idx fp kinds
    unfold chainWalk
    match fp with
    | none => exact ⟨rfl, fun _ => rfl⟩
    | some steps =>
      dsimp only
      split
      · rename_i kind next heq
        obtain ⟨hl, hc⟩ := ih (events.set (idx + steps) PEvent.tombstone) (idx + steps)
          next (kinds ++ [kind])
        constructor
        · rw [hl, List.length_set]
        · intro j
          rw [hc j,
            countTok_drop_set_nonTok events (idx + steps) j PEvent.tombstone
              (fun x hx => by rw [heq] at hx; cases hx; rfl) rfl]
      · exact ⟨rfl, fun _ => rfl⟩

theorem leavesList_append (l1 l2 : List GTree) :
    GTree.leavesList (l1 ++ l2) = GTree.leavesList l1 ++ GTree.leavesList l2 := by
  induction l1 with
  | nil => rfl
  | cons t ts ih =>
    rw [List.cons_append]
    show GTree.leaves t ++ GTree.leavesList (ts ++ l2) =
      (GTree.leaves t ++ GTree.leavesList ts) ++ GTree.leavesList l2
    rw [ih, List.append_assoc]

theorem builderLeaves_start (b : BuilderState) (k : SyntaxKind) :
    builderLeaves (builderStart b k) = builderLeaves b := by
  unfold builderStart builderLeaves
  dsimp only
  rw [List.reverse_cons, List.map_append, List.flatten_append]
  simp [GTree.leavesList]

theorem builderLeaves_foldlStart (ks : List SyntaxKind) :
    ∀ b : BuilderState, builderLeaves (ks.foldl builderStart b) = builderLeaves b := by
  induction ks with
  | nil => intro b; rfl
  | cons k ks ih =>
    intro b
    rw [List.foldl_cons, ih, builderLeaves_start]

theorem builderLeaves_token (b : BuilderState) (k : SyntaxKind) (t : String) :
    builderLeaves (builderToken b k t) = builderLeaves b ++ [(k, t)] := by
  unfold builderToken builderLeaves
  split
  · rename_i kk cs rest heq
    dsimp only
    rw [heq, List.reverse_cons, List.reverse_cons, List.map_append, List.map_append,
      List.flatten_append, List.flatten_append]
    simp [GTree.leavesList, leavesList_append, GTree.leaves]
  · rename_i heq
    dsimp only
    rw [heq]
    simp [GTree.leavesList, leavesList_append, GTree.leaves]

theorem builderLeaves_finish (b : BuilderState) :
    builderLeaves (builderFinish b) = builderLeaves b := by
  unfold builderFinish builderLeaves
  split
  · rename_i kk cs k2 cs2 rest heq
    dsimp only
    rw [heq]
    rw [List.reverse_cons, List.reverse_cons, List.reverse_cons, List.map_append,
      List.map_append, List.map_append, List.flatten_append, List.flatten_append,
      List.flatten_append]
    simp [GTree.leavesList, leavesList_append, GTree.leaves]
  · rename_i kk cs heq
    dsimp only
    rw [heq]
    simp [GTree.leavesList, leavesList_append, GTree.leaves]
  · exact rfl

end Rowan

namespace Rowan

theorem sinkLoop_leaves (fuel : Nat) :
    ∀ (events : List PEvent) (idx : Nat) (tokens : List PTok) (cur : Nat)
      (b : BuilderState),
    events.length ≤ fuel + idx →
    countTok (events.drop idx) = tokens.length - cur →
    cur ≤ tokens.length →
    (builderLeaves (sinkLoop fuel events idx tokens cur b)).map Prod.snd =
      (builderLeaves b).map Prod.snd ++ (tokens.drop cur).map PTok.text := by
  induction fuel with
  | zero =>
    intro events idx tokens cur b hlen hcnt hcur
    have h1 : events.drop idx = [] := List.drop_eq_nil_of_le (by omega)
    rw [h1] at hcnt
    have hc0 : countTok ([] : List PEvent) = 0 := rfl
    have h2 : tokens.drop cur = [] := List.drop_eq_nil_of_le (by omega)
    show (builderLeaves b).map Prod.snd = _
    rw [h2]
    simp
  | succ fuel ih =>
    intro events idx tokens cur b hlen hcnt hcur
    unfold sinkLoop
    split
    · rename_i hnone
      have hge : events.length ≤ idx := List.get?_eq_none.mp hnone
      have h1 : events.drop idx = [] := List.drop_eq_nil_of_le hge
      rw [h1] at hcnt
      have hc0 : countTok ([] : List PEvent) = 0 := rfl
      have h2 : tokens.drop cur = [] := List.drop_eq_nil_of_le (by omega)
      rw [h2]
      all_goals simp
    · rename_i ev heq
      dsimp only
      obtain ⟨hidx, hget⟩ := List.get?_eq_some.mp heq
      have hdrop : events.drop idx = ev :: events.drop (idx + 1) := by
        rw [List.drop_eq_getElem_cons hidx, show events[idx] = ev from hget]
      rw [hdrop, countTok_cons] at hcnt
      have hdropset : (events.set idx PEvent.tombstone).drop (idx + 1) =
          events.drop (idx + 1) :=
        List.drop_set_of_lt _ _ (Nat.lt_succ_self idx)
      split
      · rename_i kind fp
        generalize hw : chainWalk (events.set idx PEvent.tombstone).length
          (events.set idx PEvent.tombstone) idx fp [kind] = walked
        have hpres := chainWalk_pres (events.set idx PEvent.tombstone).length
          (events.set idx PEvent.tombstone) idx fp [kind]
        rw [hw] at hpres
        obtain ⟨hwl, hwc⟩ := hpres
        have hA : walked.1.length ≤ fuel + (idx + 1) := by
          rw [hwl, List.length_set]
          omega
        have hB : countTok (walked.1.drop (idx + 1)) = tokens.length - cur := by
          rw [hwc (idx + 1), hdropset]
          simpa [isTokEv] using hcnt
        rw [ih walked.1 (idx + 1) tokens cur _ hA hB hcur, builderLeaves_foldlStart]
      · have hA : (events.set idx PEvent.tombstone).length ≤ fuel + (idx + 1) := by
          rw [List.length_set]
          omega
        have hB : countTok ((events.set idx PEvent.tombstone).drop (idx + 1)) =
            tokens.length - cur := by
          rw [hdropset]
          simpa [isTokEv] using hcnt
        rw [ih _ (idx + 1) tokens cur _ hA hB hcur, builderLeaves_finish]
      · rename_i remap
        have hcnt2 : 1 + countTok (events.drop (idx + 1)) = tokens.length - cur := by
          simpa [isTokEv] using hcnt
        have hcurlt : cur < tokens.length := by omega
        split
        · rename_i tk htk
          have htdrop : tokens.drop cur = tk :: tokens.drop (cur + 1) := by
            obtain ⟨hl2, hg2⟩ := List.get?_eq_some.mp htk
            rw [List.drop_eq_getElem_cons hl2, show tokens[cur] = tk from hg2]
          have hA : (events.set idx PEvent.tombstone).length ≤ fuel + (idx + 1) := by
            rw [List.length_set]
            omega
          have hB : countTok ((events.set idx PEvent.tombstone).drop (idx + 1)) =
              tokens.length - (cur + 1) := by
            rw [hdropset]
            omega
          rw [ih _ (idx + 1) tokens (cur + 1) _ hA hB (by omega), builderLeaves_token,
            htdrop]
          all_goals simp
        · rename_i htk
          exfalso
          have : tokens.length ≤ cur := List.get?_eq_none.mp htk
          omega
      · have hA : (events.set idx PEvent.tombstone).length ≤ fuel + (idx + 1) := by
          rw [List.length_set]
          omega
        have hB : countTok ((events.set idx PEvent.tombstone).drop (idx + 1)) =
            tokens.length - cur := by
          rw [hdropset]
          simpa [isTokEv] using hcnt
        rw [ih _ (idx + 1) tokens cur _ hA hB hcur]

end Rowan

namespace Rowan

theorem sig_sublist (L : List (Nat × PTok)) :
    (L.filterMap (fun p => if !p.2.kind.isTrivia then some p.1 else none)).Sublist
      (L.map Prod.fst) := by
  induction L with
  | nil => exact List.Sublist.refl []
  | cons a L ih =>
    rw [List.filterMap_cons, List.map_cons]
    split
    · exact ih.cons _
    · rename_i b hb
      have hb2 : b = a.1 := by
        by_cases hc : (!a.2.kind.isTrivia) = true
        · rw [if_pos hc] at hb
          exact (Option.some.inj hb).symm
        · rw [if_neg hc] at hb
          cases hb
      rw [hb2]
      exact ih.cons₂ _

theorem sig_pairwise (tokens : List PTok) :
    List.Pairwise (· < ·) (significantOf tokens) := by
  have hsub := sig_sublist tokens.enum
  rw [List.enum_map_fst] at hsub
  exact List.Pairwise.sublist hsub (List.pairwise_lt_range _)

theorem sig_bound (tokens : List PTok) :
    ∀ v ∈ significantOf tokens, v < tokens.length := by
  intro v hv
  have hsub := sig_sublist tokens.enum
  rw [List.enum_map_fst] at hsub
  exact List.mem_range.mp (List.Sublist.mem hv hsub)

theorem pushTrivia_spec : ∀ (k : Nat) (p : PState),
    (pushTrivia p k).tokens = p.tokens ∧
    (pushTrivia p k).significantIndices = p.significantIndices ∧
    (pushTrivia p k).cursor = p.cursor ∧
    (pushTrivia p k).rawCursor = p.rawCursor + k ∧
    countTok (pushTrivia p k).events = countTok p.events + k := by
  intro k
  induction k with
  | zero => intro p; exact ⟨rfl, rfl, rfl, rfl, rfl⟩
  | succ k ih =>
    intro p
    obtain ⟨h1, h2, h3, h4, h5⟩ := ih { p with
      events := p.events ++ [PEvent.token none], rawCursor := p.rawCursor + 1 }
    have hstep : pushTrivia p (k + 1) = pushTrivia { p with
      events := p.events ++ [PEvent.token none], rawCursor := p.rawCursor + 1 } k := rfl
    refine ⟨hstep ▸ h1, hstep ▸ h2, hstep ▸ h3, ?_, ?_⟩
    · rw [hstep, h4]
      dsimp only
      omega
    · rw [hstep, h5, countTok_append]
      have ht1 : countTok [PEvent.token none] = 1 := rfl
      have ht2 : countTok ({ p with events := p.events ++ [PEvent.token none], rawCursor := p.rawCursor + 1 } : PState).events = countTok p.events + 1 := by
        show countTok (p.events ++ [PEvent.token none]) = _
        rw [countTok_append, ht1]
      omega

theorem PInv_startNode (tokens : List PTok) (p : PState) (h : PInv tokens p) :
    PInv tokens (p.startNode).1 := by
  obtain ⟨h1, h2, h3, h4, h5⟩ := h
  refine ⟨h1, h2, ?_, h4, h5⟩
  show countTok (p.events ++ [PEvent.tombstone]) = p.rawCursor
  rw [countTok_append, h3]
  have ht : countTok [PEvent.tombstone] = 0 := rfl
  omega

theorem PInv_complete (tokens : List PTok) (p : PState) (pos : Nat) (kind : SyntaxKind)
    (h : PInv tokens p) : PInv tokens (p.complete pos kind) := by
  obtain ⟨h1, h2, h3, h4, h5⟩ := h
  unfold PState.complete
  split
  · rename_i hslot
    refine ⟨h1, h2, ?_, h4, h5⟩
    show countTok ((p.events.set pos (PEvent.startNode kind none)) ++ [PEvent.finishNode])
      = p.rawCursor
    rw [countTok_append, countTok_set_nonTok p.events pos (PEvent.startNode kind none)
      (fun x hx => by rw [hslot] at hx; cases hx; rfl) rfl, h3]
    have ht : countTok [PEvent.finishNode] = 0 := rfl
    omega
  · exact ⟨h1, h2, h3, h4, h5⟩

theorem PInv_abandon (tokens : List PTok) (p : PState) (pos : Nat)
    (h : PInv tokens p) : PInv tokens (p.abandon pos) := by
  obtain ⟨h1, h2, h3, h4, h5⟩ := h
  unfold PState.abandon
  split
  · rename_i hslot
    refine ⟨h1, h2, ?_, h4, h5⟩
    show countTok (p.events.set pos PEvent.tombstone) = p.rawCursor
    rw [countTok_set_nonTok p.events pos PEvent.tombstone
      (fun x hx => by rw [hslot] at hx; cases hx; rfl) rfl, h3]
  · exact ⟨h1, h2, h3, h4, h5⟩

theorem PInv_precede (tokens : List PTok) (p : PState) (pos : Nat)
    (h : PInv tokens p) : PInv tokens (p.precede pos).1 := by
  obtain ⟨h1, h2, h3, h4, h5⟩ := h
  unfold PState.precede
  dsimp only
  have happ : countTok (p.events ++ [PEvent.tombstone]) = p.rawCursor := by
    rw [countTok_append, h3]
    have ht : countTok [PEvent.tombstone] = 0 := rfl
    omega
  split
  · rename_i kind fp hslot
    refine ⟨h1, h2, ?_, h4, h5⟩
    show countTok ((p.events ++ [PEvent.tombstone]).set pos
      (PEvent.startNode kind (some (p.events.length - pos)))) = p.rawCursor
    rw [countTok_set_nonTok (p.events ++ [PEvent.tombstone]) pos
      (PEvent.startNode kind (some (p.events.length - pos)))
      (fun x hx => by rw [hslot] at hx; cases hx; rfl) rfl]
    exact happ
  · exact ⟨h1, h2, happ, h4, h5⟩

theorem PInv_bumpInternal (tokens : List PTok) (p : PState) (remap : Option SyntaxKind)
    (h : PInv tokens p) : PInv tokens (p.bumpInternal remap) := by
  unfold PState.bumpInternal
  split
  · exact h
  · split
    · exact h
    · rename_i rawIndex hgc
      dsimp only
      obtain ⟨h1, h2, h3, h4, h5⟩ := h
      have hle : p.rawCursor ≤ rawIndex := h5 p.cursor rawIndex (le_refl _) hgc
      have hmem : rawIndex ∈ significantOf tokens := by
        rw [← h2]
        exact List.get?_mem hgc
      have hlt : rawIndex < tokens.length := sig_bound tokens rawIndex hmem
      obtain ⟨f1, f2, f3, f4, f5⟩ := pushTrivia_spec (rawIndex - p.rawCursor)
        { p with cursor := p.cursor + 1 }
      refine ⟨f1.trans h1, f2.trans h2, ?_, by
        show rawIndex + 1 ≤ tokens.length
        omega, ?_⟩
      · show countTok ((pushTrivia { p with cursor := p.cursor + 1 }
          (rawIndex - p.rawCursor)).events ++ [PEvent.token remap]) = rawIndex + 1
        rw [countTok_append, f5]
        have ht1 : countTok [PEvent.token remap] = 1 := rfl
        have h3b : countTok ({ p with cursor := p.cursor + 1 } : PState).events
          = p.rawCursor := h3
        omega
      · intro j v hj hv
        unfold PState.flushTriviaUntil at hj hv
        dsimp only at hj hv
        rw [f3] at hj
        rw [f2] at hv
        dsimp only at hj hv
        have hv2 : p.significantIndices.get? j = some v := hv
        have hcj : p.cursor + 1 ≤ j := hj
        rw [h2] at hv2 hgc
        have hpw := sig_pairwise tokens
        rw [List.pairwise_iff_get] at hpw
        obtain ⟨hjlen, hjget⟩ := List.get?_eq_some.mp hv2
        obtain ⟨hclen, hcget⟩ := List.get?_eq_some.mp hgc
        have hlt2 := hpw ⟨p.cursor, hclen⟩ ⟨j, hjlen⟩ (by
          show p.cursor < j
          omega)
        rw [hcget, hjget] at hlt2
        show rawIndex + 1 ≤ v
        omega

theorem PInv_applyOp (tokens : List PTok) (p : PState) (op : POp)
    (h : PInv tokens p) : PInv tokens (applyOp p op) := by
  cases op with
  | startNode => exact PInv_startNode tokens p h
  | bump remap => exact PInv_bumpInternal tokens p remap h
  | complete pos kind => exact PInv_complete tokens p pos kind h
  | abandon pos => exact PInv_abandon tokens p pos h
  | precede pos => exact PInv_precede tokens p pos h

theorem PInv_runOps (tokens : List PTok) (ops : List POp) :
    ∀ p : PState, PInv tokens p → PInv tokens (runOps p ops) := by
  induction ops with
  | nil => intro p h; exact h
  | cons op ops ih =>
    intro p h
    show PInv tokens (runOps (applyOp p op) ops)
    exact ih _ (PInv_applyOp tokens p op h)

theorem parseDriver_countTok (tokens : List PTok) (ops : List POp) :
    countTok (parseDriver tokens ops).events = tokens.length := by
  unfold parseDriver
  dsimp only
  have h0 : PInv tokens (PState.new tokens) :=
    ⟨rfl, rfl, rfl, Nat.zero_le _, fun j v _ _ => Nat.zero_le v⟩
  have h2 := PInv_runOps tokens ops _ (PInv_startNode tokens (PState.new tokens) h0)
  generalize hpR : runOps ((PState.new tokens).startNode).1 ops = pR at h2
  obtain ⟨g1, g2, g3, g4, g5⟩ := h2
  obtain ⟨f1, f2, f3, f4, f5⟩ := pushTrivia_spec (pR.tokens.length - pR.rawCursor) pR
  have hlenT : pR.tokens.length = tokens.length := by rw [g1]
  have hcompT : ∀ (q : PState) (pos : Nat) (kind : SyntaxKind),
      (PState.complete q pos kind).tokens = q.tokens ∧
      (PState.complete q pos kind).rawCursor = q.rawCursor ∧
      countTok (PState.complete q pos kind).events = countTok q.events := by
    intro q pos kind
    unfold PState.complete
    split
    · rename_i hslot
      refine ⟨rfl, rfl, ?_⟩
      show countTok ((q.events.set pos (PEvent.startNode kind none)) ++
        [PEvent.finishNode]) = countTok q.events
      rw [countTok_append]
      rw [countTok_set_nonTok q.events pos (PEvent.startNode kind none)
        (fun x hx => by rw [hslot] at hx; cases hx; rfl) rfl]
      have ht : countTok [PEvent.finishNode] = 0 := rfl
      omega
    · exact ⟨rfl, rfl, rfl⟩
  obtain ⟨c1, c2, c3⟩ := hcompT pR.flushRemainingTokens
    ((PState.new tokens).startNode).2 SyntaxKind.NODE_ROOT
  obtain ⟨e1, e2, e3, e4, e5⟩ := pushTrivia_spec
    ((PState.complete pR.flushRemainingTokens ((PState.new tokens).startNode).2
      SyntaxKind.NODE_ROOT).tokens.length -
     (PState.complete pR.flushRemainingTokens ((PState.new tokens).startNode).2
      SyntaxKind.NODE_ROOT).rawCursor)
    (PState.complete pR.flushRemainingTokens ((PState.new tokens).startNode).2
      SyntaxKind.NODE_ROOT)
  show countTok (pushTrivia _ _).events = tokens.length
  rw [e5, c3]
  have hflT : (pR.flushRemainingTokens).tokens = pR.tokens := f1
  have hflR : (pR.flushRemainingTokens).rawCursor = pR.rawCursor +
      (pR.tokens.length - pR.rawCursor) := f4
  have hflC : countTok (pR.flushRemainingTokens).events = countTok pR.events +
      (pR.tokens.length - pR.rawCursor) := f5
  rw [c1, hflT, hlenT] at e5 ⊢
  rw [c2, hflR] at e5 ⊢
  rw [hflC, g3]
  omega

end Rowan

/-- **C2**: for every token stream and every parser driver script, replaying
the recorded events through the sink produces a tree whose token leaves, in
source order, are exactly the lexed tokens — each token appears exactly once,
so concatenating the leaf texts reproduces the concatenation of the token
texts (the original source). -/
theorem C2_lossless_cst (tokens : List Rowan.PTok) (ops : List Rowan.POp) :
    (Rowan.builderLeaves (Rowan.sinkFinish tokens
        (Rowan.parseDriver tokens ops).events)).map Prod.snd =
      tokens.map Rowan.PTok.text ∧
    String.join ((Rowan.builderLeaves (Rowan.sinkFinish tokens
        (Rowan.parseDriver tokens ops).events)).map Prod.snd) =
      String.join (tokens.map Rowan.PTok.text) := by
  have hmain : (Rowan.builderLeaves (Rowan.sinkFinish tokens
      (Rowan.parseDriver tokens ops).events)).map Prod.snd =
      tokens.map Rowan.PTok.text := by
    unfold Rowan.sinkFinish
    have h := Rowan.sinkLoop_leaves (Rowan.parseDriver tokens ops).events.length
      (Rowan.parseDriver tokens ops).events 0 tokens 0 ⟨[], []⟩
      (by omega)
      (by rw [List.drop_zero, Rowan.parseDriver_countTok]; omega)
      (Nat.zero_le _)
    rw [h]
    simp [Rowan.builderLeaves, Rowan.GTree.leavesList]
  exact ⟨hmain, by rw [hmain]⟩

end Symi
